import Mathlib

/-!
# x86 code generation: slot allocator, liveness walk and lowerer

A shallow embedding of `src/x86.hpp`, `src/x86.cpp` and the driver loop of
`src/codegen.cpp`, followed by theorems about it.

Conventions of the embedding.

* Heap objects of LLVM (`llvm::Value`, `llvm::BasicBlock`, `llvm::Function`) are
  identified by their address, a natural number. `std::map` and `std::set` keyed by
  such pointers iterate in address order, and so do the lists that model them.
* A pointer that may be null is an `Option`.
* `int64_t` quantities are integers. The only arithmetic on them is
  `top_of_stack -= 8` and a negation; signed overflow is undefined in C++ and is
  out of reach (it needs 2^60 spills), so no wrap-around is modelled. The
  `uint64_t` register priorities are natural numbers below 2^64 and their
  conversion to `int64_t` is explicit (`to_int64`).
* `std::priority_queue` is the list of its elements in insertion order; `top` is
  the first element of least priority. Which of several slots of equal priority
  is on top is not fixed by the C++ standard.
-/

namespace X86

/-! ## Operands and lines (`x86.hpp`) -/

/-- Address of an LLVM heap object. -/
abbrev Addr := Nat

/-- Operand of an emitted line: `x86Immediate`, `x86Register` and `x86Pointer`
(`x86Source` and its subclasses). -/
inductive x86Source where
  | Immediate (val : Int)
  | Register (name : String)
  | Pointer (address : x86Source) (offset : Int)
  deriving DecidableEq, Repr

/-- Allocation site of an `x86Label` object. Labels are compared by address in the
source (`slot_backups` is keyed by `x86Label *`); every label object is created by
one `new` expression, for one block or one pair of blocks, and that is its identity
here. -/
inductive LabelOrigin where
  | start
  | block (b : Addr)
  | phi_edge (incoming : Addr) (b : Addr)
  | phi_done (b : Addr)
  deriving DecidableEq, Repr

/-- An `x86Label` object: its identity and its name. -/
structure x86Label where
  origin : LabelOrigin
  name : String
  deriving DecidableEq, Repr

/-- A line of the output (`x86Instruction` and its subclasses). Operand and label
pointers may be null. -/
inductive x86Instruction where
  | Label (label : Option x86Label)
  | Directive (contents : String)
  | Comment (contents : String)
  | NoArg (opcode : String)
  | Src (opcode : String) (source : Option x86Source)
  | Dst (opcode : String) (destination : Option x86Source)
  | Imm (opcode : String) (immediate : Int)
  | Lbl (opcode : String) (label : Option x86Label)
  | SrcDst (opcode : String) (source : Option x86Source) (destination : Option x86Source)
  deriving DecidableEq, Repr

/-- A slot: `std::pair<int64_t, x86Destination *>`. -/
abbrev slot := Int × Option x86Source

/-! ## `std::map` on association lists -/

section Maps

variable {K : Type} {V : Type} [DecidableEq K]

/-- The helper `contains` of `x86.cpp`: `map.find(key) != map.end()`. -/
def contains (m : List (K × V)) (key : K) : Bool :=
  m.any (fun e => decide (e.1 = key))

/-- Lookup `map.find(key)`, giving the mapped value. -/
def map_find (m : List (K × V)) (key : K) : Option V :=
  match m with
  | [] => none
  | e :: rest => if e.1 = key then some e.2 else map_find rest key

/-- Insertion of a new entry at its place in key order. -/
def map_place (lt : K → K → Bool) (key : K) (v : V) : List (K × V) → List (K × V)
  | [] => [(key, v)]
  | e :: rest => if lt key e.1 then (key, v) :: e :: rest else e :: map_place lt key v rest

/-- The call `map.insert({key, v})`: nothing happens when the key is present. -/
def map_insert (lt : K → K → Bool) (m : List (K × V)) (key : K) (v : V) : List (K × V) :=
  if contains m key then m else map_place lt key v m

/-- The call `map.erase(key)`. -/
def map_erase (m : List (K × V)) (key : K) : List (K × V) :=
  m.filter (fun e => !decide (e.1 = key))

/-- The expression `map[key]`: the mapped value, after inserting the
value-initialised `dflt` when the key is absent. -/
def map_index (lt : K → K → Bool) (dflt : V) (m : List (K × V)) (key : K) : V × List (K × V) :=
  match map_find m key with
  | some v => (v, m)
  | none => (dflt, map_place lt key dflt m)

end Maps

/-- Order of addresses, the key order of the pointer-keyed maps. -/
def addr_lt (a b : Addr) : Bool := decide (a < b)

/-- Key order of `phi_node_labels`: pairs of addresses, lexicographically. -/
def pair_lt (a b : Addr × Addr) : Bool :=
  decide (a.1 < b.1) || (decide (a.1 = b.1) && decide (a.2 < b.2))

/-- Key order of `slot_backups`. Its keys are heap addresses of labels, which the
source never iterates over; new keys go to the end. -/
def label_lt (_ _ : Option x86Label) : Bool := false

/-! ## `std::priority_queue<slot, std::vector<slot>, slot_comparator>` -/

/-- The least slot among `s` and the slots of the list, the earliest one on ties. -/
def pq_min : slot → List slot → slot
  | s, [] => s
  | s, t :: rest => if t.1 < s.1 then pq_min t rest else pq_min s rest

/-- The call `top()`. On an empty queue it is undefined in C++; the source never does it. -/
def pq_top : List slot → slot
  | [] => (0, none)
  | s :: rest => pq_min s rest

/-- The queue without the first occurrence of a slot. -/
def pq_remove (s : slot) : List slot → List slot
  | [] => []
  | t :: rest => if t = s then rest else t :: pq_remove s rest

/-- The call `pop()`. -/
def pq_pop (q : List slot) : List slot := pq_remove (pq_top q) q

/-- The call `push(s)`. -/
def pq_push (q : List slot) (s : slot) : List slot := q ++ [s]

/-! ## The program object and its slot allocator -/

/-- The allocator snapshot stored in `slot_backups`. -/
abbrev backup := List slot × List (Addr × slot)

/-- The fields of `x86Program` (`x86.hpp`). -/
structure x86Program where
  instructions : List x86Instruction
  labels : List (Addr × Option x86Label)
  phi_node_labels : List ((Addr × Addr) × Option x86Label)
  top_of_stack : Int
  available_slots : List slot
  used_slots : List (Addr × slot)
  slot_backups : List (Option x86Label × backup)

/-- Body of `x86Program::insert_instruction`. -/
def insert_instruction (p : x86Program) (instruction : x86Instruction) : x86Program :=
  { p with instructions := p.instructions ++ [instruction] }

/-- The first half of `x86Program::acquire_slot`: the spill taken when no slot is free. -/
def acquire_spill (p : x86Program) : x86Program :=
  if p.available_slots.isEmpty then
    let top := p.top_of_stack - 8
    let s : slot := (-top, some (x86Source.Pointer (x86Source.Register "rbp") top))
    insert_instruction
      { p with top_of_stack := top, available_slots := pq_push p.available_slots s }
      (x86Instruction.SrcDst "sub" (some (x86Source.Immediate 8)) (some (x86Source.Register "rsp")))
  else p

/-- Body of `x86Program::acquire_slot`: the returned operand and the new state. -/
def acquire_slot (p : x86Program) (instruction : Addr) : Option x86Source × x86Program :=
  let p1 := acquire_spill p
  let s := pq_top p1.available_slots
  (s.2, { p1 with available_slots := pq_pop p1.available_slots,
                  used_slots := map_insert addr_lt p1.used_slots instruction s })

/-- Body of `x86Program::query_slot`. The source reads `used_slots[&instruction]`, which
inserts the value-initialised slot `{0, nullptr}` for an absent key. -/
def query_slot (p : x86Program) (instruction : Addr) : Option x86Source × x86Program :=
  let r := map_index addr_lt ((0, none) : slot) p.used_slots instruction
  (r.1.2, { p with used_slots := r.2 })

/-- Body of `x86Program::release_slot`. -/
def release_slot (p : x86Program) (instruction : Addr) : x86Program :=
  let r := map_index addr_lt ((0, none) : slot) p.used_slots instruction
  { p with used_slots := map_erase r.2 instruction,
           available_slots := pq_push p.available_slots r.1 }

/-- Body of `x86Program::back_up_slots`. -/
def back_up_slots (p : x86Program) (label : Option x86Label) : x86Program :=
  { p with slot_backups :=
      map_insert label_lt p.slot_backups label (p.available_slots, p.used_slots) }

/-- Body of `x86Program::restore_slots`. -/
def restore_slots (p : x86Program) (label : Option x86Label) : x86Program :=
  let r := map_index label_lt (([], []) : backup) p.slot_backups label
  { p with available_slots := r.1.1, used_slots := r.1.2,
           slot_backups := map_erase r.2 label }

/-! ## The intermediate representation, as the lowerer reads it -/

/-- An operand of an IR instruction (`llvm::Value const *`): an `llvm::ConstantInt`
with its sign-extended value, or any other value, known by its address. -/
inductive Value where
  | ConstantInt (sext : Int)
  | Other (addr : Addr)
  deriving DecidableEq, Repr

/-- The predicate of an integer compare (`llvm::CmpInst::Predicate`). -/
inductive Predicate where
  | ICMP_EQ | ICMP_NE | ICMP_UGT | ICMP_UGE | ICMP_ULT | ICMP_ULE
  | ICMP_SGT | ICMP_SGE | ICMP_SLT | ICMP_SLE
  deriving DecidableEq, Repr

/-- The opcode of a binary operator that the driver dispatches to `handle_binop`. -/
inductive BinaryOps where
  | Add | Mul | Sub | SDiv
  deriving DecidableEq, Repr

/-- An instruction that is not a terminator. `addr` is the address of the instruction,
which is also the value it defines. `Call` holds the address of the called function,
`PHI` its incoming (value, block) pairs, `Other` any instruction the driver cannot
deal with. -/
inductive Instruction where
  | Call (addr : Addr) (callee : Addr) (args : List Value)
  | Binary (addr : Addr) (opcode : BinaryOps) (lhs : Value) (rhs : Value)
  | ICmp (addr : Addr) (predicate : Predicate) (lhs : Value) (rhs : Value)
  | PHI (addr : Addr) (incoming : List (Value × Addr))
  | Other (addr : Addr) (operands : List Value)
  deriving DecidableEq, Repr

/-- The terminator of a block: `ret`, unconditional `br`, conditional `br`, or another
terminator with its operands and successors. -/
inductive Terminator where
  | Ret (value : Option Value)
  | Br (target : Addr)
  | CondBr (condition : Value) (succ0 : Addr) (succ1 : Addr)
  | Other (operands : List Value) (successors : List Addr)
  deriving DecidableEq, Repr

/-- A basic block. `name` is what `printAsOperand(os, false)` prints for it, such as
`%7` or `%loop`. The IR parser only builds blocks that end in their one terminator. -/
structure BasicBlock where
  addr : Addr
  name : String
  body : List Instruction
  terminator : Terminator
  deriving DecidableEq, Repr

/-- A function: its name, the addresses of its arguments, its blocks in order. -/
structure Function where
  addr : Addr
  name : String
  args : List Addr
  blocks : List BasicBlock
  deriving DecidableEq, Repr

/-- A module: its functions in order. -/
abbrev Module := List Function

/-- The address of an instruction. -/
def Instruction.addr : Instruction → Addr
  | Call a _ _ => a
  | Binary a _ _ _ => a
  | ICmp a _ _ _ => a
  | PHI a _ => a
  | Other a _ => a

/-- The operand list `instruction.operands()`. A call lists its arguments and then the
called function. -/
def Instruction.operands : Instruction → List Value
  | Call _ callee args => args ++ [Value.Other callee]
  | Binary _ _ lhs rhs => [lhs, rhs]
  | ICmp _ _ lhs rhs => [lhs, rhs]
  | PHI _ incoming => incoming.map (fun e => e.1)
  | Other _ operands => operands

/-- The operand list of a terminator. A branch lists its condition and its target blocks. -/
def Terminator.operands : Terminator → List Value
  | Ret none => []
  | Ret (some v) => [v]
  | Br target => [Value.Other target]
  | CondBr condition succ0 succ1 => [condition, Value.Other succ1, Value.Other succ0]
  | Other operands _ => operands

/-- The successors `getSuccessor(0)`, ..., `getSuccessor(getNumSuccessors() - 1)`. -/
def Terminator.successors : Terminator → List Addr
  | Ret _ => []
  | Br target => [target]
  | CondBr _ succ0 succ1 => [succ0, succ1]
  | Other _ successors => successors

/-- The operand lists of all instructions of a block, in order. -/
def BasicBlock.operand_lists (block : BasicBlock) : List (List Value) :=
  block.body.map Instruction.operands ++ [block.terminator.operands]

/-- The block of a function that lives at an address. -/
def find_block (fn : Function) (a : Addr) : Option BasicBlock :=
  fn.blocks.find? (fun b => decide (b.addr = a))

/-- The function of a module that lives at an address. -/
def find_function (m : Module) (a : Addr) : Option Function :=
  m.find? (fun f => decide (f.addr = a))

/-- The function of a module that owns the block at an address, with that block. -/
def find_parent (m : Module) (a : Addr) : Option (Function × BasicBlock) :=
  match m with
  | [] => none
  | f :: rest =>
    match find_block f a with
    | some b => some (f, b)
    | none => find_parent rest a

/-- The instruction of a function that defines the value at an address. -/
def find_instruction (fn : Function) (a : Addr) : Option Instruction :=
  (fn.blocks.flatMap (fun b => b.body)).find? (fun i => decide (i.addr = a))

/-- Body of `is_entry_block`, the parent function being given. -/
def is_entry_block (fn : Function) (block : BasicBlock) : Bool :=
  match fn.blocks with
  | [] => false
  | b :: _ => decide (b.addr = block.addr)

/-- Whether an instruction is an `llvm::PHINode`. -/
def Instruction.isPHI : Instruction → Bool
  | Instruction.PHI _ _ => true
  | _ => false

/-- Body of `block_starts_with_phi`. -/
def block_starts_with_phi (block : BasicBlock) : Bool :=
  match block.body with
  | [] => false
  | i :: _ => i.isPHI

/-- Body of `instruction_makes_use_of`, on the operand list of the instruction. -/
def instruction_makes_use_of (operands : List Value) (value : Addr) : Bool :=
  operands.any (fun operand => decide (operand = Value.Other value))

/-- The LLVM query `value->isUsedInBasicBlock(block)`: some instruction of the block
has the value as an operand. -/
def isUsedInBasicBlock (block : BasicBlock) (value : Addr) : Bool :=
  block.operand_lists.any (fun ops => instruction_makes_use_of ops value)

/-- The LLVM query `value.use_empty()`: no instruction of the module has the value as
an operand. -/
def use_empty (m : Module) (value : Addr) : Bool :=
  !(m.any (fun f => f.blocks.any (fun b => isUsedInBasicBlock b value)))

/-! ## The liveness walk and the sweep (`x86.cpp`) -/

/-- The loop over the successors of a terminator, shared by `has_reachable_uses` and
`recursively_check_for_uses`: a successor not yet in `seen` is added to it and then
searched with `search`; the loop stops at the first success. The set `seen` is passed
by reference in the source, so it is returned as well. -/
def successors_loop (search : Addr → List Addr → Bool × List Addr) :
    List Addr → List Addr → Bool × List Addr
  | [], seen => (false, seen)
  | child_block :: rest, seen =>
    if child_block ∈ seen then successors_loop search rest seen
    else
      let r := search child_block (child_block :: seen)
      if r.1 then (true, r.2) else successors_loop search rest r.2

/-- Body of `recursively_check_for_uses`. The recursion depth is bounded by `fuel`;
a successor address that is no block of the function has no instruction and no
successor. -/
def recursively_check_for_uses (fn : Function) (value : Addr) :
    Nat → Addr → List Addr → Bool × List Addr
  | fuel, block, seen =>
    match find_block fn block, fuel with
    | none, _ => (false, seen)
    | some _, 0 => (false, seen)
    | some b, fuel + 1 =>
      if isUsedInBasicBlock b value then (true, seen)
      else successors_loop (recursively_check_for_uses fn value fuel) b.terminator.successors seen

/-- The first loop of `has_reachable_uses`: some instruction after position `it` of the
block, up to its terminator, has the value as an operand. Position `it` counts from 0;
the terminator is at position `block.body.length`. -/
def later_use_in_block (block : BasicBlock) (it : Nat) (value : Addr) : Bool :=
  (block.operand_lists.drop (it + 1)).any (fun ops => instruction_makes_use_of ops value)

/-- Body of `has_reachable_uses`. Every recursive call enters a block that was not seen
before, so the number of blocks of the function is fuel enough. -/
def has_reachable_uses (fn : Function) (block : BasicBlock) (it : Nat) (value : Addr) : Bool :=
  if later_use_in_block block it value then true
  else
    (successors_loop (recursively_check_for_uses fn value fn.blocks.length)
      block.terminator.successors []).1

/-- One round of the second loop of `x86Program::dust_out_slots`. -/
def dust_out_one (fn : Function) (block : BasicBlock) (it : Nat) (p : x86Program)
    (value : Addr) : x86Program :=
  if contains p.used_slots value && !has_reachable_uses fn block it value then
    release_slot p value
  else p

/-- Body of `x86Program::dust_out_slots`. -/
def dust_out_slots (fn : Function) (block : BasicBlock) (it : Nat) (p : x86Program) :
    x86Program :=
  let values_to_try := p.used_slots.map (fun e => e.1)
  values_to_try.foldl (dust_out_one fn block it) p

/-! ## Constants of `x86Program` (`x86.hpp`) -/

/-- Conversion of an integer to `uint64_t`. -/
def to_uint64 (x : Int) : Nat := (x % 18446744073709551616).toNat

/-- Conversion of an unsigned 64-bit quantity to `int64_t`. -/
def to_int64 (n : Nat) : Int :=
  if n % 18446744073709551616 < 9223372036854775808 then ((n % 18446744073709551616 : Nat) : Int)
  else ((n % 18446744073709551616 : Nat) : Int) - 18446744073709551616

/-- Lexicographic order of two character sequences, character by character. -/
def chars_lt : List Char → List Char → Bool
  | [], [] => false
  | [], _ :: _ => true
  | _ :: _, [] => false
  | a :: as, b :: bs =>
    if a.toNat < b.toNat then true
    else if b.toNat < a.toNat then false
    else chars_lt as bs

/-- Key order of `std::map<std::string, uint64_t>`: `std::string::operator<`. -/
def string_lt (a b : String) : Bool := chars_lt a.data b.data

/-- The constant `CALLEE_SAVED_REGISTERS`. -/
def CALLEE_SAVED_REGISTERS : List String := ["rbx", "r12", "r13", "r14", "r15"]

/-- The constant `CALLER_SAVED_REGISTERS`. -/
def CALLER_SAVED_REGISTERS : List String := ["rcx", "rdx", "rsi", "r8", "r9", "r10", "r11"]

/-- The initialiser list of `REGISTER_PRIORITIES`, each priority converted to `uint64_t`. -/
def REGISTER_PRIORITIES_init : List (String × Nat) :=
  [("rbx", to_uint64 (-12)), ("rcx", to_uint64 (-11)), ("rdx", to_uint64 (-10)),
   ("rsi", to_uint64 (-9)), ("r8", to_uint64 (-8)), ("r9", to_uint64 (-7)),
   ("r10", to_uint64 (-6)), ("r11", to_uint64 (-5)), ("r12", to_uint64 (-4)),
   ("r13", to_uint64 (-3)), ("r14", to_uint64 (-2)), ("r15", to_uint64 (-1))]

/-- The constant `REGISTER_PRIORITIES`, a `std::map` from register name to priority. -/
def REGISTER_PRIORITIES : List (String × Nat) :=
  REGISTER_PRIORITIES_init.foldl (fun m e => map_insert string_lt m e.1 e.2) []

/-- The default member initialiser of `top_of_stack`, `-8 * CALLEE_SAVED_REGISTERS.size()`,
computed in `size_t` and converted to `int64_t`. -/
def top_of_stack_init : Int :=
  to_int64 (to_uint64 (-8) * CALLEE_SAVED_REGISTERS.length)

/-! ## Construction of the program: the label registry and the register slots -/

/-- The call `label->get_name()`. On a null label it is undefined in the source; the
empty name stands for it. -/
def get_name (label : Option x86Label) : String :=
  match label with
  | some l => l.name
  | none => ""

/-- The name built for a block that is labelled by its number:
`"__" + function name + printed block`, the first character of the printed block
replaced by `_block_`. -/
def block_label_name (function_name : String) (printed : String) : String :=
  "__" ++ function_name ++ ("_block_" ++ printed.drop 1)

/-- Insertion of a new address at its place in a `std::set` of addresses. -/
def set_place (a : Addr) : List Addr → List Addr
  | [] => [a]
  | b :: rest => if a < b then a :: b :: rest else b :: set_place a rest

/-- The call `set.insert(a)`. -/
def set_insert (s : List Addr) (a : Addr) : List Addr :=
  if a ∈ s then s else set_place a s

/-- The incoming blocks `phi_instruction.blocks()` of a phi-node. -/
def Instruction.blocks : Instruction → List Addr
  | Instruction.PHI _ incoming => incoming.map (fun e => e.2)
  | _ => []

/-- The phi-nodes that lead a block: the instructions before the first one that is no
phi-node. -/
def phi_nodes (block : BasicBlock) : List Instruction :=
  block.body.takeWhile Instruction.isPHI

/-- The set `incoming_blocks_to_phi_batch` of a block: the incoming blocks of its
leading phi-nodes, in address order. -/
def incoming_blocks_to_phi_batch (block : BasicBlock) : List Addr :=
  (phi_nodes block).foldl (fun s i => i.blocks.foldl set_insert s) []

/-- The label name that the constructor builds for an incoming block. An address that is
no block of the module does not occur in parsed IR; empty names stand for it. -/
def incoming_block_label (m : Module) (incoming_block : Addr) : String :=
  match find_parent m incoming_block with
  | some (f, b) => block_label_name f.name b.name
  | none => block_label_name "" ""

/-- One round of the loop over blocks in the constructor. The second component is
`main_label`. -/
def construct_block (m : Module) (function : Function)
    (acc : x86Program × Option x86Label) (block : BasicBlock) :
    x86Program × Option x86Label :=
  let p := acc.1
  let named : x86Program × Option x86Label :=
    if is_entry_block function block then
      let label : x86Label := { origin := LabelOrigin.block block.addr, name := function.name }
      ({ p with labels := map_insert addr_lt p.labels block.addr (some label) },
       if function.name = "main" then some label else acc.2)
    else
      let label : x86Label :=
        { origin := LabelOrigin.block block.addr,
          name := block_label_name function.name block.name }
      ({ p with labels := map_insert addr_lt p.labels block.addr (some label) }, acc.2)
  let r := map_index addr_lt none named.1.labels block.addr
  let block_label := get_name r.1
  let p2 : x86Program := { named.1 with labels := r.2 }
  ((incoming_blocks_to_phi_batch block).foldl
      (fun q incoming_block =>
        let label : x86Label :=
          { origin := LabelOrigin.phi_edge incoming_block block.addr,
            name := "__PHI_FROM_" ++ incoming_block_label m incoming_block ++ "_TO_" ++ block_label }
        let key : Addr × Addr := (incoming_block, block.addr)
        { q with phi_node_labels := map_insert pair_lt q.phi_node_labels key (some label) })
      p2,
   named.2)

/-- The program before the constructor body runs. -/
def x86Program.empty : x86Program :=
  { instructions := [], labels := [], phi_node_labels := [],
    top_of_stack := top_of_stack_init, available_slots := [], used_slots := [],
    slot_backups := [] }

/-- The free queue after the loop "Make the register slots" of the constructor. -/
def register_slots (q : List slot) : List slot :=
  REGISTER_PRIORITIES.foldl
    (fun q e => pq_push q (to_int64 e.2, some (x86Source.Register e.1))) q

/-- The ten lines of the program header, `main_label` being given. -/
def program_header (main_label : Option x86Label) : List x86Instruction :=
  [x86Instruction.Comment "this assembly generated by the cs257 code generator",
   x86Instruction.Directive ".globl _start",
   x86Instruction.Label (some { origin := LabelOrigin.start, name := "_start" }),
   x86Instruction.Lbl "callq" main_label,
   x86Instruction.Comment
     "taking main's return value and putting it in %rbx to act as program exit code",
   x86Instruction.SrcDst "movq" (some (x86Source.Register "rax")) (some (x86Source.Register "rbx")),
   x86Instruction.Comment "1 is the linux interrupt code for exit",
   x86Instruction.SrcDst "movq" (some (x86Source.Immediate 1)) (some (x86Source.Register "rax")),
   x86Instruction.Comment "passing control to the kernel",
   x86Instruction.Imm "int" 128]

/-- The first loop of the constructor, over the blocks of all functions: the program
with its label registry, and `main_label`. -/
def construct_labels (m : Module) : x86Program × Option x86Label :=
  m.foldl
    (fun acc function => function.blocks.foldl (construct_block m function) acc)
    (x86Program.empty, (none : Option x86Label))

/-- Body of the constructor `x86Program::x86Program`. -/
def x86Program.construct (m : Module) : x86Program :=
  let r := construct_labels m
  let p := { r.1 with available_slots := register_slots r.1.available_slots }
  (program_header r.2).foldl insert_instruction p

/-! ## The lowerer (`x86.cpp`) -/

/-- The expression `labels[block]`, which inserts a null label for an absent block. -/
def labels_index (p : x86Program) (block : Addr) : Option x86Label × x86Program :=
  let r := map_index addr_lt none p.labels block
  (r.1, { p with labels := r.2 })

/-- The expression `phi_node_labels[{incoming, block}]`, which inserts a null label for
an absent edge. -/
def phi_node_labels_index (p : x86Program) (key : Addr × Addr) : Option x86Label × x86Program :=
  let r := map_index pair_lt none p.phi_node_labels key
  (r.1, { p with phi_node_labels := r.2 })

/-- The operand the handlers read for an IR value: an immediate for an
`llvm::ConstantInt`, and `query_slot` of the value otherwise. -/
def source_of (p : x86Program) (v : Value) : Option x86Source × x86Program :=
  match v with
  | Value.ConstantInt c => (some (x86Source.Immediate c), p)
  | Value.Other a => query_slot p a

/-- The function prologue emitted by `handle_block_begin` for an entry block whose
label is `l`. -/
def prologue (m : Module) (fn : Function) (l : Option x86Label) (p : x86Program) : x86Program :=
  let function_name := get_name l
  let p0 : x86Program := { p with top_of_stack := -40 }
  let p1 := insert_instruction p0 (x86Instruction.Comment ("function prologue for " ++ function_name))
  let p2 := insert_instruction p1 (x86Instruction.Src "pushq" (some (x86Source.Register "rbp")))
  let p3 := insert_instruction p2
    (x86Instruction.SrcDst "movq" (some (x86Source.Register "rsp")) (some (x86Source.Register "rbp")))
  let p4 := insert_instruction p3
    (x86Instruction.Comment ("pushing callee-saved registers for start of " ++ function_name))
  let p5 := CALLEE_SAVED_REGISTERS.foldl
    (fun q register_name =>
      insert_instruction q (x86Instruction.Src "pushq" (some (x86Source.Register register_name))))
    p4
  match fn.args with
  | [arg] =>
    if !use_empty m arg then
      let p6 := insert_instruction p5
        (x86Instruction.Comment ("saving the argument to " ++ function_name))
      let r := acquire_slot p6 arg
      insert_instruction r.2 (x86Instruction.SrcDst "movq" (some (x86Source.Register "rdi")) r.1)
    else p5
  | _ => p5

/-- The first loop of the phi batch: a slot is acquired for each phi-node that has uses. -/
def phi_acquire (m : Module) (p : x86Program) (phi_instruction : Instruction) : x86Program :=
  if !use_empty m phi_instruction.addr then (acquire_slot p phi_instruction.addr).2 else p

/-- The incoming value `getIncomingValueForBlock(block)` of a phi-node, when
`getBasicBlockIndex(block) != -1`. -/
def Instruction.incoming_value : Instruction → Addr → Option Value
  | Instruction.PHI _ incoming, block =>
    (incoming.find? (fun e => decide (e.2 = block))).map (fun e => e.1)
  | _, _ => none

/-- The move emitted for one phi-node on the edge from `incoming_block`. -/
def phi_move (m : Module) (incoming_block : Addr) (p : x86Program) (phi_node : Instruction) :
    x86Program :=
  match phi_node.incoming_value incoming_block with
  | some incoming_value =>
    if !use_empty m phi_node.addr then
      let src := source_of p incoming_value
      let dst := query_slot src.2 phi_node.addr
      insert_instruction dst.2 (x86Instruction.SrcDst "movq" src.1 dst.1)
    else p
  | none => p

/-- The landing pad emitted for the edge from `incoming_block`. -/
def phi_edge (m : Module) (block : BasicBlock) (phi_done : x86Label) (p : x86Program)
    (incoming_block : Addr) : x86Program :=
  if contains p.phi_node_labels (incoming_block, block.addr) then
    let r := phi_node_labels_index p (incoming_block, block.addr)
    let p1 := insert_instruction r.2 (x86Instruction.Label r.1)
    let p2 := (phi_nodes block).foldl (phi_move m incoming_block) p1
    insert_instruction p2 (x86Instruction.Lbl "jmp" (some phi_done))
  else p

/-- The phi batch emitted by `handle_block_begin` for a block whose label is `l`. -/
def phi_batch (m : Module) (block : BasicBlock) (l : Option x86Label) (p : x86Program) :
    x86Program :=
  let p1 := (phi_nodes block).foldl (phi_acquire m) p
  let phi_done : x86Label :=
    { origin := LabelOrigin.phi_done block.addr, name := "__PHI_DONE_" ++ get_name l }
  let p2 := (incoming_blocks_to_phi_batch block).foldl (phi_edge m block phi_done) p1
  insert_instruction p2 (x86Instruction.Label (some phi_done))

/-- Body of `x86Program::handle_block_begin`. -/
def handle_block_begin (m : Module) (fn : Function) (block : BasicBlock) (p : x86Program) :
    x86Program :=
  let r := labels_index p block.addr
  let p1 := insert_instruction r.2 (x86Instruction.Label r.1)
  let p2 := if contains p1.slot_backups r.1 then restore_slots p1 r.1 else p1
  let p3 := if is_entry_block fn block then prologue m fn r.1 p2 else p2
  if block_starts_with_phi block then phi_batch m block r.1 p3 else p3

/-- Body of `x86Program::handle_ret`, for a return of `return_value`. -/
def handle_ret (p : x86Program) (return_value : Option Value) : x86Program :=
  let p1 :=
    match return_value with
    | some v =>
      let q := insert_instruction p (x86Instruction.Comment "sticking return value into %rax")
      let src := source_of q v
      insert_instruction src.2 (x86Instruction.SrcDst "movq" src.1 (some (x86Source.Register "rax")))
    | none => p
  let p2 := insert_instruction p1 (x86Instruction.Comment "popping callee-saved registers")
  let r := CALLEE_SAVED_REGISTERS.reverse.foldl
    (fun (acc : x86Program × Int) register_name =>
      (insert_instruction acc.1
        (x86Instruction.SrcDst "movq"
          (some (x86Source.Pointer (x86Source.Register "rbp") acc.2))
          (some (x86Source.Register register_name))),
       acc.2 + 8))
    (p2, -(8 * (CALLEE_SAVED_REGISTERS.length : Int)))
  let p3 := insert_instruction r.1 (x86Instruction.Comment "tearing down the stack and returning")
  let p4 := insert_instruction p3 (x86Instruction.NoArg "leaveq")
  insert_instruction p4 (x86Instruction.NoArg "retq")

/-- The address of the entry block of the function called by a call. A call of a function
without blocks is undefined in the source. -/
def callee_entry_block (m : Module) (callee : Addr) : Option Addr :=
  match find_function m callee with
  | some f => f.blocks.head?.map (fun b => b.addr)
  | none => none

/-- Body of `x86Program::handle_call` for the call at `addr`, once `labels[&entry_block]`
has been read: `r` holds that label and the state. -/
def handle_call_labelled (m : Module) (r : Option x86Label × x86Program) (addr : Addr)
    (args : List Value) : x86Program :=
  let function_name := get_name r.1
  let p1 := insert_instruction r.2
    (x86Instruction.Comment ("pushing caller-saved registers before call to " ++ function_name))
  let p2 := CALLER_SAVED_REGISTERS.foldl
    (fun q register_name =>
      insert_instruction q (x86Instruction.Src "pushq" (some (x86Source.Register register_name))))
    p1
  let p3 :=
    match args with
    | arg :: _ =>
      let q := insert_instruction p2
        (x86Instruction.Comment ("passing argument to " ++ function_name ++ " in %rdi"))
      let src := source_of q arg
      insert_instruction src.2 (x86Instruction.SrcDst "movq" src.1 (some (x86Source.Register "rdi")))
    | [] => p2
  let p4 := insert_instruction p3 (x86Instruction.Comment ("calling " ++ function_name))
  let p5 := insert_instruction p4 (x86Instruction.Lbl "callq" r.1)
  let p6 := insert_instruction p5
    (x86Instruction.Comment ("popping caller-saved registers after call to " ++ function_name))
  let p7 := CALLER_SAVED_REGISTERS.reverse.foldl
    (fun q register_name =>
      insert_instruction q (x86Instruction.Dst "popq" (some (x86Source.Register register_name))))
    p6
  if !use_empty m addr then
    let p8 := insert_instruction p7
      (x86Instruction.Comment ("saving the value returned from " ++ function_name))
    let s := acquire_slot p8 addr
    insert_instruction s.2 (x86Instruction.SrcDst "movq" (some (x86Source.Register "rax")) s.1)
  else p7

/-- Body of `x86Program::handle_call`, for the call at `addr` of the function at `callee`. -/
def handle_call (m : Module) (p : x86Program) (addr : Addr) (callee : Addr) (args : List Value) :
    x86Program :=
  handle_call_labelled m
    (match callee_entry_block m callee with
      | some entry_block => labels_index p entry_block
      | none => (none, p))
    addr args

/-- The label a branch from `this_block` to `target_block` jumps to: the phi-edge label
when the target begins with a phi-node, else the label of the target. -/
def target_label (fn : Function) (this_block : Addr) (p : x86Program) (target_block : Addr) :
    Option x86Label × x86Program :=
  let starts_with_phi :=
    match find_block fn target_block with
    | some b => block_starts_with_phi b
    | none => false
  if starts_with_phi then phi_node_labels_index p (this_block, target_block)
  else labels_index p target_block

/-- The two jump opcodes chosen by the switch of `handle_br`. -/
def jump_opcodes : Predicate → String × String
  | Predicate.ICMP_EQ => ("je", "jne")
  | Predicate.ICMP_NE => ("jne", "je")
  | Predicate.ICMP_SGT => ("jg", "jle")
  | Predicate.ICMP_SGE => ("jge", "jl")
  | Predicate.ICMP_SLT => ("jl", "jge")
  | Predicate.ICMP_SLE => ("jle", "jg")
  | _ => ("INVALID JUMP", "INVALID JUMP")

/-- The predicate of the condition of a branch when the condition is an
`llvm::ICmpInst`. -/
def icmp_predicate (fn : Function) (cond : Value) : Option Predicate :=
  match cond with
  | Value.Other a =>
    match find_instruction fn a with
    | some (Instruction.ICmp _ predicate _ _) => some predicate
    | _ => none
  | Value.ConstantInt _ => none

/-- Body of `x86Program::handle_br` for an unconditional branch. -/
def handle_br_unconditional (fn : Function) (block : BasicBlock) (p : x86Program)
    (target_block_1 : Addr) : x86Program :=
  let t1 := target_label fn block.addr p target_block_1
  insert_instruction t1.2 (x86Instruction.Lbl "jmp" t1.1)

/-- Body of `x86Program::handle_br` for a conditional branch. -/
def handle_br_conditional (fn : Function) (block : BasicBlock) (p : x86Program)
    (cond : Value) (target_block_1 : Addr) (target_block_2 : Addr) : x86Program :=
  let t1 := target_label fn block.addr p target_block_1
  let t2 := target_label fn block.addr t1.2 target_block_2
  match icmp_predicate fn cond with
  | some predicate =>
    let opcodes := jump_opcodes predicate
    let p1 := insert_instruction t2.2 (x86Instruction.Lbl opcodes.1 t1.1)
    let p2 := insert_instruction p1 (x86Instruction.Lbl opcodes.2 t2.1)
    let l1 := labels_index p2 target_block_1
    let p3 := back_up_slots l1.2 l1.1
    let l2 := labels_index p3 target_block_2
    back_up_slots l2.2 l2.1
  | none => t2.2

/-- Body of `x86Program::handle_binop` for `addr = op lhs, rhs`. -/
def handle_binop (m : Module) (p : x86Program) (addr : Addr) (op : String)
    (lhs : Value) (rhs : Value) : x86Program :=
  let p1 := insert_instruction p (x86Instruction.Comment "Processing a binary operation")
  let l_src := source_of p1 lhs
  let p2 := insert_instruction l_src.2
    (x86Instruction.SrcDst "movq" l_src.1 (some (x86Source.Register "rax")))
  let r_src := source_of p2 rhs
  let p3 :=
    if op = "add" ∨ op = "sub" then
      insert_instruction r_src.2 (x86Instruction.SrcDst op r_src.1 (some (x86Source.Register "rax")))
    else if op = "mul" ∨ op = "div" then
      insert_instruction r_src.2 (x86Instruction.Src op r_src.1)
    else r_src.2
  let p4 :=
    if !use_empty m addr then
      let s := acquire_slot p3 addr
      insert_instruction s.2 (x86Instruction.SrcDst "movq" (some (x86Source.Register "rax")) s.1)
    else p3
  insert_instruction p4 (x86Instruction.Comment "Finished processing binary operation")

/-- Body of `x86Program::handle_icmp` for a compare of `lhs` and `rhs`. -/
def handle_icmp (p : x86Program) (lhs : Value) (rhs : Value) : x86Program :=
  let p1 := insert_instruction p (x86Instruction.Comment "Processing a comparison instruction")
  let l_src := source_of p1 lhs
  let p2 := insert_instruction l_src.2
    (x86Instruction.SrcDst "movq" l_src.1 (some (x86Source.Register "rax")))
  let r_src := source_of p2 rhs
  let p3 := insert_instruction r_src.2
    (x86Instruction.SrcDst "cmp" r_src.1 (some (x86Source.Register "rax")))
  insert_instruction p3 (x86Instruction.Comment "Finished processing a comparison instruction")

/-! ## The driver loop (`codegen.cpp`) -/

/-- The opcode string the driver passes to `handle_binop`. -/
def binop_name : BinaryOps → String
  | BinaryOps.Add => "add"
  | BinaryOps.Mul => "mul"
  | BinaryOps.Sub => "sub"
  | BinaryOps.SDiv => "div"

/-- The switch of the driver, for an instruction that is no terminator. -/
def handle_instruction (m : Module) (p : x86Program) : Instruction → x86Program
  | Instruction.Call addr callee args => handle_call m p addr callee args
  | Instruction.Binary addr opcode lhs rhs => handle_binop m p addr (binop_name opcode) lhs rhs
  | Instruction.ICmp _ _ lhs rhs => handle_icmp p lhs rhs
  | Instruction.PHI _ _ => p
  | Instruction.Other _ _ => p

/-- The switch of the driver, for a terminator. -/
def handle_terminator (fn : Function) (block : BasicBlock) (p : x86Program) :
    Terminator → x86Program
  | Terminator.Ret value => handle_ret p value
  | Terminator.Br target => handle_br_unconditional fn block p target
  | Terminator.CondBr cond succ0 succ1 => handle_br_conditional fn block p cond succ0 succ1
  | Terminator.Other _ _ => p

/-- The switch of the driver at position `it` of a block. -/
def handle_at (m : Module) (fn : Function) (block : BasicBlock) (it : Nat) (p : x86Program) :
    x86Program :=
  match block.body.get? it with
  | some i => handle_instruction m p i
  | none => handle_terminator fn block p block.terminator

/-- A step of the driver: the beginning of a block, the handler of the instruction at a
position, or the sweep after it. -/
inductive Step where
  | block_begin (fn : Function) (block : BasicBlock)
  | handle (fn : Function) (block : BasicBlock) (it : Nat)
  | dust (fn : Function) (block : BasicBlock) (it : Nat)

/-- The effect of one step of the driver. -/
def run_step (m : Module) (p : x86Program) : Step → x86Program
  | Step.block_begin fn block => handle_block_begin m fn block p
  | Step.handle fn block it => handle_at m fn block it p
  | Step.dust fn block it => dust_out_slots fn block it p

/-- The steps the driver takes for one block. -/
def block_steps (fn : Function) (block : BasicBlock) : List Step :=
  Step.block_begin fn block ::
    (List.range (block.body.length + 1)).flatMap
      (fun it => [Step.handle fn block it, Step.dust fn block it])

/-- The steps the driver takes for a module: functions in order, blocks in order. -/
def module_steps (m : Module) : List Step :=
  m.flatMap (fun fn => fn.blocks.flatMap (block_steps fn))

/-- The program after the first `n` steps of the driver on a module. -/
def lower_steps (m : Module) (n : Nat) : x86Program :=
  ((module_steps m).take n).foldl (run_step m) (x86Program.construct m)

/-- The program the driver prints: construction, then all steps. -/
def lower (m : Module) : x86Program :=
  (module_steps m).foldl (run_step m) (x86Program.construct m)

/-! ## Printing (`x86.cpp`) -/

/-- What `os << val` writes for an `int64_t`: its signed decimal. -/
def print_int64 (val : Int) : String := toString val

/-- Bodies of `x86Immediate::print_as_pointer`, `x86Register::print_as_pointer` and
`x86Pointer::print_as_pointer`: what they write to `os`. The last one writes nothing to
`os` (its message goes to the error stream). -/
def x86Source.print_as_pointer : x86Source → Int → String
  | x86Source.Immediate val, _ => print_int64 val
  | x86Source.Register name, offset => print_int64 offset ++ "(" ++ ("%" ++ name) ++ ")"
  | x86Source.Pointer _ _, _ => ""

/-- Bodies of `x86Immediate::print`, `x86Register::print` and `x86Pointer::print`. -/
def x86Source.print : x86Source → String
  | x86Source.Immediate val => "$" ++ print_int64 val
  | x86Source.Register name => "%" ++ name
  | x86Source.Pointer address offset => address.print_as_pointer offset

/-- The call `operand->print(os)` on an operand pointer: undefined on a null pointer. -/
def print_operand : Option x86Source → Option String
  | some s => some s.print
  | none => none

/-- Bodies of the `print` methods of the lines: the text written to `os`, none when a
null operand or a null label is dereferenced. -/
def x86Instruction.print : x86Instruction → Option String
  | x86Instruction.Label (some l) => some (l.name ++ ":\n")
  | x86Instruction.Label none => none
  | x86Instruction.Directive contents => some (contents ++ "\n")
  | x86Instruction.Comment contents => some ("    # " ++ contents ++ "\n")
  | x86Instruction.NoArg opcode => some ("    " ++ opcode ++ "\n")
  | x86Instruction.Src opcode source =>
    match print_operand source with
    | some s => some ("    " ++ opcode ++ " " ++ s ++ "\n")
    | none => none
  | x86Instruction.Dst opcode destination =>
    match print_operand destination with
    | some d => some ("    " ++ opcode ++ " " ++ d ++ "\n")
    | none => none
  | x86Instruction.Imm opcode immediate =>
    some ("    " ++ opcode ++ " " ++ (x86Source.Immediate immediate).print ++ "\n")
  | x86Instruction.Lbl opcode (some l) => some ("    " ++ opcode ++ " " ++ l.name ++ "\n")
  | x86Instruction.Lbl _ none => none
  | x86Instruction.SrcDst opcode source destination =>
    match print_operand source, print_operand destination with
    | some s, some d => some ("    " ++ opcode ++ " " ++ s ++ ", " ++ d ++ "\n")
    | _, _ => none

/-- The loop of `x86Program::print` over a list of lines. -/
def print_lines : List x86Instruction → Option String
  | [] => some ""
  | i :: rest =>
    match i.print, print_lines rest with
    | some s, some t => some (s ++ t)
    | _, _ => none

/-- Body of `x86Program::print`: the text written to `os`. -/
def x86Program.print (p : x86Program) : Option String :=
  print_lines p.instructions

/-! ## Auxiliary definitions for the statements -/

/-- Successive calls of `acquire_slot`, one per value of the list: the operands returned,
in order, and the final state. -/
def acquire_all (p : x86Program) : List Addr → List (Option x86Source) × x86Program
  | [] => ([], p)
  | v :: rest =>
    let r := acquire_slot p v
    let t := acquire_all r.2 rest
    (r.1 :: t.1, t.2)

/-- The part of the state that decides what `acquire_slot` returns and emits: the free
queue and `top_of_stack`. -/
def alloc_core (p : x86Program) : List slot × Int := (p.available_slots, p.top_of_stack)

/-- The effect of `acquire_slot` seen on the free queue and `top_of_stack` alone: the
operand returned, the new free queue and `top_of_stack`, and the lines emitted. -/
def acquire_core (c : List slot × Int) :
    Option x86Source × (List slot × Int) × List x86Instruction :=
  let r := acquire_slot
    { instructions := [], labels := [], phi_node_labels := [], top_of_stack := c.2,
      available_slots := c.1, used_slots := [], slot_backups := [] } 0
  (r.1, alloc_core r.2, r.2.instructions)

/-- The effect of `n` successive calls of `acquire_slot` seen on the free queue and
`top_of_stack` alone. -/
def acquire_core_all (c : List slot × Int) :
    Nat → List (Option x86Source) × (List slot × Int) × List x86Instruction
  | 0 => ([], c, [])
  | n + 1 =>
    let r := acquire_core c
    let t := acquire_core_all r.2.1 n
    (r.1 :: t.1, t.2.1, r.2.2 ++ t.2.2)

/-- The driver on the instructions at positions `i`, ..., `i + n - 1` of a block: for
each, the handler and then the sweep. -/
def lower_range (m : Module) (fn : Function) (block : BasicBlock) (p : x86Program) :
    Nat → Nat → x86Program
  | _, 0 => p
  | i, n + 1 =>
    lower_range m fn block (dust_out_slots fn block i (handle_at m fn block i p)) (i + 1) n

/-- The label the registry holds for a block, null when it holds none: the value of
`labels[block]`. -/
def label_of (p : x86Program) (block : Addr) : Option x86Label :=
  (labels_index p block).1

/-- The value `V` holds the slot `s` in the used table of a state. -/
def Holds (V : Addr) (s : slot) (p : x86Program) : Prop :=
  map_find p.used_slots V = some s

/-- The second state agrees with the first on the allocator (free, used, backups) and on
the label of every block. -/
def SameAlloc (p q : x86Program) : Prop :=
  q.available_slots = p.available_slots ∧ q.used_slots = p.used_slots ∧
  q.slot_backups = p.slot_backups ∧ ∀ b, label_of q b = label_of p b

/-- Whether a step of the driver, taken in state `p`, leaves the slot of `V` alone for
sure: every handler does; a sweep does when `V` has a reachable use from its position; a
block begin does when no snapshot is registered under the label of the block, so that
nothing is restored. -/
def step_keeps (V : Addr) (p : x86Program) : Step → Bool
  | Step.block_begin _ block => !contains p.slot_backups (label_of p block.addr)
  | Step.handle _ _ _ => true
  | Step.dust fn block it => has_reachable_uses fn block it V

/-- Whether every step of a run of the driver from state `p` leaves the slot of `V` alone
for sure. -/
def run_keeps (m : Module) (V : Addr) : x86Program → List Step → Bool
  | _, [] => true
  | p, st :: rest => step_keeps V p st && run_keeps m V (run_step m p st) rest

/-- A successor edge of the control-flow graph of a function: `b` is a successor of the
terminator of the block at `a`. -/
def block_edge (fn : Function) (a b : Addr) : Prop :=
  ∃ blk, find_block fn a = some blk ∧ b ∈ blk.terminator.successors

/-- Some instruction of the block at `d` has the value as an operand. -/
def block_uses (fn : Function) (value : Addr) (d : Addr) : Prop :=
  ∃ blk, find_block fn d = some blk ∧ ∃ ops ∈ blk.operand_lists, Value.Other value ∈ ops

/-- The block addresses of a function that are not in `seen`. -/
def unseen_blocks (fn : Function) (seen : List Addr) : Finset Addr :=
  (fn.blocks.map (fun b => b.addr)).toFinset \ seen.toFinset

/-- An operation of the allocator between a restore and the next one: an acquire, a
release, or a sweep. -/
inductive AllocOp where
  | acquire (value : Addr)
  | release (value : Addr)
  | sweep (fn : Function) (block : BasicBlock) (it : Nat)

/-- The effect of one allocator operation. -/
def run_op (p : x86Program) : AllocOp → x86Program
  | AllocOp.acquire value => (acquire_slot p value).2
  | AllocOp.release value => release_slot p value
  | AllocOp.sweep fn block it => dust_out_slots fn block it p

/-- The effect of a sequence of allocator operations. -/
def run_ops (p : x86Program) (ops : List AllocOp) : x86Program :=
  ops.foldl run_op p

/-- Whether a line of the output is a comment. -/
def is_comment : x86Instruction → Bool
  | x86Instruction.Comment _ => true
  | _ => false

/-- The lines of a listing that are no comments. -/
def code_lines (lines : List x86Instruction) : List x86Instruction :=
  lines.filter (fun i => !is_comment i)

/-- The lines of the second state that come after the lines of the first. -/
def emitted (p q : x86Program) : List x86Instruction :=
  q.instructions.drop p.instructions.length

/-- Whether an operand is a constant or a value that has an entry in the used table. -/
def operand_in_used (p : x86Program) : Value → Bool
  | Value.ConstantInt _ => true
  | Value.Other a => contains p.used_slots a

/-- The label the registry holds for the phi-edge of a pair of blocks, null when it holds
none: the value of `phi_node_labels[{incoming, block}]`. -/
def phi_label_of (p : x86Program) (key : Addr × Addr) : Option x86Label :=
  (phi_node_labels_index p key).1

/-- The effective target label of a branch from `this_block` to `target_block`, in the
words of the specification: the phi-edge label of the pair when the target begins with a
phi-node, the block label of the target otherwise. -/
def effective_label (fn : Function) (this_block : Addr) (p : x86Program) (target_block : Addr) :
    Option x86Label :=
  match find_block fn target_block with
  | some b =>
    if block_starts_with_phi b then phi_label_of p (this_block, target_block)
    else label_of p target_block
  | none => label_of p target_block

/-- Whether the processor takes a conditional jump after `cmp b, a` has compared the
signed values `a` and `b`. -/
def jump_taken (opcode : String) (a b : Int) : Bool :=
  if opcode = "je" then decide (a = b)
  else if opcode = "jne" then decide (a ≠ b)
  else if opcode = "jg" then decide (b < a)
  else if opcode = "jge" then decide (b ≤ a)
  else if opcode = "jl" then decide (a < b)
  else if opcode = "jle" then decide (a ≤ b)
  else false

/-- The allocator state in which the prologue of an entry block runs: the snapshot
registered under the label of the block restored, if there is one, and `top_of_stack`
reset to -40. -/
def prologue_state (p : x86Program) (block : BasicBlock) : x86Program :=
  let q := if contains p.slot_backups (label_of p block.addr)
    then restore_slots p (label_of p block.addr) else p
  { q with top_of_stack := -40 }

/-- The second state reads, for every value, the slot the first state reads for it, a value
without an entry reading the null slot `{0, nullptr}`. -/
def SameReads (p q : x86Program) : Prop :=
  ∀ a, (map_find q.used_slots a).getD ((0, none) : slot)
    = (map_find p.used_slots a).getD ((0, none) : slot)

/-- The part of `handle_block_begin` that comes before the phi batch: the label of the
block, the restore and, for an entry block, the prologue. -/
def batch_start (m : Module) (fn : Function) (block : BasicBlock) (p : x86Program) :
    x86Program :=
  let r := labels_index p block.addr
  let p1 := insert_instruction r.2 (x86Instruction.Label r.1)
  let p2 := if contains p1.slot_backups r.1 then restore_slots p1 r.1 else p1
  if is_entry_block fn block then prologue m fn r.1 p2 else p2

/-- The state after the first loop of the phi batch: a slot acquired for each leading
phi-node that has a use. -/
def batch_acquired (m : Module) (fn : Function) (block : BasicBlock) (p : x86Program) :
    x86Program :=
  (phi_nodes block).foldl (phi_acquire m) (batch_start m fn block p)

/-- The label `__PHI_DONE_<label of the block>` of a block, the registry being that of `p`. -/
def phi_done_label (p : x86Program) (block : BasicBlock) : x86Label :=
  { origin := LabelOrigin.phi_done block.addr,
    name := "__PHI_DONE_" ++ get_name (label_of p block.addr) }

/-- The move of a landing pad for one phi-node, in the words of the specification: if the
phi-node lists the predecessor and has a use, `movq <src>, <phi slot>`, the source being an
immediate for a constant and the queried slot otherwise; else no line. Slots are read in
the state `p`. -/
def phi_move_line (m : Module) (p : x86Program) (incoming_block : Addr)
    (phi_node : Instruction) : List x86Instruction :=
  match phi_node.incoming_value incoming_block with
  | some (Value.ConstantInt c) =>
    if use_empty m phi_node.addr then []
    else [x86Instruction.SrcDst "movq" (some (x86Source.Immediate c))
            (query_slot p phi_node.addr).1]
  | some (Value.Other v) =>
    if use_empty m phi_node.addr then []
    else [x86Instruction.SrcDst "movq" (query_slot p v).1 (query_slot p phi_node.addr).1]
  | none => []

/-- The landing pad of the edge from a predecessor, in the words of the specification: the
label of the edge, one move per leading phi-node, in order, and the jump to the done
label. -/
def phi_pad_lines (m : Module) (block : BasicBlock) (phi_done : x86Label) (p : x86Program)
    (incoming_block : Addr) : List x86Instruction :=
  [x86Instruction.Label (phi_label_of p (incoming_block, block.addr))]
    ++ (phi_nodes block).flatMap (phi_move_line m p incoming_block)
    ++ [x86Instruction.Lbl "jmp" (some phi_done)]

/-- The move lines of the landing pad that a listing holds under an edge label: the lines
after the Label line of the edge, up to the jump that ends the pad. -/
def landing_pad (lines : List x86Instruction) (edge : Option x86Label) : List x86Instruction :=
  ((lines.dropWhile (fun i => decide (i ≠ x86Instruction.Label edge))).drop 1).takeWhile
    (fun i => match i with
      | x86Instruction.Lbl _ _ => false
      | _ => true)

/-- The value an operand of a line reads in a machine state: the constant of an immediate,
the content of a register or stack slot. -/
def read_operand (state : x86Source → Int) : Option x86Source → Int
  | some (x86Source.Immediate c) => c
  | some s => state s
  | none => 0

/-- The machine state after a line, `movq <src>, <dst>` storing in `dst` what `src` reads;
other lines are not executed here. -/
def exec_line (state : x86Source → Int) : x86Instruction → (x86Source → Int)
  | x86Instruction.SrcDst opcode src (some dst) =>
    if opcode = "movq" then fun s => if s = dst then read_operand state src else state s
    else state
  | _ => state

/-- The machine state after the lines of a listing, in their order. -/
def exec_lines (state : x86Source → Int) (lines : List x86Instruction) : x86Source → Int :=
  lines.foldl exec_line state

/-- The label that the constructor registers for a block of a function: named after the
function for the entry block, `__<function>_block_<n>` for a block printed as `%<n>`. -/
def block_label (f : Function) (b : BasicBlock) : x86Label :=
  { origin := LabelOrigin.block b.addr,
    name := if is_entry_block f b then f.name else block_label_name f.name b.name }

/-- The blocks of a module with their functions, in the order of the constructor loop. -/
def all_blocks (m : Module) : List (Function × BasicBlock) :=
  m.flatMap (fun f => f.blocks.map (fun b => (f, b)))

/-- The label of a phi edge as the constructor builds it, `succ_label` being the name of
the label of the successor. -/
def phi_edge_label (m : Module) (incoming_block : Addr) (block : Addr) (succ_label : String) :
    x86Label :=
  { origin := LabelOrigin.phi_edge incoming_block block,
    name := "__PHI_FROM_" ++ incoming_block_label m incoming_block ++ "_TO_" ++ succ_label }

/-- Whether a line is the stack growth `sub $8, %rsp` that `acquire_slot` emits when it
spills. -/
def is_spill_line (i : x86Instruction) : Bool :=
  decide (i = x86Instruction.SrcDst "sub" (some (x86Source.Immediate 8))
    (some (x86Source.Register "rsp")))

/-- The number of spill lines of a listing. -/
def spill_count (lines : List x86Instruction) : Nat :=
  (lines.filter is_spill_line).length

/-- The state `q` holds the lines `lines` followed by further lines, and its
`top_of_stack` is `base` lowered by 8 for each spill line among the further lines. -/
def SpillsFrom (base : Int) (lines : List x86Instruction) (q : x86Program) : Prop :=
  ∃ L, q.instructions = lines ++ L ∧ q.top_of_stack = base - 8 * (spill_count L : Int)

/-- Whether a step of the driver is the beginning of the entry block of a function. -/
def is_entry_begin : Step → Bool
  | Step.block_begin fn block => is_entry_block fn block
  | _ => false

/-- Whether an instruction is an add, sub, mul, div or call that defines the value `V` and
does not have `V` among its own operands. -/
def defines_value (i : Instruction) (V : Addr) : Bool :=
  match i with
  | Instruction.Binary addr _ lhs rhs =>
    decide (addr = V) && decide (lhs ≠ Value.Other V) && decide (rhs ≠ Value.Other V)
  | Instruction.Call addr _ args => decide (addr = V) && decide (Value.Other V ∉ args)
  | _ => false

/-- The state `q` holds the lines of `p` followed by further lines, and the value `V` has
no entry in its used table. -/
def FreshAfter (p : x86Program) (V : Addr) (q : x86Program) : Prop :=
  (∃ L, q.instructions = p.instructions ++ L) ∧ contains q.used_slots V = false

/-- The names of the labels that a listing defines, in order. -/
def defined_labels (lines : List x86Instruction) : List String :=
  lines.filterMap (fun i =>
    match i with
    | x86Instruction.Label l => some (get_name l)
    | _ => none)

/-- A machine state: the content of the registers, by name, and of the 8-byte cells of
memory, by address. -/
structure Machine where
  reg : String → Int
  mem : Int → Int

/-- The value an operand reads in a machine state: the constant of an immediate, the
content of a register, the content of the cell at `offset(%register)`. A null operand
reads 0. -/
def Machine.read (s : Machine) : Option x86Source → Int
  | some (x86Source.Immediate c) => c
  | some (x86Source.Register name) => s.reg name
  | some (x86Source.Pointer (x86Source.Register name) offset) => s.mem (s.reg name + offset)
  | _ => 0

/-- The machine state with a new content of one register. -/
def Machine.set_reg (s : Machine) (name : String) (v : Int) : Machine :=
  { s with reg := fun r => if r = name then v else s.reg r }

/-- The machine state with a new content of one cell of memory. -/
def Machine.set_mem (s : Machine) (a : Int) (v : Int) : Machine :=
  { s with mem := fun x => if x = a then v else s.mem x }

/-- The machine state after a store to an operand: a register or the cell at
`offset(%register)`. -/
def Machine.write (s : Machine) : Option x86Source → Int → Machine
  | some (x86Source.Register name), v => s.set_reg name v
  | some (x86Source.Pointer (x86Source.Register name) offset), v =>
    s.set_mem (s.reg name + offset) v
  | _, _ => s

/-- The machine state after a line, as the processor executes it: `pushq <src>` lowers
`%rsp` by 8 and stores the operand at the new `%rsp`; `movq <src>, <dst>` stores in `dst`
what `src` reads; `leaveq` sets `%rsp` to `%rbp` and pops `%rbp`; `retq` pops the return
address. Other lines are not executed here. -/
def Machine.step (s : Machine) : x86Instruction → Machine
  | x86Instruction.Src opcode source =>
    if opcode = "pushq" then
      (s.set_reg "rsp" (s.reg "rsp" - 8)).set_mem (s.reg "rsp" - 8) (s.read source)
    else s
  | x86Instruction.SrcDst opcode source destination =>
    if opcode = "movq" then s.write destination (s.read source) else s
  | x86Instruction.NoArg opcode =>
    if opcode = "leaveq" then
      (s.set_reg "rsp" (s.reg "rbp" + 8)).set_reg "rbp" (s.mem (s.reg "rbp"))
    else if opcode = "retq" then s.set_reg "rsp" (s.reg "rsp" + 8)
    else s
  | _ => s

/-- The machine state after the lines of a listing, in their order. -/
def Machine.run (s : Machine) (lines : List x86Instruction) : Machine :=
  lines.foldl Machine.step s

/-- The loop over the successors of a terminator, as `successors_loop`, for a search that
may run out of fuel and that keeps a record of the blocks it is called on. The state is
the set `seen` and the record of calls. -/
def successors_loop_fuel
    (search : Addr → List Addr × List Addr → Option (Bool × (List Addr × List Addr))) :
    List Addr → List Addr × List Addr → Option (Bool × (List Addr × List Addr))
  | [], st => some (false, st)
  | child_block :: rest, st =>
    if child_block ∈ st.1 then successors_loop_fuel search rest st
    else
      match search child_block (child_block :: st.1, st.2) with
      | none => none
      | some r => if r.1 then some (true, r.2) else successors_loop_fuel search rest r.2

/-- Body of `recursively_check_for_uses`, as above, with the bound on the depth of the
recursion made visible: the result is none when a call on a block of the function finds
the fuel used up. Every call adds its block to the record of calls. -/
def recursively_check_for_uses_fuel (fn : Function) (value : Addr) :
    Nat → Addr → List Addr × List Addr → Option (Bool × (List Addr × List Addr))
  | fuel, block, st =>
    match find_block fn block, fuel with
    | none, _ => some (false, (st.1, st.2 ++ [block]))
    | some _, 0 => none
    | some b, fuel + 1 =>
      if isUsedInBasicBlock b value then some (true, (st.1, st.2 ++ [block]))
      else
        successors_loop_fuel (recursively_check_for_uses_fuel fn value fuel)
          b.terminator.successors (st.1, st.2 ++ [block])

/-- Body of `has_reachable_uses` with the fuel given: the result and the blocks that
`recursively_check_for_uses` was called on, in order; none when the fuel runs out. -/
def has_reachable_uses_fuel (fn : Function) (block : BasicBlock) (it : Nat) (value : Addr)
    (fuel : Nat) : Option (Bool × List Addr) :=
  if later_use_in_block block it value then some (true, [])
  else
    match successors_loop_fuel (recursively_check_for_uses_fuel fn value fuel)
        block.terminator.successors ([], []) with
    | some r => some (r.1, r.2.2)
    | none => none

/-- The state of the walk is in order: no block is twice in `seen`, and `seen` holds
the blocks of `base` and, before them, the blocks of the record of calls, the latest
first. -/
def WalkInv (base : List Addr) (st : List Addr × List Addr) : Prop :=
  st.1.Nodup ∧ st.1 = st.2.reverse ++ base

/-- Whether no two distinct values of the used table hold the same storage location, a
register or a cell of the stack. -/
def storage_distinct (p : x86Program) : Bool :=
  p.used_slots.all (fun e =>
    p.used_slots.all (fun e2 =>
      decide (e.1 = e2.1) || decide (e.2.2 = none) || decide (e.2.2 ≠ e2.2.2)))

/-- Whether every cell of the stack held by a value of the used table has an offset from
`%rbp` that is not below `top_of_stack`. -/
def spills_within_stack (p : x86Program) : Bool :=
  p.used_slots.all (fun e =>
    match e.2.2 with
    | some (x86Source.Pointer (x86Source.Register "rbp") offset) => decide (p.top_of_stack ≤ offset)
    | _ => true)

/-- The operand with every address moved by `f`. -/
def Value.relocate (f : Addr → Addr) : Value → Value
  | Value.ConstantInt c => Value.ConstantInt c
  | Value.Other a => Value.Other (f a)

/-- The instruction with every address moved by `f`. -/
def Instruction.relocate (f : Addr → Addr) : Instruction → Instruction
  | Instruction.Call a c args => Instruction.Call (f a) (f c) (args.map (Value.relocate f))
  | Instruction.Binary a op l r => Instruction.Binary (f a) op (l.relocate f) (r.relocate f)
  | Instruction.ICmp a pr l r => Instruction.ICmp (f a) pr (l.relocate f) (r.relocate f)
  | Instruction.PHI a inc =>
    Instruction.PHI (f a) (inc.map (Prod.map (Value.relocate f) f))
  | Instruction.Other a ops => Instruction.Other (f a) (ops.map (Value.relocate f))

/-- The terminator with every address moved by `f`. -/
def Terminator.relocate (f : Addr → Addr) : Terminator → Terminator
  | Terminator.Ret v => Terminator.Ret (v.map (Value.relocate f))
  | Terminator.Br t => Terminator.Br (f t)
  | Terminator.CondBr c a b => Terminator.CondBr (c.relocate f) (f a) (f b)
  | Terminator.Other ops succs => Terminator.Other (ops.map (Value.relocate f)) (succs.map f)

/-- The block with every address moved by `f`; its printed name is kept. -/
def BasicBlock.relocate (f : Addr → Addr) (b : BasicBlock) : BasicBlock :=
  { addr := f b.addr, name := b.name, body := b.body.map (Instruction.relocate f),
    terminator := b.terminator.relocate f }

/-- The function with every address moved by `f`; its name is kept. -/
def Function.relocate (f : Addr → Addr) (fn : Function) : Function :=
  { addr := f fn.addr, name := fn.name, args := fn.args.map f,
    blocks := fn.blocks.map (BasicBlock.relocate f) }

/-- The allocation site of a label, the blocks moved by `f`. -/
def LabelOrigin.relocate (f : Addr → Addr) : LabelOrigin → LabelOrigin
  | LabelOrigin.start => LabelOrigin.start
  | LabelOrigin.block b => LabelOrigin.block (f b)
  | LabelOrigin.phi_edge a b => LabelOrigin.phi_edge (f a) (f b)
  | LabelOrigin.phi_done b => LabelOrigin.phi_done (f b)

/-- The label object of the relocated run: same name. -/
def x86Label.relocate (f : Addr → Addr) (l : x86Label) : x86Label :=
  { origin := l.origin.relocate f, name := l.name }

/-- The line of the relocated run: the same line, its label object being the relocated
one. -/
def x86Instruction.relocate (f : Addr → Addr) : x86Instruction → x86Instruction
  | x86Instruction.Label l => x86Instruction.Label (l.map (x86Label.relocate f))
  | x86Instruction.Lbl opcode l => x86Instruction.Lbl opcode (l.map (x86Label.relocate f))
  | x86Instruction.Directive c => x86Instruction.Directive c
  | x86Instruction.Comment c => x86Instruction.Comment c
  | x86Instruction.NoArg o => x86Instruction.NoArg o
  | x86Instruction.Src o a => x86Instruction.Src o a
  | x86Instruction.Dst o a => x86Instruction.Dst o a
  | x86Instruction.Imm o a => x86Instruction.Imm o a
  | x86Instruction.SrcDst o a b => x86Instruction.SrcDst o a b

/-- The allocator snapshot of the relocated run. -/
def relocate_backup (f : Addr → Addr) (bk : backup) : backup :=
  (bk.1, bk.2.map (Prod.map f id))

/-- The program state of the relocated run: the same lines, queue and slots, every key
that is an address moved by `f`. -/
def x86Program.relocate (f : Addr → Addr) (p : x86Program) : x86Program :=
  { instructions := p.instructions.map (x86Instruction.relocate f),
    labels := p.labels.map (Prod.map f (Option.map (x86Label.relocate f))),
    phi_node_labels :=
      p.phi_node_labels.map (Prod.map (Prod.map f f) (Option.map (x86Label.relocate f))),
    top_of_stack := p.top_of_stack,
    available_slots := p.available_slots,
    used_slots := p.used_slots.map (Prod.map f id),
    slot_backups :=
      p.slot_backups.map (Prod.map (Option.map (x86Label.relocate f)) (relocate_backup f)) }

/-- The driver step of the relocated run. -/
def Step.relocate (f : Addr → Addr) : Step → Step
  | Step.block_begin fn block => Step.block_begin (fn.relocate f) (block.relocate f)
  | Step.handle fn block it => Step.handle (fn.relocate f) (block.relocate f) it
  | Step.dust fn block it => Step.dust (fn.relocate f) (block.relocate f) it

/-- The first block of `two_branch_function`: `%c = icmp slt i64 %x, 0`, then
`br i1 %c, label %t, label %b`. -/
def two_branch_entry : BasicBlock :=
  { addr := 1, name := "%0",
    body := [Instruction.ICmp 11 Predicate.ICMP_SLT (Value.Other 10) (Value.ConstantInt 0)],
    terminator := Terminator.CondBr (Value.Other 11) 3 2 }

/-- The second block of `two_branch_function`: `%y = add i64 %x, 1`,
`%d = icmp slt i64 %y, 5`, then `br i1 %d, label %t, label %g`. -/
def two_branch_second : BasicBlock :=
  { addr := 2, name := "%b",
    body := [Instruction.Binary 12 BinaryOps.Add (Value.Other 10) (Value.ConstantInt 1),
             Instruction.ICmp 13 Predicate.ICMP_SLT (Value.Other 12) (Value.ConstantInt 5)],
    terminator := Terminator.CondBr (Value.Other 13) 3 4 }

/-- A function `main(i64 %x)` in which the block `%t` is a successor of two conditional
branches: blocks `%0`, `%b`, `%t` (`ret i64 %x`) and `%g` (`ret i64 %y`), in this order. -/
def two_branch_function : Function :=
  { addr := 100, name := "main", args := [10],
    blocks := [two_branch_entry, two_branch_second,
      { addr := 3, name := "%t", body := [], terminator := Terminator.Ret (some (Value.Other 10)) },
      { addr := 4, name := "%g", body := [], terminator := Terminator.Ret (some (Value.Other 12)) }] }

/-- The module that holds `two_branch_function` only. -/
def two_branch_module : Module := [two_branch_function]

/-- The header of `loop_function`: `%i = phi i64 [0, %entry], [%next, %loop]`,
`%next = add i64 %i, 1`, `%c = icmp slt i64 %next, 10`, then
`br i1 %c, label %loop, label %exit`. -/
def loop_header : BasicBlock :=
  { addr := 2, name := "%loop",
    body := [Instruction.PHI 11 [(Value.ConstantInt 0, 1), (Value.Other 12, 2)],
             Instruction.Binary 12 BinaryOps.Add (Value.Other 11) (Value.ConstantInt 1),
             Instruction.ICmp 13 Predicate.ICMP_SLT (Value.Other 12) (Value.ConstantInt 10)],
    terminator := Terminator.CondBr (Value.Other 13) 2 3 }

/-- A function `main()` with a loop: blocks `%entry` (`br label %loop`), `%loop` and
`%exit` (`ret i64 %next`). -/
def loop_function : Function :=
  { addr := 100, name := "main", args := [],
    blocks := [{ addr := 1, name := "%entry", body := [], terminator := Terminator.Br 2 },
      loop_header,
      { addr := 3, name := "%exit", body := [], terminator := Terminator.Ret (some (Value.Other 12)) }] }

/-- The module that holds `loop_function` only. -/
def loop_module : Module := [loop_function]

/-- A function `@main()` and a function `@__main_block_x()`: the block `%x` of `main`,
which calls the second function, is given the label name `__main_block_x`, the name of
the second function.

    define i64 @main() {              define i64 @__main_block_x() {
    entry: br label %x                  ret i64 0
    x:     %r = call i64 @__main_block_x()    }
           ret i64 %r
    }
-/
def name_clash_module : Module :=
  [{ addr := 100, name := "main", args := [],
     blocks := [{ addr := 1, name := "%entry", body := [], terminator := Terminator.Br 2 },
       { addr := 2, name := "%x", body := [Instruction.Call 11 101 []],
         terminator := Terminator.Ret (some (Value.Other 11)) }] },
   { addr := 101, name := "__main_block_x", args := [],
     blocks := [{ addr := 3, name := "%0", body := [],
                  terminator := Terminator.Ret (some (Value.ConstantInt 0)) }] }]

/-- The number of Label lines of a listing that define a name. -/
def label_definitions (lines : List x86Instruction) (name : String) : Nat :=
  (lines.filter (fun i =>
    match i with
    | x86Instruction.Label l => decide (get_name l = name)
    | _ => false)).length

/-- The label names that the jump and call lines of a listing refer to. -/
def referenced_labels (lines : List x86Instruction) : List String :=
  lines.filterMap (fun i =>
    match i with
    | x86Instruction.Lbl _ l => some (get_name l)
    | _ => none)

/-- The body of a straight-line function that keeps `n` values alive at once: the values
`%v1 = add i64 0, 1`, ..., `%vn = add i64 0, n`, at addresses `base + 1`, ..., `base + n`. -/
def live_values (base : Addr) (n : Nat) : List Instruction :=
  (List.range n).map (fun k =>
    Instruction.Binary (base + k + 1) BinaryOps.Add (Value.ConstantInt 0) (Value.ConstantInt (k + 1)))

/-- The sums that read the values of `live_values` one after the other:
`%s2 = add i64 %v1, %v2`, then `%sk = add i64 %s(k-1), %vk` for `k` up to `n`, at addresses
`base + 100 + k`. -/
def running_sums (base : Addr) (n : Nat) : List Instruction :=
  (List.range (n - 1)).map (fun k =>
    Instruction.Binary (base + 100 + k + 2) BinaryOps.Add
      (Value.Other (if k = 0 then base + 1 else base + 100 + k + 1)) (Value.Other (base + k + 2)))

/-- A function of one block that computes `n` values, adds them up and returns the sum. -/
def sum_function (addr : Addr) (name : String) (block : Addr) (base : Addr) (n : Nat) : Function :=
  { addr := addr, name := name, args := [],
    blocks := [{ addr := block, name := "%0", body := live_values base n ++ running_sums base n,
                 terminator := Terminator.Ret (some (Value.Other (base + 100 + n))) }] }

/-- A module of two straight-line functions: `f` keeps thirteen values alive at once (twelve
values and their first sum), `main` keeps fourteen (thirteen values and their first sum). -/
def spill_module : Module :=
  [sum_function 100 "f" 1 1000 12, sum_function 101 "main" 2 2000 13]

/-- A function `main()` with a loop that carries two values:

    entry: br label %loop
    loop:  %i = phi i64 [0, %entry], [%n1, %loop]
           %j = phi i64 [0, %entry], [%n2, %loop]
           %n1 = add i64 %i, 1
           %n2 = add i64 %j, 1
           %c = icmp slt i64 %n1, 10
           br i1 %c, label %loop, label %exit
    exit:  %t = add i64 %n1, 1
           %u = add i64 %t, %n2
           ret i64 %u
-/
def two_counter_module : Module :=
  [{ addr := 100, name := "main", args := [],
     blocks := [{ addr := 1, name := "%entry", body := [], terminator := Terminator.Br 2 },
       { addr := 2, name := "%loop",
         body := [Instruction.PHI 11 [(Value.ConstantInt 0, 1), (Value.Other 13, 2)],
                  Instruction.PHI 12 [(Value.ConstantInt 0, 1), (Value.Other 14, 2)],
                  Instruction.Binary 13 BinaryOps.Add (Value.Other 11) (Value.ConstantInt 1),
                  Instruction.Binary 14 BinaryOps.Add (Value.Other 12) (Value.ConstantInt 1),
                  Instruction.ICmp 15 Predicate.ICMP_SLT (Value.Other 13) (Value.ConstantInt 10)],
         terminator := Terminator.CondBr (Value.Other 15) 2 3 },
       { addr := 3, name := "%exit",
         body := [Instruction.Binary 16 BinaryOps.Add (Value.Other 13) (Value.ConstantInt 1),
                  Instruction.Binary 17 BinaryOps.Add (Value.Other 16) (Value.Other 14)],
         terminator := Terminator.Ret (some (Value.Other 17)) }] }]

/-- No slot of the free queue is also the slot of a value in used. -/
def slots_disjoint (p : x86Program) : Bool :=
  p.available_slots.all (fun s => !(p.used_slots.any (fun e => decide (e.2 = s))))

/-- The first block of `phi_spill_function`: twelve values `%v1`, ..., `%v12`, then
`br label %join`. -/
def phi_spill_entry : BasicBlock :=
  { addr := 1, name := "%entry", body := live_values 1000 12, terminator := Terminator.Br 2 }

/-- The second block of `phi_spill_function`: `%x = phi i64 [5, %entry]`, the sums of the
twelve values, `%r = add i64 %s12, %x`, then `ret i64 %r`. -/
def phi_spill_join : BasicBlock :=
  { addr := 2, name := "%join",
    body := [Instruction.PHI 11 [(Value.ConstantInt 5, 1)]] ++ running_sums 1000 12
      ++ [Instruction.Binary 14 BinaryOps.Add (Value.Other 1112) (Value.Other 11)],
    terminator := Terminator.Ret (some (Value.Other 14)) }

/-- A function `main()` in which twelve values are live at the beginning of a block that
begins with a phi-node. -/
def phi_spill_function : Function :=
  { addr := 100, name := "main", args := [], blocks := [phi_spill_entry, phi_spill_join] }

/-- The module that holds `phi_spill_function` only. -/
def phi_spill_module : Module := [phi_spill_function]

/-- The header of `counted_loop_function`: `%i = phi i64 [0, %entry], [%next, %body]`,
`%c = icmp slt i64 %i, 10`, then `br i1 %c, label %body, label %exit`. -/
def counted_loop_header : BasicBlock :=
  { addr := 2, name := "%header",
    body := [Instruction.PHI 11 [(Value.ConstantInt 0, 1), (Value.Other 12, 3)],
             Instruction.ICmp 13 Predicate.ICMP_SLT (Value.Other 11) (Value.ConstantInt 10)],
    terminator := Terminator.CondBr (Value.Other 13) 3 4 }

/-- The body of the loop of `counted_loop_function`: `%next = add i64 %i, 1`, then
`br label %header`. -/
def counted_loop_body : BasicBlock :=
  { addr := 3, name := "%body",
    body := [Instruction.Binary 12 BinaryOps.Add (Value.Other 11) (Value.ConstantInt 1)],
    terminator := Terminator.Br 2 }

/-- A function `main()` with a counted loop: blocks `%entry` (`br label %header`),
`%header`, `%body` and `%exit` (`ret i64 %i`), in this order. -/
def counted_loop_function : Function :=
  { addr := 100, name := "main", args := [],
    blocks := [{ addr := 1, name := "%entry", body := [], terminator := Terminator.Br 2 },
      counted_loop_header, counted_loop_body,
      { addr := 4, name := "%exit", body := [], terminator := Terminator.Ret (some (Value.Other 11)) }] }

/-- The module that holds `counted_loop_function` only. -/
def counted_loop_module : Module := [counted_loop_function]

/-- The loop block of `swap_loop_function`, which exchanges two values on every round:
`%a = phi i64 [1, %entry], [%b, %loop]`, `%b = phi i64 [2, %entry], [%a, %loop]`,
`%c = icmp slt i64 %a, %b`, then `br i1 %c, label %loop, label %exit`. -/
def swap_loop_header : BasicBlock :=
  { addr := 2, name := "%loop",
    body := [Instruction.PHI 11 [(Value.ConstantInt 1, 1), (Value.Other 12, 2)],
             Instruction.PHI 12 [(Value.ConstantInt 2, 1), (Value.Other 11, 2)],
             Instruction.ICmp 13 Predicate.ICMP_SLT (Value.Other 11) (Value.Other 12)],
    terminator := Terminator.CondBr (Value.Other 13) 2 3 }

/-- A function `main()` with the loop of `swap_loop_header`: blocks `%entry`
(`br label %loop`), `%loop` and `%exit` (`ret i64 %a`). -/
def swap_loop_function : Function :=
  { addr := 100, name := "main", args := [],
    blocks := [{ addr := 1, name := "%entry", body := [], terminator := Terminator.Br 2 },
      swap_loop_header,
      { addr := 3, name := "%exit", body := [], terminator := Terminator.Ret (some (Value.Other 11)) }] }

/-- The module that holds `swap_loop_function` only. -/
def swap_loop_module : Module := [swap_loop_function]

/-- The machine state in which `%rbx` holds 10 and `%rcx` holds 20. -/
def swap_state : x86Source → Int :=
  fun s => if s = x86Source.Register "rbx" then 10
    else if s = x86Source.Register "rcx" then 20 else 0

/-- A function `main(i64 %x)` with a diamond, the blocks `%A` and `%B` living at the
addresses `a` and `b`:

    entry: %c = icmp slt i64 %x, 0
           br i1 %c, label %A, label %B
    A:     br label %join
    B:     br label %join
    join:  %p = phi i64 [1, %A], [2, %B]
           ret i64 %p
-/
def diamond_function (a b : Addr) : Function :=
  { addr := 100, name := "main", args := [10],
    blocks := [
      { addr := 1, name := "%entry",
        body := [Instruction.ICmp 11 Predicate.ICMP_SLT (Value.Other 10) (Value.ConstantInt 0)],
        terminator := Terminator.CondBr (Value.Other 11) a b },
      { addr := a, name := "%A", body := [], terminator := Terminator.Br 4 },
      { addr := b, name := "%B", body := [], terminator := Terminator.Br 4 },
      { addr := 4, name := "%join",
        body := [Instruction.PHI 12 [(Value.ConstantInt 1, a), (Value.ConstantInt 2, b)]],
        terminator := Terminator.Ret (some (Value.Other 12)) }] }

/-- The module that holds `diamond_function a b` only. -/
def diamond_module (a b : Addr) : Module := [diamond_function a b]

/-- The block of `add_ret_function`: `%1 = add i64 2, 3`, then `ret i64 %1`. -/
def add_ret_block : BasicBlock :=
  { addr := 1, name := "%0",
    body := [Instruction.Binary 11 BinaryOps.Add (Value.ConstantInt 2) (Value.ConstantInt 3)],
    terminator := Terminator.Ret (some (Value.Other 11)) }

/-- A function `main()` of one block, `add_ret_block`. -/
def add_ret_function : Function :=
  { addr := 100, name := "main", args := [], blocks := [add_ret_block] }

/-- The module that holds `add_ret_function` only. -/
def add_ret_module : Module := [add_ret_function]

/-- The block `%B` of `early_return_function`: `ret i64 0`. -/
def early_return_block : BasicBlock :=
  { addr := 3, name := "%B", body := [],
    terminator := Terminator.Ret (some (Value.ConstantInt 0)) }

/-- The block `%J` of `early_return_function`: `ret i64 %y`. -/
def early_return_join : BasicBlock :=
  { addr := 4, name := "%J", body := [],
    terminator := Terminator.Ret (some (Value.Other 12)) }

/-- A function `main(i64 %x)` in which a block that returns is laid out before a block
that uses a value of the entry block:

    entry: %y = add i64 %x, 1
           %c = icmp slt i64 %x, 0
           br i1 %c, label %A, label %B
    A:     br label %J
    B:     ret i64 0
    J:     ret i64 %y
-/
def early_return_function : Function :=
  { addr := 100, name := "main", args := [10],
    blocks := [
      { addr := 1, name := "%entry",
        body := [Instruction.Binary 12 BinaryOps.Add (Value.Other 10) (Value.ConstantInt 1),
                 Instruction.ICmp 11 Predicate.ICMP_SLT (Value.Other 10) (Value.ConstantInt 0)],
        terminator := Terminator.CondBr (Value.Other 11) 2 3 },
      { addr := 2, name := "%A", body := [], terminator := Terminator.Br 4 },
      early_return_block, early_return_join] }

/-- The module that holds `early_return_function` only. -/
def early_return_module : Module := [early_return_function]

/-! ## Lemmas on maps and on the priority queue -/

section MapLemmas

variable {K : Type} {V : Type} [DecidableEq K]

theorem map_find_eq_none_iff (m : List (K × V)) (k : K) :
    map_find m k = none ↔ contains m k = false := by
  induction m with
  | nil => simp [map_find, contains]
  | cons e rest ih =>
    by_cases h : e.1 = k
    · simp [map_find, contains, h]
    · simp only [contains] at ih
      simp [map_find, contains, h, ih]

theorem contains_of_map_find {m : List (K × V)} {k : K} {v : V} (h : map_find m k = some v) :
    contains m k = true := by
  cases hc : contains m k with
  | true => rfl
  | false => rw [(map_find_eq_none_iff m k).mpr hc] at h; cases h

theorem map_find_of_contains {m : List (K × V)} {k : K} (h : contains m k = true) :
    ∃ v, map_find m k = some v := by
  cases hf : map_find m k with
  | some v => exact ⟨v, rfl⟩
  | none => rw [(map_find_eq_none_iff m k).mp hf] at h; cases h

theorem map_find_mem {m : List (K × V)} {k : K} {v : V} (h : map_find m k = some v) :
    (k, v) ∈ m := by
  induction m with
  | nil => simp [map_find] at h
  | cons e rest ih =>
    by_cases he : e.1 = k
    · simp [map_find, he] at h
      have : e = (k, v) := by cases e; simp_all
      simp [this]
    · simp [map_find, he] at h
      exact List.mem_cons_of_mem _ (ih h)

theorem contains_iff_mem_keys (m : List (K × V)) (k : K) :
    contains m k = true ↔ k ∈ m.map Prod.fst := by
  simp [contains]

theorem map_find_place_self (lt : K → K → Bool) (m : List (K × V)) (k : K) (v : V)
    (h : contains m k = false) : map_find (map_place lt k v m) k = some v := by
  induction m with
  | nil => simp [map_place, map_find]
  | cons e rest ih =>
    have h1 : ¬ e.1 = k := by
      intro he; simp [contains, he] at h
    have h2 : contains rest k = false := by
      simp only [contains, List.any_cons, Bool.or_eq_false_iff] at h ⊢
      exact h.2
    by_cases hlt : lt k e.1 = true
    · simp [map_place, hlt, map_find]
    · simp [map_place, hlt, map_find, h1, ih h2]

theorem map_find_place_ne (lt : K → K → Bool) (m : List (K × V)) (k k2 : K) (v : V)
    (h : k2 ≠ k) : map_find (map_place lt k v m) k2 = map_find m k2 := by
  induction m with
  | nil => simp [map_place, map_find, Ne.symm h]
  | cons e rest ih =>
    by_cases hlt : lt k e.1 = true
    · simp [map_place, hlt, map_find, Ne.symm h]
    · obtain ⟨a, b⟩ := e
      by_cases he : a = k2
      · subst he
        simp [map_place, hlt, map_find]
      · simp [map_place, hlt, map_find, he, ih]

theorem map_find_insert_self (lt : K → K → Bool) (m : List (K × V)) (k : K) (v : V)
    (h : contains m k = false) : map_find (map_insert lt m k v) k = some v := by
  simp [map_insert, h, map_find_place_self]

theorem map_find_insert_ne (lt : K → K → Bool) (m : List (K × V)) (k k2 : K) (v : V)
    (h : k2 ≠ k) : map_find (map_insert lt m k v) k2 = map_find m k2 := by
  unfold map_insert
  split
  · rfl
  · exact map_find_place_ne lt m k k2 v h

theorem map_find_insert_of_find (lt : K → K → Bool) (m : List (K × V)) (k k2 : K) (v w : V)
    (h : map_find m k2 = some w) : map_find (map_insert lt m k v) k2 = some w := by
  by_cases hk : k2 = k
  · subst hk
    simp [map_insert, contains_of_map_find h, h]
  · rw [map_find_insert_ne lt m k k2 v hk, h]

theorem map_erase_of_not_contains (m : List (K × V)) (k : K) (h : contains m k = false) :
    map_erase m k = m := by
  induction m with
  | nil => rfl
  | cons e rest ih =>
    simp only [contains, List.any_cons, Bool.or_eq_false_iff, decide_eq_false_iff_not] at h
    have h2 : contains rest k = false := by simpa [contains] using h.2
    simp only [map_erase] at ih ⊢
    simp [List.filter_cons, h.1, ih h2]

theorem map_erase_place (lt : K → K → Bool) (m : List (K × V)) (k : K) (v : V)
    (h : contains m k = false) : map_erase (map_place lt k v m) k = m := by
  induction m with
  | nil => simp [map_place, map_erase]
  | cons e rest ih =>
    simp only [contains, List.any_cons, Bool.or_eq_false_iff, decide_eq_false_iff_not] at h
    have h2 : contains rest k = false := by simpa [contains] using h.2
    have h3 := map_erase_of_not_contains rest k h2
    by_cases hlt : lt k e.1 = true
    · simp only [map_erase] at h3 ⊢
      simp [map_place, hlt, List.filter_cons, h.1, h3]
    · have ih2 := ih h2
      simp only [map_erase] at ih2 ⊢
      simp [map_place, hlt, List.filter_cons, h.1, ih2]

theorem map_find_erase_self (m : List (K × V)) (k : K) : map_find (map_erase m k) k = none := by
  rw [map_find_eq_none_iff]
  simp [contains, map_erase]

theorem contains_erase_self (m : List (K × V)) (k : K) : contains (map_erase m k) k = false := by
  simp [contains, map_erase]

theorem map_find_erase_ne (m : List (K × V)) (k k2 : K) (h : k2 ≠ k) :
    map_find (map_erase m k) k2 = map_find m k2 := by
  induction m with
  | nil => simp [map_erase, map_find]
  | cons e rest ih =>
    simp only [map_erase] at ih ⊢
    obtain ⟨a, b⟩ := e
    by_cases he : a = k
    · subst he
      simp [List.filter_cons, map_find, Ne.symm h, ih]
    · by_cases he2 : a = k2
      · subst he2
        simp [List.filter_cons, he, map_find]
      · simp [List.filter_cons, he, map_find, he2, ih]

theorem map_index_of_find (lt : K → K → Bool) (dflt : V) (m : List (K × V)) (k : K) (v : V)
    (h : map_find m k = some v) : map_index lt dflt m k = (v, m) := by
  simp [map_index, h]

theorem map_find_index_of_find (lt : K → K → Bool) (dflt : V) (m : List (K × V)) (k k2 : K)
    (w : V) (h : map_find m k2 = some w) : map_find (map_index lt dflt m k).2 k2 = some w := by
  unfold map_index
  cases hk : map_find m k with
  | some v => simpa using h
  | none =>
    have hne : k2 ≠ k := by
      intro e; subst e; rw [h] at hk; cases hk
    simpa [map_find_place_ne lt m k k2 dflt hne] using h

end MapLemmas

theorem pq_min_cases (s : slot) (l : List slot) : pq_min s l = s ∨ pq_min s l ∈ l := by
  induction l generalizing s with
  | nil => simp [pq_min]
  | cons t rest ih =>
    unfold pq_min
    split
    · rcases ih t with h | h
      · right; rw [h]; exact List.mem_cons_self _ _
      · right; exact List.mem_cons_of_mem _ h
    · rcases ih s with h | h
      · left; exact h
      · right; exact List.mem_cons_of_mem _ h

theorem pq_min_le (s : slot) (l : List slot) :
    (pq_min s l).1 ≤ s.1 ∧ ∀ t ∈ l, (pq_min s l).1 ≤ t.1 := by
  induction l generalizing s with
  | nil => simp [pq_min]
  | cons t rest ih =>
    unfold pq_min
    split
    · rename_i hlt
      refine ⟨le_trans (ih t).1 (le_of_lt hlt), ?_⟩
      intro u hu
      rcases List.mem_cons.mp hu with rfl | hu
      · exact (ih u).1
      · exact (ih t).2 u hu
    · rename_i hlt
      refine ⟨(ih s).1, ?_⟩
      intro u hu
      rcases List.mem_cons.mp hu with rfl | hu
      · exact le_trans (ih s).1 (not_lt.mp hlt)
      · exact (ih s).2 u hu

theorem pq_remove_perm (s : slot) (q : List slot) (h : s ∈ q) :
    (s :: pq_remove s q).Perm q := by
  induction q with
  | nil => cases h
  | cons t rest ih =>
    by_cases ht : t = s
    · subst ht
      simp [pq_remove]
    · have hmem : s ∈ rest := by
        rcases List.mem_cons.mp h with h1 | h1
        · exact absurd h1.symm ht
        · exact h1
      simp only [pq_remove, ht, if_false]
      exact (List.Perm.swap t s _).trans ((ih hmem).cons t)

theorem pq_top_mem (q : List slot) (h : q ≠ []) : pq_top q ∈ q := by
  cases q with
  | nil => exact absurd rfl h
  | cons s rest =>
    rcases pq_min_cases s rest with h1 | h1
    · simp [pq_top, h1]
    · exact List.mem_cons_of_mem _ h1

theorem pq_top_le (q : List slot) (t : slot) (ht : t ∈ q) : (pq_top q).1 ≤ t.1 := by
  cases q with
  | nil => cases ht
  | cons s rest =>
    rcases List.mem_cons.mp ht with rfl | h
    · exact (pq_min_le t rest).1
    · exact (pq_min_le s rest).2 t h

/-! ## The slot allocator: acquire and release -/

theorem acquire_spill_of_ne_nil (p : x86Program) (h : p.available_slots ≠ []) :
    acquire_spill p = p := by
  unfold acquire_spill
  cases hq : p.available_slots with
  | nil => exact absurd hq h
  | cons a l => simp

/-- C7: on a state whose free queue is not empty, for a value V that is not in used,
`acquire_slot` returns the operand of a slot `s` of least priority in free, removes
exactly that slot from free, records it as `used[V]` (so that `query_slot` of V returns
the same operand, and no other entry of used changes), emits no line and leaves
`top_of_stack` unchanged. -/
theorem acquire_slot_pops_least (p : x86Program) (V : Addr)
    (hfree : p.available_slots ≠ []) (hV : contains p.used_slots V = false) :
    ∃ s : slot, s ∈ p.available_slots ∧ (∀ t ∈ p.available_slots, s.1 ≤ t.1) ∧
      (acquire_slot p V).1 = s.2 ∧
      (acquire_slot p V).2.available_slots = pq_remove s p.available_slots ∧
      (s :: (acquire_slot p V).2.available_slots).Perm p.available_slots ∧
      map_find (acquire_slot p V).2.used_slots V = some s ∧
      (query_slot (acquire_slot p V).2 V).1 = s.2 ∧
      (∀ W, W ≠ V →
        map_find (acquire_slot p V).2.used_slots W = map_find p.used_slots W) ∧
      (acquire_slot p V).2.instructions = p.instructions ∧
      (acquire_slot p V).2.top_of_stack = p.top_of_stack := by
  have hs := acquire_spill_of_ne_nil p hfree
  have hmem := pq_top_mem p.available_slots hfree
  have hfind : map_find (map_insert addr_lt p.used_slots V (pq_top p.available_slots)) V
      = some (pq_top p.available_slots) := map_find_insert_self addr_lt _ V _ hV
  refine ⟨pq_top p.available_slots, hmem, fun t ht => pq_top_le _ t ht, ?_, ?_, ?_, ?_, ?_, ?_, ?_, ?_⟩
  · simp [acquire_slot, hs]
  · simp [acquire_slot, hs, pq_pop]
  · simpa [acquire_slot, hs, pq_pop] using pq_remove_perm _ _ hmem
  · simpa [acquire_slot, hs] using hfind
  · simp only [query_slot, acquire_slot, hs]
    rw [map_index_of_find addr_lt _ _ V _ hfind]
  · intro W hW
    simpa [acquire_slot, hs] using map_find_insert_ne addr_lt p.used_slots V W _ hW
  · simp [acquire_slot, hs]
  · simp [acquire_slot, hs]

/-- Witness of C7: a state with two free registers. -/
theorem acquire_slot_pops_least_witness :
    ∃ s : slot, s ∈ [((-3 : Int), some (x86Source.Register "r13")),
                     ((-12 : Int), some (x86Source.Register "rbx"))] ∧
      (acquire_slot
        { instructions := [], labels := [], phi_node_labels := [], top_of_stack := -40,
          available_slots := [(-3, some (x86Source.Register "r13")),
                              (-12, some (x86Source.Register "rbx"))],
          used_slots := [], slot_backups := [] } 7).1 = s.2 :=
  (acquire_slot_pops_least
    { instructions := [], labels := [], phi_node_labels := [], top_of_stack := -40,
      available_slots := [(-3, some (x86Source.Register "r13")),
                          (-12, some (x86Source.Register "rbx"))],
      used_slots := [], slot_backups := [] } 7 (List.cons_ne_nil _ _) (by decide)).imp
    (fun _ h => ⟨h.1, h.2.2.1⟩)

/-- C8: on a state whose free queue is empty, for a value V that is not in used,
`acquire_slot` lowers `top_of_stack` by exactly 8, appends the one line
`sub $8, %rsp` and nothing else, returns the operand `Memory(rbp, new top_of_stack)`,
records `used[V]` with priority minus the new `top_of_stack`, and leaves free empty. -/
theorem acquire_slot_spills (p : x86Program) (V : Addr)
    (hfree : p.available_slots = []) (hV : contains p.used_slots V = false) :
    (acquire_slot p V).2.top_of_stack = p.top_of_stack - 8 ∧
    (acquire_slot p V).2.instructions = p.instructions ++
      [x86Instruction.SrcDst "sub" (some (x86Source.Immediate 8))
        (some (x86Source.Register "rsp"))] ∧
    (acquire_slot p V).1 =
      some (x86Source.Pointer (x86Source.Register "rbp") (acquire_slot p V).2.top_of_stack) ∧
    map_find (acquire_slot p V).2.used_slots V =
      some (-(acquire_slot p V).2.top_of_stack,
        some (x86Source.Pointer (x86Source.Register "rbp") (acquire_slot p V).2.top_of_stack)) ∧
    (∀ W, W ≠ V →
      map_find (acquire_slot p V).2.used_slots W = map_find p.used_slots W) ∧
    (acquire_slot p V).2.available_slots = [] := by
  have hfind : ∀ s : slot, map_find (map_insert addr_lt p.used_slots V s) V = some s :=
    fun s => map_find_insert_self addr_lt _ V s hV
  refine ⟨?_, ?_, ?_, ?_, ?_, ?_⟩
  · simp [acquire_slot, acquire_spill, hfree, insert_instruction]
  · simp [acquire_slot, acquire_spill, hfree, insert_instruction]
  · simp [acquire_slot, acquire_spill, hfree, insert_instruction, pq_push, pq_top, pq_min]
  · simpa [acquire_slot, acquire_spill, hfree, insert_instruction, pq_push, pq_top, pq_min]
      using hfind _
  · intro W hW
    simpa [acquire_slot, acquire_spill, hfree, insert_instruction]
      using map_find_insert_ne addr_lt p.used_slots V W _ hW
  · simp [acquire_slot, acquire_spill, hfree, insert_instruction, pq_push, pq_top, pq_min, pq_pop,
      pq_remove]

/-- Witness of C8: the first spill of a function, at `-48(%rbp)`. -/
theorem acquire_slot_spills_witness :
    (acquire_slot
      { instructions := [], labels := [], phi_node_labels := [], top_of_stack := -40,
        available_slots := [], used_slots := [], slot_backups := [] } 7).1
      = some (x86Source.Pointer (x86Source.Register "rbp") (-48)) :=
  ((acquire_slot_spills
      { instructions := [], labels := [], phi_node_labels := [], top_of_stack := -40,
        available_slots := [], used_slots := [], slot_backups := [] } 7 rfl (by decide)).2.2.1).trans
    (by decide)

/-- C10: for a value V that holds the slot `s` in used, `release_slot` removes V from
used (no other entry changes), pushes `s`, priority included, onto free, and emits no
line; hence on a state with a free slot and V not in used, `acquire_slot` of V followed
by `release_slot` of V gives back the free queue as a multiset and the used table. -/
theorem release_slot_returns_slot (p : x86Program) (V : Addr) :
    (∀ s : slot, map_find p.used_slots V = some s →
      contains (release_slot p V).used_slots V = false ∧
      (∀ W, W ≠ V → map_find (release_slot p V).used_slots W = map_find p.used_slots W) ∧
      (release_slot p V).available_slots = p.available_slots ++ [s] ∧
      (release_slot p V).instructions = p.instructions ∧
      (release_slot p V).top_of_stack = p.top_of_stack) ∧
    (p.available_slots ≠ [] → contains p.used_slots V = false →
      (release_slot (acquire_slot p V).2 V).available_slots.Perm p.available_slots ∧
      (release_slot (acquire_slot p V).2 V).used_slots = p.used_slots ∧
      (release_slot (acquire_slot p V).2 V).instructions = p.instructions) := by
  constructor
  · intro s hs
    have hi := map_index_of_find addr_lt ((0, none) : slot) p.used_slots V s hs
    refine ⟨?_, ?_, ?_, ?_, ?_⟩
    · simp [release_slot, hi, contains_erase_self]
    · intro W hW
      simpa [release_slot, hi] using map_find_erase_ne p.used_slots V W hW
    · simp [release_slot, hi, pq_push]
    · simp [release_slot]
    · simp [release_slot]
  · intro hfree hV
    have hs := acquire_spill_of_ne_nil p hfree
    have hmem := pq_top_mem p.available_slots hfree
    have hfind : map_find (map_insert addr_lt p.used_slots V (pq_top p.available_slots)) V
        = some (pq_top p.available_slots) := map_find_insert_self addr_lt _ V _ hV
    have hi := map_index_of_find addr_lt ((0, none) : slot) _ V _ hfind
    refine ⟨?_, ?_, ?_⟩
    · simp only [release_slot, acquire_slot, hs, hi, pq_push, pq_pop]
      exact (List.perm_append_singleton _ _).trans (pq_remove_perm _ _ hmem)
    · simp only [release_slot, acquire_slot, hs, hi]
      simp [map_insert, hV, map_erase_place]
    · simp [release_slot, acquire_slot, hs]

/-- Witness of C10: a value holding `rbx` is released, and an acquire is undone. -/
theorem release_slot_returns_slot_witness :
    (release_slot
      { instructions := [], labels := [], phi_node_labels := [], top_of_stack := -40,
        available_slots := [(-3, some (x86Source.Register "r13"))],
        used_slots := [(7, (-12, some (x86Source.Register "rbx")))],
        slot_backups := [] } 7).available_slots
      = [(-3, some (x86Source.Register "r13")), (-12, some (x86Source.Register "rbx"))] ∧
    (release_slot (acquire_slot
      { instructions := [], labels := [], phi_node_labels := [], top_of_stack := -40,
        available_slots := [(-3, some (x86Source.Register "r13"))],
        used_slots := [(7, (-12, some (x86Source.Register "rbx")))],
        slot_backups := [] } 9).2 9).used_slots
      = [(7, (-12, some (x86Source.Register "rbx")))] :=
  ⟨((release_slot_returns_slot _ 7).1 (-12, some (x86Source.Register "rbx")) (by decide)).2.2.1,
   ((release_slot_returns_slot _ 9).2 (by simp) (by decide)).2.1⟩

/-! ## The freshly constructed program -/

theorem foldl_preserves {α β : Type} (P : α → Prop) (f : α → β → α)
    (h : ∀ a b, P a → P (f a b)) (l : List β) (a : α) (ha : P a) : P (l.foldl f a) := by
  induction l generalizing a with
  | nil => exact ha
  | cons b rest ih => exact ih (f a b) (h a b ha)

theorem insert_instructions_frame (l : List x86Instruction) (p : x86Program) :
    (l.foldl insert_instruction p).instructions = p.instructions ++ l ∧
    (l.foldl insert_instruction p).available_slots = p.available_slots ∧
    (l.foldl insert_instruction p).top_of_stack = p.top_of_stack ∧
    (l.foldl insert_instruction p).used_slots = p.used_slots ∧
    (l.foldl insert_instruction p).slot_backups = p.slot_backups ∧
    (l.foldl insert_instruction p).labels = p.labels ∧
    (l.foldl insert_instruction p).phi_node_labels = p.phi_node_labels := by
  induction l generalizing p with
  | nil => simp
  | cons i rest ih =>
    have h := ih (insert_instruction p i)
    simp only [List.foldl_cons]
    refine ⟨?_, h.2.1, h.2.2.1, h.2.2.2.1, h.2.2.2.2.1, h.2.2.2.2.2.1, h.2.2.2.2.2.2⟩
    rw [h.1]
    simp [insert_instruction]

theorem construct_block_frame (m : Module) (function : Function)
    (acc : x86Program × Option x86Label) (block : BasicBlock) :
    (construct_block m function acc block).1.available_slots = acc.1.available_slots ∧
    (construct_block m function acc block).1.top_of_stack = acc.1.top_of_stack ∧
    (construct_block m function acc block).1.instructions = acc.1.instructions ∧
    (construct_block m function acc block).1.used_slots = acc.1.used_slots ∧
    (construct_block m function acc block).1.slot_backups = acc.1.slot_backups := by
  unfold construct_block
  apply foldl_preserves
    (fun q : x86Program => q.available_slots = acc.1.available_slots ∧
      q.top_of_stack = acc.1.top_of_stack ∧ q.instructions = acc.1.instructions ∧
      q.used_slots = acc.1.used_slots ∧ q.slot_backups = acc.1.slot_backups)
  · intro a b ha
    exact ha
  · split <;> simp

theorem construct_labels_frame (m : Module) :
    (construct_labels m).1.available_slots = [] ∧
    (construct_labels m).1.top_of_stack = top_of_stack_init ∧
    (construct_labels m).1.instructions = [] ∧
    (construct_labels m).1.used_slots = [] ∧
    (construct_labels m).1.slot_backups = [] := by
  unfold construct_labels
  apply foldl_preserves
    (fun q : x86Program × Option x86Label => q.1.available_slots = [] ∧
      q.1.top_of_stack = top_of_stack_init ∧ q.1.instructions = [] ∧
      q.1.used_slots = [] ∧ q.1.slot_backups = [])
  · intro a function ha
    apply foldl_preserves
      (fun q : x86Program × Option x86Label => q.1.available_slots = [] ∧
        q.1.top_of_stack = top_of_stack_init ∧ q.1.instructions = [] ∧
        q.1.used_slots = [] ∧ q.1.slot_backups = [])
    · intro a2 b ha2
      have h := construct_block_frame m function a2 b
      exact ⟨h.1.trans ha2.1, h.2.1.trans ha2.2.1, h.2.2.1.trans ha2.2.2.1,
        h.2.2.2.1.trans ha2.2.2.2.1, h.2.2.2.2.trans ha2.2.2.2.2⟩
    · exact ha
  · exact ⟨rfl, rfl, rfl, rfl, rfl⟩

theorem construct_frame (m : Module) :
    (x86Program.construct m).available_slots = register_slots [] ∧
    (x86Program.construct m).top_of_stack = top_of_stack_init ∧
    (x86Program.construct m).used_slots = [] ∧
    (x86Program.construct m).slot_backups = [] ∧
    (x86Program.construct m).instructions = program_header (construct_labels m).2 := by
  have h := construct_labels_frame m
  have hi := insert_instructions_frame (program_header (construct_labels m).2)
    { (construct_labels m).1 with
      available_slots := register_slots (construct_labels m).1.available_slots }
  unfold x86Program.construct
  refine ⟨?_, ?_, ?_, ?_, ?_⟩
  · rw [hi.2.1]
    show register_slots _ = _
    rw [h.1]
  · rw [hi.2.2.1]
    exact h.2.1
  · rw [hi.2.2.2.1]
    exact h.2.2.2.1
  · rw [hi.2.2.2.2.1]
    exact h.2.2.2.2
  · rw [hi.1]
    show _ ++ _ = _
    rw [h.2.2.1]
    rfl

theorem acquire_slot_core (p : x86Program) (v : Addr) :
    (acquire_slot p v).1 = (acquire_core (alloc_core p)).1 ∧
    alloc_core (acquire_slot p v).2 = (acquire_core (alloc_core p)).2.1 ∧
    (acquire_slot p v).2.instructions = p.instructions ++ (acquire_core (alloc_core p)).2.2 := by
  cases hq : p.available_slots with
  | nil => simp [acquire_slot, acquire_core, alloc_core, acquire_spill, insert_instruction, hq]
  | cons a l => simp [acquire_slot, acquire_core, alloc_core, acquire_spill, insert_instruction, hq]

theorem acquire_all_core (vs : List Addr) (p : x86Program) :
    (acquire_all p vs).1 = (acquire_core_all (alloc_core p) vs.length).1 ∧
    alloc_core (acquire_all p vs).2 = (acquire_core_all (alloc_core p) vs.length).2.1 ∧
    (acquire_all p vs).2.instructions =
      p.instructions ++ (acquire_core_all (alloc_core p) vs.length).2.2 := by
  induction vs generalizing p with
  | nil => simp [acquire_all, acquire_core_all]
  | cons v rest ih =>
    have h := acquire_slot_core p v
    have h2 := ih (acquire_slot p v).2
    simp only [acquire_all, acquire_core_all, List.length_cons]
    rw [h.2.1] at h2
    refine ⟨?_, ?_, ?_⟩
    · rw [h.1, h2.1]
    · exact h2.2.1
    · rw [h2.2.2, h.2.2, List.append_assoc]

set_option maxRecDepth 100000 in
theorem acquire_core_thirteen :
    (register_slots []).map (fun s => s.1) = [-6, -5, -4, -3, -2, -1, -8, -7, -12, -11, -10, -9] ∧
    (acquire_core_all (register_slots [], top_of_stack_init) 13).1 =
      [some (x86Source.Register "rbx"), some (x86Source.Register "rcx"),
       some (x86Source.Register "rdx"), some (x86Source.Register "rsi"),
       some (x86Source.Register "r8"), some (x86Source.Register "r9"),
       some (x86Source.Register "r10"), some (x86Source.Register "r11"),
       some (x86Source.Register "r12"), some (x86Source.Register "r13"),
       some (x86Source.Register "r14"), some (x86Source.Register "r15"),
       some (x86Source.Pointer (x86Source.Register "rbp") (-48))] ∧
    (acquire_core_all (register_slots [], top_of_stack_init) 12).2.2 = [] ∧
    (acquire_core_all (register_slots [], top_of_stack_init) 13).2.2 =
      [x86Instruction.SrcDst "sub" (some (x86Source.Immediate 8))
        (some (x86Source.Register "rsp"))] := by
  decide

/-- C9: from the state of a freshly constructed program (of any module), thirteen
successive `acquire_slot` calls return, in this order, rbx, rcx, rdx, rsi, r8, r9, r10,
r11, r12, r13, r14, r15 and then the spill operand `-48(%rbp)`; the first twelve emit no
line and the thirteenth emits exactly one `sub $8, %rsp`. The register priorities, stored
as unsigned 64-bit values, are the signed keys -12..-1 in the free queue. -/
theorem thirteen_acquires (m : Module)
    (v1 v2 v3 v4 v5 v6 v7 v8 v9 v10 v11 v12 v13 : Addr) :
    (x86Program.construct m).available_slots.map (fun s => s.1)
      = [-6, -5, -4, -3, -2, -1, -8, -7, -12, -11, -10, -9] ∧
    (acquire_all (x86Program.construct m)
        [v1, v2, v3, v4, v5, v6, v7, v8, v9, v10, v11, v12, v13]).1 =
      [some (x86Source.Register "rbx"), some (x86Source.Register "rcx"),
       some (x86Source.Register "rdx"), some (x86Source.Register "rsi"),
       some (x86Source.Register "r8"), some (x86Source.Register "r9"),
       some (x86Source.Register "r10"), some (x86Source.Register "r11"),
       some (x86Source.Register "r12"), some (x86Source.Register "r13"),
       some (x86Source.Register "r14"), some (x86Source.Register "r15"),
       some (x86Source.Pointer (x86Source.Register "rbp") (-48))] ∧
    (acquire_all (x86Program.construct m)
        [v1, v2, v3, v4, v5, v6, v7, v8, v9, v10, v11, v12]).2.instructions =
      (x86Program.construct m).instructions ∧
    (acquire_all (x86Program.construct m)
        [v1, v2, v3, v4, v5, v6, v7, v8, v9, v10, v11, v12, v13]).2.instructions =
      (x86Program.construct m).instructions ++
        [x86Instruction.SrcDst "sub" (some (x86Source.Immediate 8))
          (some (x86Source.Register "rsp"))] := by
  have hc := construct_frame m
  have hcore : alloc_core (x86Program.construct m) = (register_slots [], top_of_stack_init) := by
    simp [alloc_core, hc.1, hc.2.1]
  have h13 := acquire_all_core [v1, v2, v3, v4, v5, v6, v7, v8, v9, v10, v11, v12, v13]
    (x86Program.construct m)
  have h12 := acquire_all_core [v1, v2, v3, v4, v5, v6, v7, v8, v9, v10, v11, v12]
    (x86Program.construct m)
  rw [hcore] at h13 h12
  have hk := acquire_core_thirteen
  refine ⟨?_, ?_, ?_, ?_⟩
  · rw [hc.1]; exact hk.1
  · rw [h13.1]; exact hk.2.1
  · rw [h12.2.2]
    have : [v1, v2, v3, v4, v5, v6, v7, v8, v9, v10, v11, v12].length = 12 := rfl
    rw [this, hk.2.2.1, List.append_nil]
  · rw [h13.2.2]
    have : [v1, v2, v3, v4, v5, v6, v7, v8, v9, v10, v11, v12, v13].length = 13 := rfl
    rw [this, hk.2.2.2]

/-! ## The sweep -/

theorem map_find_filter_key (f : Addr → Bool) (m : List (Addr × slot)) (k : Addr) :
    map_find (m.filter (fun e => f e.1)) k = if f k then map_find m k else none := by
  induction m with
  | nil => simp [map_find]
  | cons e rest ih =>
    obtain ⟨a, b⟩ := e
    by_cases ha : a = k
    · subst ha
      cases hf : f a with
      | true => simp [List.filter_cons, hf, map_find]
      | false =>
        rw [List.filter_cons]
        simp only [hf]
        simpa [hf] using ih
    · cases hf : f a with
      | true => simp [List.filter_cons, hf, map_find, ha, ih]
      | false => simp [List.filter_cons, hf, map_find, ha, ih]

theorem map_find_of_mem_nodup (m : List (Addr × slot)) (h : (m.map Prod.fst).Nodup)
    (e : Addr × slot) (he : e ∈ m) : map_find m e.1 = some e.2 := by
  induction m with
  | nil => cases he
  | cons x rest ih =>
    simp only [List.map_cons, List.nodup_cons] at h
    rcases List.mem_cons.mp he with hx | hx
    · subst hx
      simp [map_find]
    · have hne : ¬ x.1 = e.1 := by
        intro heq
        exact h.1 (heq ▸ List.mem_map_of_mem Prod.fst hx)
      simp [map_find, hne, ih h.2 hx]

theorem dust_out_one_used (fn : Function) (block : BasicBlock) (it : Nat) (p : x86Program)
    (k : Addr) :
    (dust_out_one fn block it p k).used_slots =
      p.used_slots.filter (fun e => !(decide (e.1 = k) && !has_reachable_uses fn block it k)) := by
  unfold dust_out_one
  cases hl : has_reachable_uses fn block it k with
  | true => simp
  | false =>
    cases hc : contains p.used_slots k with
    | true =>
      obtain ⟨v, hv⟩ := map_find_of_contains hc
      simp [release_slot, map_index_of_find addr_lt _ _ k v hv, map_erase]
    | false =>
      have := map_erase_of_not_contains p.used_slots k hc
      simp only [map_erase] at this
      simp [this]

theorem dust_out_one_frame (fn : Function) (block : BasicBlock) (it : Nat) (p : x86Program)
    (k : Addr) :
    (dust_out_one fn block it p k).instructions = p.instructions ∧
    (dust_out_one fn block it p k).top_of_stack = p.top_of_stack ∧
    (dust_out_one fn block it p k).slot_backups = p.slot_backups ∧
    (dust_out_one fn block it p k).labels = p.labels ∧
    (dust_out_one fn block it p k).phi_node_labels = p.phi_node_labels := by
  unfold dust_out_one
  split <;> simp [release_slot]

theorem dust_out_one_available (fn : Function) (block : BasicBlock) (it : Nat) (p : x86Program)
    (k : Addr) :
    (dust_out_one fn block it p k).available_slots = p.available_slots ++
      ([k].filter (fun k => contains p.used_slots k && !has_reachable_uses fn block it k)).filterMap
        (map_find p.used_slots) := by
  unfold dust_out_one
  cases hl : has_reachable_uses fn block it k with
  | true => simp [List.filter_cons, hl]
  | false =>
    cases hc : contains p.used_slots k with
    | true =>
      obtain ⟨v, hv⟩ := map_find_of_contains hc
      simp [release_slot, map_index_of_find addr_lt _ _ k v hv, pq_push, hv, List.filter_cons,
        hl, hc]
    | false => simp [List.filter_cons, hl, hc]

theorem dust_fold_used (fn : Function) (block : BasicBlock) (it : Nat) (ks : List Addr)
    (p : x86Program) :
    (ks.foldl (dust_out_one fn block it) p).used_slots =
      p.used_slots.filter
        (fun e => !(decide (e.1 ∈ ks) && !has_reachable_uses fn block it e.1)) := by
  induction ks generalizing p with
  | nil => simp
  | cons k rest ih =>
    rw [List.foldl_cons, ih, dust_out_one_used, List.filter_filter]
    apply List.filter_congr
    intro e _
    by_cases hk : e.1 = k
    · subst hk
      cases has_reachable_uses fn block it e.1 <;> simp
    · simp [hk]

theorem dust_fold_frame (fn : Function) (block : BasicBlock) (it : Nat) (ks : List Addr)
    (p : x86Program) :
    (ks.foldl (dust_out_one fn block it) p).instructions = p.instructions ∧
    (ks.foldl (dust_out_one fn block it) p).top_of_stack = p.top_of_stack ∧
    (ks.foldl (dust_out_one fn block it) p).slot_backups = p.slot_backups ∧
    (ks.foldl (dust_out_one fn block it) p).labels = p.labels ∧
    (ks.foldl (dust_out_one fn block it) p).phi_node_labels = p.phi_node_labels := by
  apply foldl_preserves
    (fun q : x86Program => q.instructions = p.instructions ∧ q.top_of_stack = p.top_of_stack ∧
      q.slot_backups = p.slot_backups ∧ q.labels = p.labels ∧
      q.phi_node_labels = p.phi_node_labels)
  · intro a k ha
    have h := dust_out_one_frame fn block it a k
    exact ⟨h.1.trans ha.1, h.2.1.trans ha.2.1, h.2.2.1.trans ha.2.2.1,
      h.2.2.2.1.trans ha.2.2.2.1, h.2.2.2.2.trans ha.2.2.2.2⟩
  · exact ⟨rfl, rfl, rfl, rfl, rfl⟩

theorem dust_fold_available (fn : Function) (block : BasicBlock) (it : Nat) (ks : List Addr)
    (p : x86Program) (hks : ks.Nodup) :
    (ks.foldl (dust_out_one fn block it) p).available_slots = p.available_slots ++
      (ks.filter (fun k => contains p.used_slots k && !has_reachable_uses fn block it k)).filterMap
        (map_find p.used_slots) := by
  induction ks generalizing p with
  | nil => simp
  | cons k rest ih =>
    rw [List.nodup_cons] at hks
    rw [List.foldl_cons, ih _ hks.2, dust_out_one_available, List.append_assoc]
    congr 1
    have hfind : ∀ k2 ∈ rest,
        map_find (dust_out_one fn block it p k).used_slots k2 = map_find p.used_slots k2 := by
      intro k2 hk2
      have hne : k2 ≠ k := fun e => hks.1 (e ▸ hk2)
      rw [dust_out_one_used]
      have := map_find_filter_key
        (fun a => !(decide (a = k) && !has_reachable_uses fn block it k)) p.used_slots k2
      rw [this]
      simp [hne]
    have hcont : ∀ k2 ∈ rest,
        contains (dust_out_one fn block it p k).used_slots k2 = contains p.used_slots k2 := by
      intro k2 hk2
      have h1 := hfind k2 hk2
      cases hc : contains p.used_slots k2 with
      | true =>
        obtain ⟨v, hv⟩ := map_find_of_contains hc
        rw [hv] at h1
        exact contains_of_map_find h1
      | false =>
        rw [(map_find_eq_none_iff _ _).mpr hc] at h1
        exact (map_find_eq_none_iff _ _).mp h1
    have hfilter : rest.filter (fun k2 => contains (dust_out_one fn block it p k).used_slots k2
          && !has_reachable_uses fn block it k2)
        = rest.filter (fun k2 => contains p.used_slots k2 && !has_reachable_uses fn block it k2) := by
      apply List.filter_congr
      intro k2 hk2
      rw [hcont k2 hk2]
    rw [hfilter]
    have hmap : ∀ (l : List Addr), (∀ k2 ∈ l, k2 ∈ rest) →
        l.filterMap (map_find (dust_out_one fn block it p k).used_slots)
          = l.filterMap (map_find p.used_slots) := by
      intro l
      induction l with
      | nil => intro _; rfl
      | cons a l ihl =>
        intro hl
        rw [List.filterMap_cons, List.filterMap_cons, hfind a (hl a (List.mem_cons_self _ _)),
          ihl (fun k2 hk2 => hl k2 (List.mem_cons_of_mem _ hk2))]
    rw [hmap _ (fun k2 hk2 => (List.mem_filter.mp hk2).1), ← List.filterMap_append,
      ← List.filter_append]
    rfl

theorem released_slots_eq (f : Addr → Bool) (m l : List (Addr × slot))
    (h : ∀ e ∈ l, map_find m e.1 = some e.2) :
    ((l.map Prod.fst).filter (fun k => contains m k && !f k)).filterMap (map_find m)
      = (l.filter (fun e => !f e.1)).map Prod.snd := by
  induction l with
  | nil => rfl
  | cons e rest ih =>
    have he := h e (List.mem_cons_self _ _)
    have hc := contains_of_map_find he
    have ih2 := ih (fun x hx => h x (List.mem_cons_of_mem _ hx))
    cases hf : f e.1 with
    | true => simpa [List.filter_cons, hf, hc] using ih2
    | false => simpa [List.filter_cons, hf, hc, he] using ih2

/-- C6: `dust_out_slots` at position `it` releases exactly the values of used that have no
reachable use after `it`. Afterwards used holds precisely the entries whose value has a
reachable use, each with its slot; the slot of every released value is at the back of
free, priority included; no line is emitted and `top_of_stack` is unchanged. The keys of
used are distinct, as in every `std::map`. -/
theorem dust_out_slots_releases_dead (fn : Function) (block : BasicBlock) (it : Nat)
    (p : x86Program) (hmap : (p.used_slots.map Prod.fst).Nodup) :
    (dust_out_slots fn block it p).used_slots =
      p.used_slots.filter (fun e => has_reachable_uses fn block it e.1) ∧
    (∀ V, map_find (dust_out_slots fn block it p).used_slots V =
      if has_reachable_uses fn block it V then map_find p.used_slots V else none) ∧
    (dust_out_slots fn block it p).available_slots = p.available_slots ++
      (p.used_slots.filter (fun e => !has_reachable_uses fn block it e.1)).map Prod.snd ∧
    (dust_out_slots fn block it p).instructions = p.instructions ∧
    (dust_out_slots fn block it p).top_of_stack = p.top_of_stack := by
  have hused : (dust_out_slots fn block it p).used_slots =
      p.used_slots.filter (fun e => has_reachable_uses fn block it e.1) := by
    unfold dust_out_slots
    rw [dust_fold_used]
    apply List.filter_congr
    intro e he
    have : e.1 ∈ p.used_slots.map (fun e => e.1) := List.mem_map_of_mem _ he
    simp [this]
  refine ⟨hused, ?_, ?_, ?_, ?_⟩
  · intro V
    rw [hused]
    exact map_find_filter_key (fun a => has_reachable_uses fn block it a) p.used_slots V
  · unfold dust_out_slots
    rw [dust_fold_available fn block it _ p hmap]
    congr 1
    exact released_slots_eq (fun a => has_reachable_uses fn block it a) p.used_slots p.used_slots
      (fun e he => map_find_of_mem_nodup p.used_slots hmap e he)
  · exact (dust_fold_frame fn block it _ p).1
  · exact (dust_fold_frame fn block it _ p).2.1

/-! ## The liveness walk -/

theorem instruction_makes_use_of_iff (ops : List Value) (value : Addr) :
    instruction_makes_use_of ops value = true ↔ Value.Other value ∈ ops := by
  simp [instruction_makes_use_of]

theorem isUsedInBasicBlock_iff (blk : BasicBlock) (value : Addr) :
    isUsedInBasicBlock blk value = true ↔ ∃ ops ∈ blk.operand_lists, Value.Other value ∈ ops := by
  simp only [isUsedInBasicBlock, List.any_eq_true, instruction_makes_use_of_iff]

theorem later_use_in_block_iff (block : BasicBlock) (it : Nat) (value : Addr) :
    later_use_in_block block it value = true ↔
      ∃ j ops, it < j ∧ block.operand_lists[j]? = some ops ∧ Value.Other value ∈ ops := by
  simp only [later_use_in_block, List.any_eq_true, instruction_makes_use_of_iff]
  constructor
  · rintro ⟨ops, hmem, huse⟩
    obtain ⟨n, hn⟩ := List.mem_iff_getElem?.mp hmem
    rw [List.getElem?_drop] at hn
    exact ⟨it + 1 + n, ops, by omega, hn, huse⟩
  · rintro ⟨j, ops, hj, hget, huse⟩
    refine ⟨ops, List.mem_iff_getElem?.mpr ⟨j - (it + 1), ?_⟩, huse⟩
    rw [List.getElem?_drop]
    have : it + 1 + (j - (it + 1)) = j := by omega
    rw [this]
    exact hget

theorem successors_loop_sound (search : Addr → List Addr → Bool × List Addr) (P : Addr → Prop)
    (hs : ∀ c seen, (search c seen).1 = true → P c) (succs : List Addr) (seen : List Addr)
    (h : (successors_loop search succs seen).1 = true) : ∃ c ∈ succs, P c := by
  induction succs generalizing seen with
  | nil => simp [successors_loop] at h
  | cons c rest ih =>
    unfold successors_loop at h
    by_cases hc : c ∈ seen
    · rw [if_pos hc] at h
      obtain ⟨d, hd, hp⟩ := ih seen h
      exact ⟨d, List.mem_cons_of_mem _ hd, hp⟩
    · rw [if_neg hc] at h
      cases hr : (search c (c :: seen)).1 with
      | true => exact ⟨c, List.mem_cons_self _ _, hs c _ hr⟩
      | false =>
        simp only [hr] at h
        obtain ⟨d, hd, hp⟩ := ih _ h
        exact ⟨d, List.mem_cons_of_mem _ hd, hp⟩

theorem recursively_check_sound (fn : Function) (value : Addr) (fuel : Nat) (b : Addr)
    (seen : List Addr) (h : (recursively_check_for_uses fn value fuel b seen).1 = true) :
    ∃ d, Relation.ReflTransGen (block_edge fn) b d ∧ block_uses fn value d := by
  induction fuel generalizing b seen with
  | zero =>
    unfold recursively_check_for_uses at h
    cases hb : find_block fn b <;> simp [hb] at h
  | succ f ih =>
    unfold recursively_check_for_uses at h
    cases hb : find_block fn b with
    | none => simp [hb] at h
    | some blk =>
      simp only [hb] at h
      by_cases hu : isUsedInBasicBlock blk value = true
      · exact ⟨b, Relation.ReflTransGen.refl, blk, hb, (isUsedInBasicBlock_iff blk value).mp hu⟩
      · rw [if_neg hu] at h
        obtain ⟨c, hc, d, hcd, hd⟩ := successors_loop_sound _
          (fun c => ∃ d, Relation.ReflTransGen (block_edge fn) c d ∧ block_uses fn value d)
          (fun c seen hcs => ih c seen hcs) _ _ h
        exact ⟨d, Relation.ReflTransGen.head ⟨blk, hb, hc⟩ hcd, hd⟩

theorem unseen_blocks_card_lt (fn : Function) (seen : List Addr) (c : Addr)
    (hc : (find_block fn c).isSome = true) (hseen : c ∉ seen) :
    (unseen_blocks fn (c :: seen)).card < (unseen_blocks fn seen).card := by
  apply Finset.card_lt_card
  have hmem : c ∈ (fn.blocks.map (fun b => b.addr)).toFinset := by
    obtain ⟨blk, hblk⟩ := Option.isSome_iff_exists.mp hc
    unfold find_block at hblk
    have h1 := List.mem_of_find?_eq_some hblk
    have h2 := List.find?_some hblk
    simp only [decide_eq_true_eq] at h2
    rw [List.mem_toFinset, List.mem_map]
    exact ⟨blk, h1, h2⟩
  rw [Finset.ssubset_iff_of_subset]
  · refine ⟨c, ?_, ?_⟩
    · simp [unseen_blocks, hseen]
      simpa using hmem
    · simp [unseen_blocks]
  · intro x hx
    simp only [unseen_blocks, Finset.mem_sdiff, List.mem_toFinset, List.mem_cons, not_or] at hx ⊢
    exact ⟨hx.1, hx.2.2⟩

theorem unseen_blocks_card_mono (fn : Function) (seen seen2 : List Addr) (h : seen ⊆ seen2) :
    (unseen_blocks fn seen2).card ≤ (unseen_blocks fn seen).card := by
  apply Finset.card_le_card
  intro x hx
  simp only [unseen_blocks, Finset.mem_sdiff, List.mem_toFinset] at hx ⊢
  exact ⟨hx.1, fun hs => hx.2 (h hs)⟩

theorem successors_loop_complete (fn : Function) (value : Addr)
    (search : Addr → List Addr → Bool × List Addr) (f : Nat)
    (hrec : ∀ b seen, b ∈ seen →
      ((find_block fn b).isSome = true → (unseen_blocks fn seen).card < f) →
      (search b seen).1 = false →
      seen ⊆ (search b seen).2 ∧ ¬ block_uses fn value b ∧
      (∀ c, block_edge fn b c → c ∈ (search b seen).2) ∧
      (∀ x ∈ (search b seen).2, x ∉ seen →
        ¬ block_uses fn value x ∧ ∀ c, block_edge fn x c → c ∈ (search b seen).2))
    (succs : List Addr) (seen : List Addr)
    (hfuel : (unseen_blocks fn seen).card ≤ f)
    (h : (successors_loop search succs seen).1 = false) :
    seen ⊆ (successors_loop search succs seen).2 ∧
    (∀ c ∈ succs, c ∈ (successors_loop search succs seen).2) ∧
    (∀ x ∈ (successors_loop search succs seen).2, x ∉ seen →
      ¬ block_uses fn value x ∧
      ∀ c, block_edge fn x c → c ∈ (successors_loop search succs seen).2) := by
  induction succs generalizing seen with
  | nil =>
    simp only [successors_loop]
    exact ⟨fun _ hx => hx, ⟨fun c hc => absurd hc (List.not_mem_nil c),
      fun x hx hn => absurd hx hn⟩⟩
  | cons c rest ih =>
    unfold successors_loop at h ⊢
    by_cases hc : c ∈ seen
    · rw [if_pos hc] at h ⊢
      obtain ⟨h1, h2, h3⟩ := ih seen hfuel h
      refine ⟨h1, ?_, h3⟩
      intro d hd
      rcases List.mem_cons.mp hd with rfl | hd
      · exact h1 hc
      · exact h2 d hd
    · rw [if_neg hc] at h ⊢
      cases hr : (search c (c :: seen)).1 with
      | true => simp [hr] at h
      | false =>
        simp only [hr] at h ⊢
        have hfuel1 : (find_block fn c).isSome = true →
            (unseen_blocks fn (c :: seen)).card < f :=
          fun hsome => lt_of_lt_of_le (unseen_blocks_card_lt fn seen c hsome hc) hfuel
        obtain ⟨r1, r2, r3, r4⟩ := hrec c (c :: seen) (List.mem_cons_self _ _) hfuel1 hr
        have hsub : seen ⊆ (search c (c :: seen)).2 :=
          fun x hx => r1 (List.mem_cons_of_mem _ hx)
        have hfuel2 : (unseen_blocks fn (search c (c :: seen)).2).card ≤ f :=
          le_trans (unseen_blocks_card_mono fn _ _ hsub) hfuel
        obtain ⟨h1, h2, h3⟩ := ih _ hfuel2 h
        refine ⟨fun x hx => h1 (hsub hx), ?_, ?_⟩
        · intro d hd
          rcases List.mem_cons.mp hd with rfl | hd
          · exact h1 (r1 (List.mem_cons_self _ _))
          · exact h2 d hd
        · intro x hx hxs
          by_cases hx2 : x ∈ (search c (c :: seen)).2
          · by_cases hxc : x = c
            · subst hxc
              exact ⟨r2, fun d hd => h1 (r3 d hd)⟩
            · have hx3 : x ∉ c :: seen := by
                intro hm
                rcases List.mem_cons.mp hm with e | e
                · exact hxc e
                · exact hxs e
              obtain ⟨a1, a2⟩ := r4 x hx2 hx3
              exact ⟨a1, fun d hd => h1 (a2 d hd)⟩
          · exact h3 x hx hx2

theorem recursively_check_complete (fn : Function) (value : Addr) (fuel : Nat) (b : Addr)
    (seen : List Addr) (_hb : b ∈ seen)
    (hfuel : (find_block fn b).isSome = true → (unseen_blocks fn seen).card < fuel)
    (h : (recursively_check_for_uses fn value fuel b seen).1 = false) :
    seen ⊆ (recursively_check_for_uses fn value fuel b seen).2 ∧ ¬ block_uses fn value b ∧
    (∀ c, block_edge fn b c → c ∈ (recursively_check_for_uses fn value fuel b seen).2) ∧
    (∀ x ∈ (recursively_check_for_uses fn value fuel b seen).2, x ∉ seen →
      ¬ block_uses fn value x ∧
      ∀ c, block_edge fn x c → c ∈ (recursively_check_for_uses fn value fuel b seen).2) := by
  induction fuel generalizing b seen with
  | zero =>
    unfold recursively_check_for_uses at h ⊢
    cases hfb : find_block fn b with
    | none =>
      simp only [hfb]
      refine ⟨fun _ hx => hx, ?_, ?_, fun x hx hn => absurd hx hn⟩
      · rintro ⟨blk, hblk, _⟩; rw [hfb] at hblk; cases hblk
      · rintro c ⟨blk, hblk, _⟩; rw [hfb] at hblk; cases hblk
    | some blk =>
      have := hfuel (by simp [hfb])
      omega
  | succ f ih =>
    unfold recursively_check_for_uses at h ⊢
    cases hfb : find_block fn b with
    | none =>
      simp only [hfb]
      refine ⟨fun _ hx => hx, ?_, ?_, fun x hx hn => absurd hx hn⟩
      · rintro ⟨blk, hblk, _⟩; rw [hfb] at hblk; cases hblk
      · rintro c ⟨blk, hblk, _⟩; rw [hfb] at hblk; cases hblk
    | some blk =>
      simp only [hfb] at h ⊢
      by_cases hu : isUsedInBasicBlock blk value = true
      · rw [if_pos hu] at h; cases h
      · rw [if_neg hu] at h ⊢
        have hcard : (unseen_blocks fn seen).card ≤ f :=
          Nat.lt_succ_iff.mp (hfuel (by simp [hfb]))
        obtain ⟨h1, h2, h3⟩ := successors_loop_complete fn value
          (recursively_check_for_uses fn value f) f
          (fun b2 seen2 hb2 hf2 hr2 => ih b2 seen2 hb2 hf2 hr2)
          blk.terminator.successors seen hcard h
        refine ⟨h1, ?_, ?_, h3⟩
        · rintro ⟨blk2, hblk2, huse⟩
          rw [hfb] at hblk2
          cases hblk2
          exact hu ((isUsedInBasicBlock_iff blk value).mpr huse)
        · rintro c ⟨blk2, hblk2, hc⟩
          rw [hfb] at hblk2
          cases hblk2
          exact h2 c hc

/-- C5: `has_reachable_uses` at position `it` of a block is true exactly when some
instruction after `it` in the same block has the value as an operand, or some block
reached from the block by one or more successor edges (the starting block itself when a
back edge leads to it) holds an instruction that has the value as an operand. -/
theorem has_reachable_uses_iff (fn : Function) (block : BasicBlock) (it : Nat) (value : Addr) :
    has_reachable_uses fn block it value = true ↔
      (∃ j ops, it < j ∧ block.operand_lists[j]? = some ops ∧ Value.Other value ∈ ops) ∨
      (∃ c ∈ block.terminator.successors, ∃ d,
        Relation.ReflTransGen (block_edge fn) c d ∧ block_uses fn value d) := by
  rw [← later_use_in_block_iff]
  unfold has_reachable_uses
  by_cases hl : later_use_in_block block it value = true
  · simp [hl]
  · rw [if_neg hl]
    constructor
    · intro h
      right
      exact successors_loop_sound _
        (fun c => ∃ d, Relation.ReflTransGen (block_edge fn) c d ∧ block_uses fn value d)
        (fun c seen hcs => recursively_check_sound fn value _ c seen hcs) _ _ h
    · rintro (h | ⟨c, hc, d, hcd, hd⟩)
      · exact absurd h hl
      · by_contra hfalse
        have hf : (successors_loop (recursively_check_for_uses fn value fn.blocks.length)
            block.terminator.successors []).1 = false := by
          simpa using hfalse
        have hcard : (unseen_blocks fn []).card ≤ fn.blocks.length := by
          have := List.toFinset_card_le (fn.blocks.map (fun b => b.addr))
          simpa [unseen_blocks] using this
        obtain ⟨_, h2, h3⟩ := successors_loop_complete fn value
          (recursively_check_for_uses fn value fn.blocks.length) fn.blocks.length
          (fun b2 seen2 hb2 hf2 hr2 =>
            recursively_check_complete fn value fn.blocks.length b2 seen2 hb2 hf2 hr2)
          block.terminator.successors [] hcard hf
        have hclosed : ∀ x, Relation.ReflTransGen (block_edge fn) c x →
            x ∈ (successors_loop (recursively_check_for_uses fn value fn.blocks.length)
              block.terminator.successors []).2 := by
          intro x hx
          induction hx with
          | refl => exact h2 c hc
          | tail _ hedge ihx => exact (h3 _ ihx (by simp)).2 _ hedge
        exact (h3 d (hclosed d hcd) (by simp)).1 hd

/-! ## What the handlers leave alone -/

theorem holds_insert (V : Addr) (s : slot) (p : x86Program) (i : x86Instruction)
    (h : Holds V s p) : Holds V s (insert_instruction p i) := h

theorem holds_query (V : Addr) (s : slot) (p : x86Program) (W : Addr) (h : Holds V s p) :
    Holds V s (query_slot p W).2 := by
  simpa [Holds, query_slot] using
    map_find_index_of_find addr_lt ((0, none) : slot) p.used_slots W V s h

theorem query_of_holds (V : Addr) (s : slot) (p : x86Program) (h : Holds V s p) :
    (query_slot p V).1 = s.2 := by
  simp [query_slot, map_index_of_find addr_lt _ _ V s h]

theorem holds_acquire (V : Addr) (s : slot) (p : x86Program) (W : Addr) (h : Holds V s p) :
    Holds V s (acquire_slot p W).2 := by
  have hs : (acquire_spill p).used_slots = p.used_slots := by
    unfold acquire_spill
    split <;> simp [insert_instruction]
  simp only [Holds, acquire_slot]
  apply map_find_insert_of_find
  rw [hs]
  exact h

theorem holds_source_of (V : Addr) (s : slot) (p : x86Program) (v : Value) (h : Holds V s p) :
    Holds V s (source_of p v).2 := by
  cases v with
  | ConstantInt c => exact h
  | Other a => exact holds_query V s p a h

theorem holds_labels_index (V : Addr) (s : slot) (p : x86Program) (b : Addr) (h : Holds V s p) :
    Holds V s (labels_index p b).2 := h

theorem holds_phi_node_labels_index (V : Addr) (s : slot) (p : x86Program) (k : Addr × Addr)
    (h : Holds V s p) : Holds V s (phi_node_labels_index p k).2 := h

theorem holds_target_label (V : Addr) (s : slot) (fn : Function) (a : Addr) (p : x86Program)
    (t : Addr) (h : Holds V s p) : Holds V s (target_label fn a p t).2 := by
  simp only [target_label]
  split
  · exact h
  · exact h

theorem holds_back_up (V : Addr) (s : slot) (p : x86Program) (l : Option x86Label)
    (h : Holds V s p) : Holds V s (back_up_slots p l) := h

theorem holds_foldl_insert {α : Type} (V : Addr) (s : slot) (f : α → x86Instruction)
    (l : List α) (p : x86Program) (h : Holds V s p) :
    Holds V s (l.foldl (fun q a => insert_instruction q (f a)) p) :=
  foldl_preserves (Holds V s) _ (fun a b ha => holds_insert V s a (f b) ha) l p h

theorem holds_callee_label (V : Addr) (s : slot) (p : x86Program) (e : Option Addr)
    (h : Holds V s p) :
    Holds V s (match e with
      | some entry_block => labels_index p entry_block
      | none => ((none : Option x86Label), p)).2 := by
  cases e <;> exact h

theorem holds_handle_icmp (V : Addr) (s : slot) (p : x86Program) (lhs rhs : Value)
    (h : Holds V s p) : Holds V s (handle_icmp p lhs rhs) := by
  simp only [handle_icmp]
  repeat (first
    | exact h
    | with_reducible apply holds_source_of
    | with_reducible apply holds_insert)

theorem holds_handle_binop (V : Addr) (s : slot) (m : Module) (p : x86Program) (addr : Addr)
    (op : String) (lhs rhs : Value) (h : Holds V s p) :
    Holds V s (handle_binop m p addr op lhs rhs) := by
  simp only [handle_binop]
  repeat (first
    | exact h
    | with_reducible apply holds_source_of
    | with_reducible apply holds_acquire
    | with_reducible apply holds_insert
    | split)

theorem holds_handle_call_labelled (V : Addr) (s : slot) (m : Module)
    (r : Option x86Label × x86Program) (addr : Addr) (args : List Value) (h : Holds V s r.2) :
    Holds V s (handle_call_labelled m r addr args) := by
  simp only [handle_call_labelled]
  cases args with
  | nil =>
    simp only []
    repeat (first
      | with_reducible exact h
      | with_reducible apply holds_source_of
      | with_reducible apply holds_acquire
      | with_reducible apply holds_foldl_insert
      | with_reducible apply holds_insert
      | split)
  | cons arg rest =>
    simp only []
    repeat (first
      | with_reducible exact h
      | with_reducible apply holds_source_of
      | with_reducible apply holds_acquire
      | with_reducible apply holds_foldl_insert
      | with_reducible apply holds_insert
      | split)

theorem holds_handle_call (V : Addr) (s : slot) (m : Module) (p : x86Program) (addr : Addr)
    (callee : Addr) (args : List Value) (h : Holds V s p) :
    Holds V s (handle_call m p addr callee args) :=
  holds_handle_call_labelled V s m _ addr args
    (holds_callee_label V s p (callee_entry_block m callee) h)

theorem holds_handle_ret (V : Addr) (s : slot) (p : x86Program) (value : Option Value)
    (h : Holds V s p) : Holds V s (handle_ret p value) := by
  simp only [handle_ret]
  repeat with_reducible apply holds_insert
  apply foldl_preserves (fun acc : x86Program × Int => Holds V s acc.1)
  · intro a b ha
    exact holds_insert V s _ _ ha
  · with_reducible apply holds_insert
    cases value with
    | none => exact h
    | some v =>
      simp only []
      repeat (first
        | exact h
        | with_reducible apply holds_source_of
        | with_reducible apply holds_insert)

theorem holds_handle_br_unconditional (V : Addr) (s : slot) (fn : Function) (block : BasicBlock)
    (p : x86Program) (t : Addr) (h : Holds V s p) :
    Holds V s (handle_br_unconditional fn block p t) := by
  simp only [handle_br_unconditional]
  exact holds_insert V s _ _ (holds_target_label V s fn _ p t h)

theorem holds_handle_br_conditional (V : Addr) (s : slot) (fn : Function) (block : BasicBlock)
    (p : x86Program) (cond : Value) (t1 t2 : Addr) (h : Holds V s p) :
    Holds V s (handle_br_conditional fn block p cond t1 t2) := by
  simp only [handle_br_conditional]
  repeat (first
    | exact h
    | with_reducible apply holds_target_label
    | with_reducible apply holds_labels_index
    | with_reducible apply holds_back_up
    | with_reducible apply holds_insert
    | split)

theorem holds_handle_at (V : Addr) (s : slot) (m : Module) (fn : Function) (block : BasicBlock)
    (it : Nat) (p : x86Program) (h : Holds V s p) :
    Holds V s (handle_at m fn block it p) := by
  unfold handle_at
  cases block.body.get? it with
  | some i =>
    cases i with
    | Call a c args => exact holds_handle_call V s m p a c args h
    | Binary a op l r => exact holds_handle_binop V s m p a _ l r h
    | ICmp a pr l r => exact holds_handle_icmp V s p l r h
    | PHI a inc => exact h
    | Other a ops => exact h
  | none =>
    cases block.terminator with
    | Ret v => exact holds_handle_ret V s p v h
    | Br t => exact holds_handle_br_unconditional V s fn block p t h
    | CondBr c t1 t2 => exact holds_handle_br_conditional V s fn block p c t1 t2 h
    | Other ops succs => exact h

theorem holds_dust_out_slots (V : Addr) (s : slot) (fn : Function) (block : BasicBlock)
    (it : Nat) (p : x86Program) (hlive : has_reachable_uses fn block it V = true)
    (h : Holds V s p) : Holds V s (dust_out_slots fn block it p) := by
  unfold Holds dust_out_slots at *
  rw [dust_fold_used]
  have := map_find_filter_key
    (fun a => !(decide (a ∈ p.used_slots.map (fun e => e.1)) &&
      !has_reachable_uses fn block it a)) p.used_slots V
  rw [this]
  simp [hlive, h]

theorem holds_prologue (V : Addr) (s : slot) (m : Module) (fn : Function)
    (l : Option x86Label) (p : x86Program) (h : Holds V s p) :
    Holds V s (prologue m fn l p) := by
  have h0 : Holds V s { p with top_of_stack := -40 } := h
  simp only [prologue]
  repeat (first
    | with_reducible exact h0
    | with_reducible apply holds_acquire
    | with_reducible apply holds_foldl_insert
    | with_reducible apply holds_insert
    | split)

theorem holds_phi_acquire (V : Addr) (s : slot) (m : Module) (p : x86Program)
    (i : Instruction) (h : Holds V s p) : Holds V s (phi_acquire m p i) := by
  simp only [phi_acquire]
  split
  · exact holds_acquire V s p _ h
  · exact h

theorem holds_phi_move (V : Addr) (s : slot) (m : Module) (b : Addr) (p : x86Program)
    (i : Instruction) (h : Holds V s p) : Holds V s (phi_move m b p i) := by
  simp only [phi_move]
  repeat (first
    | with_reducible exact h
    | with_reducible apply holds_query
    | with_reducible apply holds_source_of
    | with_reducible apply holds_insert
    | split)

theorem holds_phi_edge (V : Addr) (s : slot) (m : Module) (block : BasicBlock)
    (phi_done : x86Label) (p : x86Program) (b : Addr) (h : Holds V s p) :
    Holds V s (phi_edge m block phi_done p b) := by
  simp only [phi_edge]
  split
  · apply holds_insert
    apply foldl_preserves (Holds V s) _ (fun a i ha => holds_phi_move V s m b a i ha)
    apply holds_insert
    exact holds_phi_node_labels_index V s p _ h
  · exact h

theorem holds_phi_batch (V : Addr) (s : slot) (m : Module) (block : BasicBlock)
    (l : Option x86Label) (p : x86Program) (h : Holds V s p) :
    Holds V s (phi_batch m block l p) := by
  simp only [phi_batch]
  apply holds_insert
  apply foldl_preserves (Holds V s) _ (fun a b ha => holds_phi_edge V s m block _ a b ha)
  exact foldl_preserves (Holds V s) _ (fun a i ha => holds_phi_acquire V s m a i ha) _ p h

theorem holds_handle_block_begin (V : Addr) (s : slot) (m : Module) (fn : Function)
    (block : BasicBlock) (p : x86Program)
    (hb : contains p.slot_backups (label_of p block.addr) = false) (h : Holds V s p) :
    Holds V s (handle_block_begin m fn block p) := by
  have hc : contains (insert_instruction (labels_index p block.addr).2
      (x86Instruction.Label (labels_index p block.addr).1)).slot_backups
      (labels_index p block.addr).1 = false := hb
  have h1 : Holds V s (insert_instruction (labels_index p block.addr).2
      (x86Instruction.Label (labels_index p block.addr).1)) := h
  simp only [handle_block_begin, hc]
  split
  · apply holds_phi_batch
    split
    · exact holds_prologue V s m fn _ _ h1
    · exact h1
  · split
    · exact holds_prologue V s m fn _ _ h1
    · exact h1

theorem holds_run_step (V : Addr) (s : slot) (m : Module) (p : x86Program) (st : Step)
    (hk : step_keeps V p st = true) (h : Holds V s p) : Holds V s (run_step m p st) := by
  cases st with
  | block_begin fn block =>
    simp only [step_keeps, Bool.not_eq_true'] at hk
    exact holds_handle_block_begin V s m fn block p hk h
  | handle fn block it => exact holds_handle_at V s m fn block it p h
  | dust fn block it => exact holds_dust_out_slots V s fn block it p hk h

theorem holds_run (V : Addr) (s : slot) (m : Module) (steps : List Step) :
    ∀ p : x86Program, run_keeps m V p steps = true → Holds V s p →
      Holds V s (steps.foldl (run_step m) p) := by
  induction steps with
  | nil => intro p _ h; exact h
  | cons st rest ih =>
    intro p hk h
    simp only [run_keeps, Bool.and_eq_true] at hk
    exact ih _ hk.2 (holds_run_step V s m p st hk.1 h)

/-! ## Values stay in their slot up to their uses in the block -/

theorem has_reachable_uses_of_later_use (fn : Function) (block : BasicBlock) (it j : Nat)
    (value : Addr) (ops : List Value) (hj : it < j) (hops : block.operand_lists[j]? = some ops)
    (hmem : Value.Other value ∈ ops) : has_reachable_uses fn block it value = true := by
  have h := (later_use_in_block_iff block it value).mpr ⟨j, ops, hj, hops, hmem⟩
  simp [has_reachable_uses, h]

theorem lower_range_holds (m : Module) (fn : Function) (block : BasicBlock) (V : Addr) (s : slot)
    (n : Nat) : ∀ (i : Nat) (p : x86Program), Holds V s p →
      (∃ ops, block.operand_lists[i + n]? = some ops ∧ Value.Other V ∈ ops) →
      Holds V s (lower_range m fn block p i n) := by
  induction n with
  | zero => intro i p h _; exact h
  | succ n ih =>
    intro i p h huse
    obtain ⟨ops, hops, hmem⟩ := huse
    have hlive : has_reachable_uses fn block i V = true :=
      has_reachable_uses_of_later_use fn block i (i + (n + 1)) V ops (by omega) hops hmem
    have h1 := holds_dust_out_slots V s fn block i _ hlive (holds_handle_at V s m fn block i p h)
    simp only [lower_range]
    apply ih (i + 1) _ h1
    refine ⟨ops, ?_, hmem⟩
    have : i + 1 + n = i + (n + 1) := by omega
    rw [this]
    exact hops

theorem lower_range_steps (m : Module) (fn : Function) (block : BasicBlock) (n : Nat) :
    ∀ (i : Nat) (p : x86Program),
      ((List.range' i n).flatMap
        (fun it => [Step.handle fn block it, Step.dust fn block it])).foldl (run_step m) p
        = lower_range m fn block p i n := by
  induction n with
  | zero => intro i p; rfl
  | succ n ih =>
    intro i p
    simp only [List.range'_succ, List.flatMap_cons, List.foldl_append, List.foldl_cons,
      List.foldl_nil, run_step, lower_range]
    exact ih (i + 1) _

/-- The driver on a block is `handle_block_begin` followed by the handler and the sweep of
each position. -/
theorem block_steps_eq (m : Module) (fn : Function) (block : BasicBlock) (p : x86Program) :
    (block_steps fn block).foldl (run_step m) p =
      lower_range m fn block (handle_block_begin m fn block p) 0 (block.body.length + 1) := by
  unfold block_steps
  rw [List.foldl_cons, List.range_eq_range']
  exact lower_range_steps m fn block _ 0 _

/-- Witness of C6: after the add of the second block of `two_branch_module`, with a value
99 in used that nothing reads, the sweep keeps `%x` and `%y` and releases 99. -/
theorem dust_out_slots_releases_dead_witness :
    (dust_out_slots two_branch_function two_branch_second 0
      { instructions := [], labels := [], phi_node_labels := [], top_of_stack := -40,
        available_slots := [],
        used_slots := [(10, (-12, some (x86Source.Register "rbx"))),
                       (12, (-11, some (x86Source.Register "rcx"))),
                       (99, (-10, some (x86Source.Register "rdx")))],
        slot_backups := [] }).available_slots = [(-10, some (x86Source.Register "rdx"))] :=
  (dust_out_slots_releases_dead two_branch_function two_branch_second 0
    { instructions := [], labels := [], phi_node_labels := [], top_of_stack := -40,
      available_slots := [],
      used_slots := [(10, (-12, some (x86Source.Register "rbx"))),
                     (12, (-11, some (x86Source.Register "rcx"))),
                     (99, (-10, some (x86Source.Register "rdx")))],
      slot_backups := [] } (by decide)).2.2.1.trans (by decide)

/-- An evaluation of the walk: in `loop_module`, after the compare of the loop header the
phi-node `%i` has no later use in the block, and is live through the back edge. -/
theorem has_reachable_uses_loop :
    has_reachable_uses loop_function loop_header 2 11 = true := by
  decide

/-! ## Snapshots at a conditional branch -/

theorem map_index_fst {K V : Type} [DecidableEq K] (lt : K → K → Bool) (d : V)
    (m : List (K × V)) (k : K) : (map_index lt d m k).1 = (map_find m k).getD d := by
  unfold map_index
  cases map_find m k <;> rfl

theorem map_find_index_getD {K V : Type} [DecidableEq K] (lt : K → K → Bool) (d : V)
    (m : List (K × V)) (k k2 : K) :
    (map_find (map_index lt d m k).2 k2).getD d = (map_find m k2).getD d := by
  unfold map_index
  cases hk : map_find m k with
  | some v => rfl
  | none =>
    by_cases h : k2 = k
    · subst h
      have hc := (map_find_eq_none_iff m k2).mp hk
      simp [map_find_place_self lt m k2 d hc, hk]
    · simp [map_find_place_ne lt m k k2 d h]

theorem label_of_labels_index (p : x86Program) (b b2 : Addr) :
    label_of (labels_index p b).2 b2 = label_of p b2 := by
  simp only [label_of, labels_index, map_index_fst]
  exact map_find_index_getD addr_lt none p.labels b b2

theorem sameAlloc_refl (p : x86Program) : SameAlloc p p := ⟨rfl, rfl, rfl, fun _ => rfl⟩

theorem sameAlloc_trans {p q r : x86Program} (h1 : SameAlloc p q) (h2 : SameAlloc q r) :
    SameAlloc p r :=
  ⟨h2.1.trans h1.1, h2.2.1.trans h1.2.1, h2.2.2.1.trans h1.2.2.1,
    fun b => (h2.2.2.2 b).trans (h1.2.2.2 b)⟩

theorem sameAlloc_insert (p : x86Program) (i : x86Instruction) :
    SameAlloc p (insert_instruction p i) := ⟨rfl, rfl, rfl, fun _ => rfl⟩

theorem sameAlloc_labels_index (p : x86Program) (b : Addr) :
    SameAlloc p (labels_index p b).2 :=
  ⟨rfl, rfl, rfl, fun b2 => label_of_labels_index p b b2⟩

theorem sameAlloc_phi_node_labels_index (p : x86Program) (k : Addr × Addr) :
    SameAlloc p (phi_node_labels_index p k).2 := ⟨rfl, rfl, rfl, fun _ => rfl⟩

theorem sameAlloc_target_label (fn : Function) (a : Addr) (p : x86Program) (t : Addr) :
    SameAlloc p (target_label fn a p t).2 := by
  simp only [target_label]
  split
  · exact sameAlloc_phi_node_labels_index p _
  · exact sameAlloc_labels_index p _

theorem map_find_insert_getD {K V : Type} [DecidableEq K] (lt : K → K → Bool)
    (m : List (K × V)) (k : K) (v : V) :
    map_find (map_insert lt m k v) k = some ((map_find m k).getD v) := by
  cases hc : contains m k with
  | true =>
    obtain ⟨w, hw⟩ := map_find_of_contains hc
    simp [map_insert, hc, hw]
  | false =>
    rw [map_find_insert_self lt m k v hc, (map_find_eq_none_iff m k).mpr hc]
    rfl

/-- C4, amended: for a conditional branch on an integer compare with successors T and F,
when no snapshot is registered under the label of T or of F before, `handle_br` leaves
free and used unchanged and afterwards `slot_backups` holds, under the label of T and under
the label of F, a snapshot equal to the current (free, used). -/
theorem handle_br_registers_snapshots (fn : Function) (block : BasicBlock) (p : x86Program)
    (cond : Value) (T F : Addr) (predicate : Predicate)
    (hcond : icmp_predicate fn cond = some predicate)
    (hT : contains p.slot_backups (label_of p T) = false)
    (hF : contains p.slot_backups (label_of p F) = false) :
    (handle_br_conditional fn block p cond T F).available_slots = p.available_slots ∧
    (handle_br_conditional fn block p cond T F).used_slots = p.used_slots ∧
    map_find (handle_br_conditional fn block p cond T F).slot_backups
        (label_of (handle_br_conditional fn block p cond T F) T) =
      some ((handle_br_conditional fn block p cond T F).available_slots,
            (handle_br_conditional fn block p cond T F).used_slots) ∧
    map_find (handle_br_conditional fn block p cond T F).slot_backups
        (label_of (handle_br_conditional fn block p cond T F) F) =
      some ((handle_br_conditional fn block p cond T F).available_slots,
            (handle_br_conditional fn block p cond T F).used_slots) := by
  have h1 := sameAlloc_target_label fn block.addr p T
  have h2 := sameAlloc_trans h1
    (sameAlloc_target_label fn block.addr (target_label fn block.addr p T).2 F)
  have h3 := sameAlloc_trans h2 (sameAlloc_insert _
    (x86Instruction.Lbl (jump_opcodes predicate).1 (target_label fn block.addr p T).1))
  have h4 := sameAlloc_trans h3 (sameAlloc_insert _
    (x86Instruction.Lbl (jump_opcodes predicate).2
      (target_label fn block.addr (target_label fn block.addr p T).2 F).1))
  have h5 := sameAlloc_trans h4 (sameAlloc_labels_index _ T)
  simp only [handle_br_conditional, hcond]
  generalize hq : (labels_index (insert_instruction (insert_instruction
      (target_label fn block.addr (target_label fn block.addr p T).2 F).2
      (x86Instruction.Lbl (jump_opcodes predicate).1 (target_label fn block.addr p T).1))
      (x86Instruction.Lbl (jump_opcodes predicate).2
        (target_label fn block.addr (target_label fn block.addr p T).2 F).1)) T) = l1 at h5 ⊢
  have hl1 : l1.1 = label_of p T := by
    rw [← hq]
    exact h4.2.2.2 T
  have hlab3 : ∀ b, label_of (back_up_slots l1.2 l1.1) b = label_of p b := h5.2.2.2
  have hl2 : (labels_index (back_up_slots l1.2 l1.1) F).1 = label_of p F := hlab3 F
  have hlabq : ∀ b, label_of (back_up_slots (labels_index (back_up_slots l1.2 l1.1) F).2
      (labels_index (back_up_slots l1.2 l1.1) F).1) b = label_of p b := by
    intro b
    exact (label_of_labels_index (back_up_slots l1.2 l1.1) F b).trans (hlab3 b)
  have hl2u : (map_index addr_lt none l1.2.labels F).1 = label_of p F := hl2
  have hb3 : map_find (map_insert label_lt p.slot_backups (label_of p T)
      (p.available_slots, p.used_slots)) (label_of p T)
      = some (p.available_slots, p.used_slots) :=
    map_find_insert_self label_lt _ _ _ hT
  refine ⟨h5.1, h5.2.1, ?_, ?_⟩
  · rw [hlabq T]
    simp only [back_up_slots, labels_index, h5.1, h5.2.1, h5.2.2.1, hl1]
    exact map_find_insert_of_find label_lt _ _ _ _ _ hb3
  · rw [hlabq F]
    simp only [back_up_slots, labels_index, h5.1, h5.2.1, h5.2.2.1, hl1]
    rw [hl2u, map_find_insert_getD]
    by_cases hTF : label_of p F = label_of p T
    · rw [hTF, hb3]; rfl
    · rw [map_find_insert_ne label_lt _ _ _ _ hTF, (map_find_eq_none_iff _ _).mpr hF]
      rfl

/-- Counterexample to C4 as stated. In `two_branch_module`, block `%t` is a successor of
the conditional branches of both `%0` and `%b`. When `handle_br` lowers the branch of `%b`
(the eleventh step of the driver), a snapshot taken at the branch of `%0` is already
registered under the label of `%t`; `back_up_slots` keeps it, and it differs from the
current (free, used), in which `%y` holds `rcx`. -/
theorem handle_br_keeps_older_snapshot :
    icmp_predicate two_branch_function (Value.Other 13) = some Predicate.ICMP_SLT ∧
    map_find (handle_br_conditional two_branch_function two_branch_second
        (lower_steps two_branch_module 10) (Value.Other 13) 3 4).slot_backups
        (label_of (handle_br_conditional two_branch_function two_branch_second
          (lower_steps two_branch_module 10) (Value.Other 13) 3 4) 3) ≠
      some ((handle_br_conditional two_branch_function two_branch_second
              (lower_steps two_branch_module 10) (Value.Other 13) 3 4).available_slots,
            (handle_br_conditional two_branch_function two_branch_second
              (lower_steps two_branch_module 10) (Value.Other 13) 3 4).used_slots) := by
  decide

/-- Witness of C4, amended: the conditional branch of the first block of
`two_branch_module`, before which no snapshot is registered. -/
theorem handle_br_registers_snapshots_witness :
    (handle_br_conditional two_branch_function two_branch_entry
        (lower_steps two_branch_module 3) (Value.Other 11) 3 2).used_slots
      = (lower_steps two_branch_module 3).used_slots :=
  (handle_br_registers_snapshots two_branch_function two_branch_entry
    (lower_steps two_branch_module 3) (Value.Other 11) 3 2 Predicate.ICMP_SLT
    (by decide) (by decide) (by decide)).2.1

/-! ## Slots across functions, and label names -/

set_option maxRecDepth 1000000 in
/-- C2 fails on the code. In `spill_module` the function `f` leaves its spill slot
`(48, -48(%rbp))` in the free queue; `main` resets `top_of_stack` to -40, takes that slot
for `%v13` and, the queue being empty, builds a second slot `(48, -48(%rbp))` for `%s2`.
After 78 steps of the driver both values hold the slot, and after 80 steps, `%s2` being
released, the slot is in the free queue and in used at once. -/
theorem spill_slot_in_free_and_used :
    map_find (lower_steps spill_module 78).used_slots 2013 =
      some (48, some (x86Source.Pointer (x86Source.Register "rbp") (-48))) ∧
    map_find (lower_steps spill_module 78).used_slots 2102 =
      some (48, some (x86Source.Pointer (x86Source.Register "rbp") (-48))) ∧
    map_find (lower_steps spill_module 80).used_slots 2013 =
      some (48, some (x86Source.Pointer (x86Source.Register "rbp") (-48))) ∧
    (48, some (x86Source.Pointer (x86Source.Register "rbp") (-48))) ∈
      (lower_steps spill_module 80).available_slots ∧
    slots_disjoint (lower_steps spill_module 80) = false := by
  decide

set_option maxRecDepth 1000000 in
/-- A second way in which a slot gets into free and used at once. In
`two_counter_module` the phi-edge moves of the loop header read `%n1` and `%n2` before
they are acquired, and `query_slot` records the null slot `{0, nullptr}` for both; after 19
steps of the driver, `%n1` being released, the null slot is in the free queue and in used
(under `%n2`). -/
theorem null_slot_in_free_and_used :
    map_find (lower_steps two_counter_module 19).used_slots 14 = some (0, none) ∧
    ((0, none) : slot) ∈ (lower_steps two_counter_module 19).available_slots ∧
    slots_disjoint (lower_steps two_counter_module 19) = false := by
  decide

set_option maxRecDepth 1000000 in
/-- C3 fails on the code. In the listing of `name_clash_module`, the name
`__main_block_x`, which a `jmp` and a `callq` refer to, is defined by two Label lines: the
one of block `%x` of `main` and the one of the function `__main_block_x`. -/
theorem label_defined_twice :
    referenced_labels (lower name_clash_module).instructions =
      ["main", "__main_block_x", "__main_block_x"] ∧
    label_definitions (lower name_clash_module).instructions "__main_block_x" = 2 := by
  decide

/-! ## Snapshot and restore -/

theorem restore_slots_of_find (p : x86Program) (l : Option x86Label) (b : backup)
    (h : map_find p.slot_backups l = some b) :
    (restore_slots p l).available_slots = b.1 ∧ (restore_slots p l).used_slots = b.2 ∧
    (restore_slots p l).slot_backups = map_erase p.slot_backups l ∧
    (restore_slots p l).top_of_stack = p.top_of_stack ∧
    (restore_slots p l).instructions = p.instructions := by
  simp [restore_slots, map_index_of_find label_lt _ _ l b h]

theorem acquire_slot_backups (p : x86Program) (v : Addr) :
    (acquire_slot p v).2.slot_backups = p.slot_backups := by
  simp only [acquire_slot, acquire_spill]
  split <;> rfl

theorem run_op_backups (p : x86Program) (op : AllocOp) :
    (run_op p op).slot_backups = p.slot_backups := by
  cases op with
  | acquire v => exact acquire_slot_backups p v
  | release v => rfl
  | sweep fn block it => exact (dust_fold_frame fn block it _ p).2.2.1

theorem run_ops_backups (ops : List AllocOp) (p : x86Program) :
    (run_ops p ops).slot_backups = p.slot_backups :=
  foldl_preserves (fun q : x86Program => q.slot_backups = p.slot_backups) run_op
    (fun a op ha => (run_op_backups a op).trans ha) ops p rfl

/-- C11: for distinct labels T and F under which no snapshot is registered, after
`back_up_slots` of T and of F in a state S, `restore_slots` of T gives back the free queue
and the used table of S; after any sequence of acquire, release and sweep operations,
`restore_slots` of F gives them back again. Each restore removes its label from
`slot_backups` and changes neither `top_of_stack` nor the emitted lines. -/
theorem restore_gives_back_snapshot (S : x86Program) (T F : Option x86Label)
    (ops : List AllocOp) (hTF : T ≠ F)
    (hT : contains S.slot_backups T = false) (hF : contains S.slot_backups F = false) :
    (restore_slots (back_up_slots (back_up_slots S T) F) T).available_slots
        = S.available_slots ∧
    (restore_slots (back_up_slots (back_up_slots S T) F) T).used_slots = S.used_slots ∧
    contains (restore_slots (back_up_slots (back_up_slots S T) F) T).slot_backups T = false ∧
    (restore_slots (back_up_slots (back_up_slots S T) F) T).top_of_stack = S.top_of_stack ∧
    (restore_slots (back_up_slots (back_up_slots S T) F) T).instructions = S.instructions ∧
    (restore_slots (run_ops (restore_slots (back_up_slots (back_up_slots S T) F) T) ops)
        F).available_slots = S.available_slots ∧
    (restore_slots (run_ops (restore_slots (back_up_slots (back_up_slots S T) F) T) ops)
        F).used_slots = S.used_slots ∧
    contains (restore_slots (run_ops (restore_slots (back_up_slots (back_up_slots S T) F) T) ops)
        F).slot_backups F = false ∧
    (restore_slots (run_ops (restore_slots (back_up_slots (back_up_slots S T) F) T) ops)
        F).top_of_stack
      = (run_ops (restore_slots (back_up_slots (back_up_slots S T) F) T) ops).top_of_stack ∧
    (restore_slots (run_ops (restore_slots (back_up_slots (back_up_slots S T) F) T) ops)
        F).instructions
      = (run_ops (restore_slots (back_up_slots (back_up_slots S T) F) T) ops).instructions := by
  have hbT : map_find (back_up_slots (back_up_slots S T) F).slot_backups T
      = some (S.available_slots, S.used_slots) := by
    simp only [back_up_slots]
    rw [map_find_insert_ne label_lt _ F T _ hTF]
    exact map_find_insert_self label_lt _ T _ hT
  have hbF : map_find (back_up_slots (back_up_slots S T) F).slot_backups F
      = some (S.available_slots, S.used_slots) := by
    simp only [back_up_slots]
    apply map_find_insert_self
    cases hc : contains (map_insert label_lt S.slot_backups T
        (S.available_slots, S.used_slots)) F with
    | false => rfl
    | true =>
      obtain ⟨v, hv⟩ := map_find_of_contains hc
      rw [map_find_insert_ne label_lt _ T F _ (Ne.symm hTF),
        (map_find_eq_none_iff _ _).mpr hF] at hv
      cases hv
  have h1 := restore_slots_of_find _ T _ hbT
  have hF2 : map_find (run_ops (restore_slots (back_up_slots (back_up_slots S T) F) T)
      ops).slot_backups F = some (S.available_slots, S.used_slots) := by
    rw [run_ops_backups, h1.2.2.1, map_find_erase_ne _ T F (Ne.symm hTF)]
    exact hbF
  have h2 := restore_slots_of_find _ F _ hF2
  refine ⟨h1.1, h1.2.1, ?_, h1.2.2.2.1, h1.2.2.2.2, h2.1, h2.2.1, ?_, h2.2.2.2.1, h2.2.2.2.2⟩
  · rw [h1.2.2.1]; exact contains_erase_self _ T
  · rw [h2.2.2.1]; exact contains_erase_self _ F

/-- Witness of C11: in `two_branch_module`, the state before the first conditional branch,
the labels of the blocks `%t` and `%b`, and an acquire followed by a sweep in between. -/
theorem restore_gives_back_snapshot_witness :
    (restore_slots (run_ops (restore_slots (back_up_slots (back_up_slots
        (lower_steps two_branch_module 3)
        (label_of (lower_steps two_branch_module 3) 3))
        (label_of (lower_steps two_branch_module 3) 2))
        (label_of (lower_steps two_branch_module 3) 3))
        [AllocOp.acquire 12, AllocOp.sweep two_branch_function two_branch_second 1])
        (label_of (lower_steps two_branch_module 3) 2)).used_slots
      = (lower_steps two_branch_module 3).used_slots :=
  (restore_gives_back_snapshot (lower_steps two_branch_module 3)
    (label_of (lower_steps two_branch_module 3) 3) (label_of (lower_steps two_branch_module 3) 2)
    [AllocOp.acquire 12, AllocOp.sweep two_branch_function two_branch_second 1]
    (by decide) (by decide) (by decide)).2.2.2.2.2.2.1

/-! ## The lines of the handlers -/

theorem source_of_stable (p q : x86Program) (v : Value) (hu : q.used_slots = p.used_slots)
    (h : operand_in_used p v = true) : source_of q v = ((source_of p v).1, q) := by
  cases v with
  | ConstantInt c => rfl
  | Other a =>
    obtain ⟨s, hs⟩ := map_find_of_contains (show contains p.used_slots a = true from h)
    have hq : map_find q.used_slots a = some s := by rw [hu]; exact hs
    simp [source_of, query_slot, map_index_of_find addr_lt _ _ a s hs,
      map_index_of_find addr_lt _ _ a s hq]

/-- C17: for an integer compare whose non-constant operands are in used, `handle_icmp`
appends to the lines, comments apart, exactly `movq <lhs>, %rax` and `cmp <rhs>, %rax`, the
operands being those `source_of` reads in the state before; it leaves the free queue, the
used table (so no slot is acquired for the result), the snapshots and `top_of_stack`
unchanged. -/
theorem handle_icmp_lines (p : x86Program) (lhs rhs : Value)
    (hl : operand_in_used p lhs = true) (hr : operand_in_used p rhs = true) :
    (handle_icmp p lhs rhs).instructions = p.instructions ++ emitted p (handle_icmp p lhs rhs) ∧
    code_lines (emitted p (handle_icmp p lhs rhs))
      = [x86Instruction.SrcDst "movq" (source_of p lhs).1 (some (x86Source.Register "rax")),
         x86Instruction.SrcDst "cmp" (source_of p rhs).1 (some (x86Source.Register "rax"))] ∧
    (handle_icmp p lhs rhs).available_slots = p.available_slots ∧
    (handle_icmp p lhs rhs).used_slots = p.used_slots ∧
    (handle_icmp p lhs rhs).slot_backups = p.slot_backups ∧
    (handle_icmp p lhs rhs).top_of_stack = p.top_of_stack := by
  simp only [handle_icmp]
  rw [source_of_stable p (insert_instruction p _) lhs rfl hl]
  simp only []
  rw [source_of_stable p (insert_instruction (insert_instruction p _) _) rhs rfl hr]
  simp [insert_instruction, emitted, code_lines, is_comment]

set_option maxRecDepth 1000000 in
/-- Witness of C17: the compare `%c = icmp slt i64 %x, 0` of `two_branch_module`, in the
state after the beginning of its block. -/
theorem handle_icmp_lines_witness :
    operand_in_used (lower_steps two_branch_module 1) (Value.Other 10) = true ∧
    code_lines (emitted (lower_steps two_branch_module 1)
        (handle_icmp (lower_steps two_branch_module 1) (Value.Other 10) (Value.ConstantInt 0)))
      = [x86Instruction.SrcDst "movq"
           (source_of (lower_steps two_branch_module 1) (Value.Other 10)).1
           (some (x86Source.Register "rax")),
         x86Instruction.SrcDst "cmp"
           (source_of (lower_steps two_branch_module 1) (Value.ConstantInt 0)).1
           (some (x86Source.Register "rax"))] :=
  ⟨by decide,
   (handle_icmp_lines (lower_steps two_branch_module 1) (Value.Other 10) (Value.ConstantInt 0)
      (by decide) (by decide)).2.1⟩

/-- C19: `handle_ret` appends to the lines, comments apart: `movq $c, %rax` when the
returned value is the constant `c`, `movq <query_slot V>, %rax` when it is a non-constant
`V`, nothing when there is no returned value; then exactly `movq -40(%rbp), %r15`,
`movq -32(%rbp), %r14`, `movq -24(%rbp), %r13`, `movq -16(%rbp), %r12`,
`movq -8(%rbp), %rbx`, `leaveq`, `retq`. -/
theorem handle_ret_lines (p : x86Program) (return_value : Option Value) :
    (handle_ret p return_value).instructions
      = p.instructions ++ emitted p (handle_ret p return_value) ∧
    code_lines (emitted p (handle_ret p return_value))
      = (match return_value with
          | some (Value.ConstantInt c) =>
            [x86Instruction.SrcDst "movq" (some (x86Source.Immediate c))
              (some (x86Source.Register "rax"))]
          | some (Value.Other V) =>
            [x86Instruction.SrcDst "movq" (query_slot p V).1 (some (x86Source.Register "rax"))]
          | none => [])
        ++ [x86Instruction.SrcDst "movq" (some (x86Source.Pointer (x86Source.Register "rbp") (-40)))
              (some (x86Source.Register "r15")),
            x86Instruction.SrcDst "movq" (some (x86Source.Pointer (x86Source.Register "rbp") (-32)))
              (some (x86Source.Register "r14")),
            x86Instruction.SrcDst "movq" (some (x86Source.Pointer (x86Source.Register "rbp") (-24)))
              (some (x86Source.Register "r13")),
            x86Instruction.SrcDst "movq" (some (x86Source.Pointer (x86Source.Register "rbp") (-16)))
              (some (x86Source.Register "r12")),
            x86Instruction.SrcDst "movq" (some (x86Source.Pointer (x86Source.Register "rbp") (-8)))
              (some (x86Source.Register "rbx")),
            x86Instruction.NoArg "leaveq",
            x86Instruction.NoArg "retq"] := by
  cases return_value with
  | none =>
    simp [handle_ret, CALLEE_SAVED_REGISTERS, insert_instruction, emitted, code_lines, is_comment]
  | some v =>
    cases v with
    | ConstantInt c =>
      simp [handle_ret, CALLEE_SAVED_REGISTERS, insert_instruction, emitted, code_lines,
        is_comment, source_of]
    | Other V =>
      simp [handle_ret, CALLEE_SAVED_REGISTERS, insert_instruction, emitted, code_lines,
        is_comment, source_of, query_slot]

/-- C16: for a binary instruction `R = op lhs, rhs` with `op` among add, sub, mul, div
whose non-constant operands are in used, `handle_binop` appends to the lines, comments
apart, `movq <l>, %rax`, then `<op> <r>, %rax` for add and sub or the one-operand line
`<op> <r>` for mul and div, and then, exactly when `R` has a use, the lines of
`acquire_slot` for `R` and `movq %rax, <slot>`; with a use the allocator is left as
`acquire_slot` for `R` leaves it, without a use it is unchanged. -/
theorem handle_binop_lines (m : Module) (p : x86Program) (R : Addr) (opcode : BinaryOps)
    (lhs rhs : Value)
    (hl : operand_in_used p lhs = true) (hr : operand_in_used p rhs = true) :
    (handle_binop m p R (binop_name opcode) lhs rhs).instructions
      = p.instructions ++ emitted p (handle_binop m p R (binop_name opcode) lhs rhs) ∧
    code_lines (emitted p (handle_binop m p R (binop_name opcode) lhs rhs))
      = [x86Instruction.SrcDst "movq" (source_of p lhs).1 (some (x86Source.Register "rax")),
         (match opcode with
          | BinaryOps.Add =>
            x86Instruction.SrcDst "add" (source_of p rhs).1 (some (x86Source.Register "rax"))
          | BinaryOps.Sub =>
            x86Instruction.SrcDst "sub" (source_of p rhs).1 (some (x86Source.Register "rax"))
          | BinaryOps.Mul => x86Instruction.Src "mul" (source_of p rhs).1
          | BinaryOps.SDiv => x86Instruction.Src "div" (source_of p rhs).1)]
        ++ (if use_empty m R then []
            else emitted p (acquire_slot p R).2
              ++ [x86Instruction.SrcDst "movq" (some (x86Source.Register "rax"))
                    (acquire_slot p R).1]) ∧
    (use_empty m R = false →
      (handle_binop m p R (binop_name opcode) lhs rhs).available_slots
        = (acquire_slot p R).2.available_slots ∧
      (handle_binop m p R (binop_name opcode) lhs rhs).used_slots
        = (acquire_slot p R).2.used_slots ∧
      (handle_binop m p R (binop_name opcode) lhs rhs).top_of_stack
        = (acquire_slot p R).2.top_of_stack ∧
      (handle_binop m p R (binop_name opcode) lhs rhs).slot_backups = p.slot_backups) ∧
    (use_empty m R = true →
      (handle_binop m p R (binop_name opcode) lhs rhs).available_slots = p.available_slots ∧
      (handle_binop m p R (binop_name opcode) lhs rhs).used_slots = p.used_slots ∧
      (handle_binop m p R (binop_name opcode) lhs rhs).top_of_stack = p.top_of_stack ∧
      (handle_binop m p R (binop_name opcode) lhs rhs).slot_backups = p.slot_backups) := by
  simp only [handle_binop]
  rw [source_of_stable p (insert_instruction p _) lhs rfl hl]
  simp only []
  rw [source_of_stable p (insert_instruction (insert_instruction p _) _) rhs rfl hr]
  cases hq : p.available_slots <;> cases opcode <;> cases hu : use_empty m R <;>
    simp [binop_name, insert_instruction, acquire_slot, acquire_spill, emitted, code_lines,
      is_comment, hq]

set_option maxRecDepth 1000000 in
/-- Witness of C16: the instruction `%y = add i64 %x, 1` of `two_branch_module`, in the
state after the beginning of its block. -/
theorem handle_binop_lines_witness :
    operand_in_used (lower_steps two_branch_module 6) (Value.Other 10) = true ∧
    use_empty two_branch_module 12 = false ∧
    code_lines (emitted (lower_steps two_branch_module 6)
        (handle_binop two_branch_module (lower_steps two_branch_module 6) 12
          (binop_name BinaryOps.Add) (Value.Other 10) (Value.ConstantInt 1)))
      = [x86Instruction.SrcDst "movq" (some (x86Source.Register "rbx"))
           (some (x86Source.Register "rax")),
         x86Instruction.SrcDst "add" (some (x86Source.Immediate 1))
           (some (x86Source.Register "rax")),
         x86Instruction.SrcDst "movq" (some (x86Source.Register "rax"))
           (some (x86Source.Register "rcx"))] :=
  ⟨by decide, by decide,
   (handle_binop_lines two_branch_module (lower_steps two_branch_module 6) 12 BinaryOps.Add
      (Value.Other 10) (Value.ConstantInt 1) (by decide) (by decide)).2.1.trans (by decide)⟩

/-! ## Branches -/

theorem phi_label_of_phi_index (p : x86Program) (k k2 : Addr × Addr) :
    phi_label_of (phi_node_labels_index p k).2 k2 = phi_label_of p k2 := by
  simp only [phi_label_of, phi_node_labels_index, map_index_fst]
  exact map_find_index_getD pair_lt none p.phi_node_labels k k2

theorem target_label_fst (fn : Function) (a : Addr) (p : x86Program) (t : Addr) :
    (target_label fn a p t).1 = effective_label fn a p t := by
  simp only [target_label, effective_label]
  cases find_block fn t with
  | none => simp [label_of]
  | some b => cases hb : block_starts_with_phi b <;> simp [phi_label_of, label_of, hb]

theorem target_label_frame (fn : Function) (a : Addr) (p : x86Program) (t : Addr) :
    (target_label fn a p t).2.instructions = p.instructions ∧
    (∀ b, label_of (target_label fn a p t).2 b = label_of p b) ∧
    (∀ k, phi_label_of (target_label fn a p t).2 k = phi_label_of p k) := by
  simp only [target_label]
  split
  · exact ⟨rfl, fun _ => rfl, fun k => phi_label_of_phi_index p _ k⟩
  · exact ⟨rfl, fun b => label_of_labels_index p _ b, fun _ => rfl⟩

theorem effective_label_congr (fn : Function) (a : Addr) (p q : x86Program) (t : Addr)
    (h1 : ∀ b, label_of q b = label_of p b) (h2 : ∀ k, phi_label_of q k = phi_label_of p k) :
    effective_label fn a q t = effective_label fn a p t := by
  unfold effective_label
  rw [h1, h2]

/-- C15: with `effective_label` the phi-edge label of (B, S) when S begins with a
phi-node and the block label of S otherwise, an unconditional branch of block B to S
appends exactly `jmp eff(S)`, whatever the function holds; a conditional branch on an
integer compare with one of the predicates eq, ne, sgt, sge, slt, sle and successors
(S0, S1) appends exactly `pos eff(S0)` and `neg eff(S1)`, (pos, neg) being (je, jne),
(jne, je), (jg, jle), (jge, jl), (jl, jge), (jle, jg) in this order of the predicates, and
whatever was compared, the second jump is taken exactly when the first would not be. -/
theorem handle_br_lines (fn : Function) (block : BasicBlock) (p : x86Program) :
    (∀ S : Addr,
      handle_terminator fn block p (Terminator.Br S) = handle_br_unconditional fn block p S ∧
      (handle_br_unconditional fn block p S).instructions
        = p.instructions ++ [x86Instruction.Lbl "jmp" (effective_label fn block.addr p S)]) ∧
    (∀ (cond : Value) (S0 S1 : Addr) (predicate : Predicate),
      icmp_predicate fn cond = some predicate →
      predicate ∈ [Predicate.ICMP_EQ, Predicate.ICMP_NE, Predicate.ICMP_SGT,
        Predicate.ICMP_SGE, Predicate.ICMP_SLT, Predicate.ICMP_SLE] →
      handle_terminator fn block p (Terminator.CondBr cond S0 S1)
        = handle_br_conditional fn block p cond S0 S1 ∧
      (handle_br_conditional fn block p cond S0 S1).instructions
        = p.instructions ++
          [x86Instruction.Lbl (jump_opcodes predicate).1 (effective_label fn block.addr p S0),
           x86Instruction.Lbl (jump_opcodes predicate).2 (effective_label fn block.addr p S1)] ∧
      (predicate, jump_opcodes predicate)
        ∈ [(Predicate.ICMP_EQ, ("je", "jne")), (Predicate.ICMP_NE, ("jne", "je")),
           (Predicate.ICMP_SGT, ("jg", "jle")), (Predicate.ICMP_SGE, ("jge", "jl")),
           (Predicate.ICMP_SLT, ("jl", "jge")), (Predicate.ICMP_SLE, ("jle", "jg"))] ∧
      ∀ a b : Int, jump_taken (jump_opcodes predicate).2 a b
        = !jump_taken (jump_opcodes predicate).1 a b) := by
  refine ⟨?_, ?_⟩
  · intro S
    have ht1 := target_label_frame fn block.addr p S
    refine ⟨rfl, ?_⟩
    simp only [handle_br_unconditional, insert_instruction, target_label_fst, ht1.1]
  · intro cond S0 S1 predicate hc hp
    have ht1 := target_label_frame fn block.addr p S0
    have ht2 := target_label_frame fn block.addr (target_label fn block.addr p S0).2 S1
    refine ⟨rfl, ?_, ?_, ?_⟩
    · simp only [handle_br_conditional, hc, back_up_slots, labels_index, insert_instruction,
        target_label_fst, ht2.1, ht1.1]
      rw [effective_label_congr fn block.addr p _ S1 ht1.2.1 ht1.2.2]
      simp
    · simp only [List.mem_cons, List.mem_singleton, List.not_mem_nil, or_false] at hp
      rcases hp with h | h | h | h | h | h <;> subst h <;> simp [jump_opcodes]
    · intro a b
      simp only [List.mem_cons, List.mem_singleton, List.not_mem_nil, or_false] at hp
      rcases hp with h | h | h | h | h | h <;> subst h <;>
        simp [jump_opcodes, jump_taken] <;> simp only [← not_lt, decide_not, Bool.not_not]

set_option maxRecDepth 1000000 in
/-- Witness of C15: the branch `br i1 %c, label %t, label %b` of the first block of
`two_branch_module`, on `icmp slt`, and the branch `br label %loop` of the entry block of
`loop_module`, a function without a compare before it. -/
theorem handle_br_lines_witness :
    (handle_br_conditional two_branch_function two_branch_entry
        (lower_steps two_branch_module 3) (Value.Other 11) 3 2).instructions
      = (lower_steps two_branch_module 3).instructions ++
        [x86Instruction.Lbl (jump_opcodes Predicate.ICMP_SLT).1
           (effective_label two_branch_function two_branch_entry.addr
             (lower_steps two_branch_module 3) 3),
         x86Instruction.Lbl (jump_opcodes Predicate.ICMP_SLT).2
           (effective_label two_branch_function two_branch_entry.addr
             (lower_steps two_branch_module 3) 2)] ∧
    (handle_br_unconditional loop_function
        { addr := 1, name := "%entry", body := [], terminator := Terminator.Br 2 }
        (lower_steps loop_module 1) 2).instructions
      = (lower_steps loop_module 1).instructions ++
        [x86Instruction.Lbl "jmp"
          (effective_label loop_function 1 (lower_steps loop_module 1) 2)] :=
  ⟨((handle_br_lines two_branch_function two_branch_entry (lower_steps two_branch_module 3)).2
      (Value.Other 11) 3 2 Predicate.ICMP_SLT (by decide) (by decide)).2.1,
   ((handle_br_lines loop_function
      { addr := 1, name := "%entry", body := [], terminator := Terminator.Br 2 }
      (lower_steps loop_module 1)).1 2).2⟩

/-! ## Calls and the prologue -/

theorem handle_call_used (m : Module) (p : x86Program) (R : Addr) (callee : Addr)
    (args : List Value) (entry_block : Addr)
    (he : callee_entry_block m callee = some entry_block) :
    (use_empty m R = false →
      (handle_call m p R callee args).used_slots
        = (acquire_slot
            (match args with
              | arg :: _ => (source_of p arg).2
              | [] => p) R).2.used_slots) ∧
    (use_empty m R = true →
      (handle_call m p R callee args).used_slots
        = (match args with
            | arg :: _ => (source_of p arg).2
            | [] => p).used_slots) := by
  simp only [handle_call, he, handle_call_labelled]
  cases hq : p.available_slots <;> cases hu : use_empty m R <;> cases args with
  | nil =>
    simp [CALLER_SAVED_REGISTERS, labels_index, label_of, insert_instruction, acquire_slot,
      acquire_spill, emitted, code_lines, is_comment, hq]
  | cons arg rest =>
    cases arg <;>
    simp [CALLER_SAVED_REGISTERS, labels_index, label_of, insert_instruction, acquire_slot,
      acquire_spill, emitted, code_lines, is_comment, source_of, query_slot, hq]

theorem first_argument_read (p : x86Program) (args : List Value) :
    (∀ arg, args.head? = some arg → operand_in_used p arg = true) →
    (match args with
      | arg :: _ => (source_of p arg).2
      | [] => p) = p := by
  intro h
  cases args with
  | nil => rfl
  | cons arg rest =>
    show (source_of p arg).2 = p
    rw [source_of_stable p p arg rfl (h arg rfl)]

theorem acquire_slot_records (p : x86Program) (R : Addr) :
    map_find (acquire_slot p R).2.used_slots R
      = some ((map_find p.used_slots R).getD (pq_top (acquire_spill p).available_slots)) := by
  simp only [acquire_slot]
  have hs : (acquire_spill p).used_slots = p.used_slots := by
    unfold acquire_spill
    split <;> simp [insert_instruction]
  rw [hs]
  exact map_find_insert_getD addr_lt _ _ _

theorem and_append4 {A B C D E : Prop} (h : A ∧ B ∧ C ∧ D) (e : E) : A ∧ B ∧ C ∧ D ∧ E :=
  ⟨h.1, h.2.1, h.2.2.1, h.2.2.2, e⟩

/-- C18: for a call `R` of a function of the module that has an entry block, `handle_call`
appends to the lines, comments apart: pushq of rcx, rdx, rsi, r8, r9, r10, r11; then, if
there is an argument, `movq <src>, %rdi` for the first one (`source_of` read in the state
before); `callq` of the label the registry holds for the entry block of the callee; popq of
r11, r10, r9, r8, rsi, rdx, rcx; and then, exactly when `R` has a use, the lines of
`acquire_slot` for `R` and `movq %rax, <slot>`. With a use the free queue and
`top_of_stack` are left as `acquire_slot` leaves them, and the used table is the one
`acquire_slot` for `R` leaves after the argument has been read: `R` is recorded under its
own key, with the slot that was popped. Without a use they are unchanged, the read of the
argument apart. -/
theorem handle_call_lines (m : Module) (p : x86Program) (R : Addr) (callee : Addr)
    (args : List Value) (entry_block : Addr)
    (he : callee_entry_block m callee = some entry_block) :
    (handle_call m p R callee args).instructions
      = p.instructions ++ emitted p (handle_call m p R callee args) ∧
    code_lines (emitted p (handle_call m p R callee args))
      = [x86Instruction.Src "pushq" (some (x86Source.Register "rcx")),
         x86Instruction.Src "pushq" (some (x86Source.Register "rdx")),
         x86Instruction.Src "pushq" (some (x86Source.Register "rsi")),
         x86Instruction.Src "pushq" (some (x86Source.Register "r8")),
         x86Instruction.Src "pushq" (some (x86Source.Register "r9")),
         x86Instruction.Src "pushq" (some (x86Source.Register "r10")),
         x86Instruction.Src "pushq" (some (x86Source.Register "r11"))]
        ++ (match args with
            | arg :: _ =>
              [x86Instruction.SrcDst "movq" (source_of p arg).1 (some (x86Source.Register "rdi"))]
            | [] => [])
        ++ [x86Instruction.Lbl "callq" (label_of p entry_block),
            x86Instruction.Dst "popq" (some (x86Source.Register "r11")),
            x86Instruction.Dst "popq" (some (x86Source.Register "r10")),
            x86Instruction.Dst "popq" (some (x86Source.Register "r9")),
            x86Instruction.Dst "popq" (some (x86Source.Register "r8")),
            x86Instruction.Dst "popq" (some (x86Source.Register "rsi")),
            x86Instruction.Dst "popq" (some (x86Source.Register "rdx")),
            x86Instruction.Dst "popq" (some (x86Source.Register "rcx"))]
        ++ (if use_empty m R then []
            else emitted p (acquire_slot p R).2
              ++ [x86Instruction.SrcDst "movq" (some (x86Source.Register "rax"))
                    (acquire_slot p R).1]) ∧
    (use_empty m R = false →
      (handle_call m p R callee args).available_slots = (acquire_slot p R).2.available_slots ∧
      (handle_call m p R callee args).top_of_stack = (acquire_slot p R).2.top_of_stack) ∧
    (use_empty m R = true →
      (handle_call m p R callee args).available_slots = p.available_slots ∧
      (handle_call m p R callee args).top_of_stack = p.top_of_stack) ∧
    (use_empty m R = false →
      (handle_call m p R callee args).used_slots
        = (acquire_slot
            (match args with
              | arg :: _ => (source_of p arg).2
              | [] => p) R).2.used_slots ∧
      ((∀ arg, args.head? = some arg → operand_in_used p arg = true) →
        (handle_call m p R callee args).used_slots = (acquire_slot p R).2.used_slots ∧
        map_find (handle_call m p R callee args).used_slots R
          = some ((map_find p.used_slots R).getD (pq_top (acquire_spill p).available_slots)))) ∧
    (use_empty m R = true →
      (handle_call m p R callee args).used_slots
        = (match args with
            | arg :: _ => (source_of p arg).2
            | [] => p).used_slots ∧
      ((∀ arg, args.head? = some arg → operand_in_used p arg = true) →
        (handle_call m p R callee args).used_slots = p.used_slots)) := by
  have hused := handle_call_used m p R callee args entry_block he
  refine and_append4 ?_ ⟨?_, ?_⟩
  · simp only [handle_call, he, handle_call_labelled]
    cases hq : p.available_slots <;> cases hu : use_empty m R <;> cases args with
    | nil =>
      simp [CALLER_SAVED_REGISTERS, labels_index, label_of, insert_instruction, acquire_slot,
        acquire_spill, emitted, code_lines, is_comment, hq]
    | cons arg rest =>
      cases arg <;>
      simp [CALLER_SAVED_REGISTERS, labels_index, label_of, insert_instruction, acquire_slot,
        acquire_spill, emitted, code_lines, is_comment, source_of, query_slot, hq]
  · intro hu
    refine ⟨hused.1 hu, fun h => ?_⟩
    have e := hused.1 hu
    rw [first_argument_read p args h] at e
    exact ⟨e, by rw [e]; exact acquire_slot_records p R⟩
  · intro hu
    refine ⟨hused.2 hu, fun h => ?_⟩
    have e := hused.2 hu
    rw [first_argument_read p args h] at e
    exact e

set_option maxRecDepth 1000000 in
/-- Witness of C18: the call `%r = call i64 @__main_block_x()` of `name_clash_module`, in
the state after the beginning of its block. The result has a use and is recorded in used
under its own key. -/
theorem handle_call_lines_witness :
    callee_entry_block name_clash_module 101 = some 3 ∧
    (handle_call name_clash_module (lower_steps name_clash_module 4) 11 101 []).instructions
      = (lower_steps name_clash_module 4).instructions
        ++ emitted (lower_steps name_clash_module 4)
          (handle_call name_clash_module (lower_steps name_clash_module 4) 11 101 []) ∧
    (handle_call name_clash_module (lower_steps name_clash_module 4) 11 101 []).used_slots
      = (acquire_slot (lower_steps name_clash_module 4) 11).2.used_slots :=
  ⟨by decide,
   (handle_call_lines name_clash_module (lower_steps name_clash_module 4) 11 101 [] 3
      (by decide)).1,
   (((handle_call_lines name_clash_module (lower_steps name_clash_module 4) 11 101 [] 3
      (by decide)).2.2.2.2.1 (by decide)).2 (fun arg h => by cases h)).1⟩

/-- C20: for the entry block of a function `f` (a block without phi-nodes) whose label in
the registry is the label named `f` that the constructor builds for it,
`handle_block_begin` appends to the lines, comments apart, the label `f:`, `pushq %rbp`,
`movq %rsp, %rbp` and pushq of rbx, r12, r13, r14, r15, with `top_of_stack` reset to -40
(`prologue_state`). If `f` has exactly one argument and the argument has a use, the lines of
`acquire_slot` for the argument and `movq %rdi, <slot>` follow and the allocator is left as
that `acquire_slot` leaves it; otherwise nothing follows, no slot is acquired and
`top_of_stack` is -40. -/
theorem handle_block_begin_prologue (m : Module) (fn : Function) (block : BasicBlock)
    (p : x86Program)
    (he : is_entry_block fn block = true) (hphi : block_starts_with_phi block = false)
    (hl : label_of p block.addr
      = some { origin := LabelOrigin.block block.addr, name := fn.name }) :
    (handle_block_begin m fn block p).instructions
      = p.instructions ++ emitted p (handle_block_begin m fn block p) ∧
    (prologue_state p block).top_of_stack = -40 ∧
    (∀ arg, fn.args = [arg] → use_empty m arg = false →
      code_lines (emitted p (handle_block_begin m fn block p))
        = [x86Instruction.Label (some { origin := LabelOrigin.block block.addr, name := fn.name }),
           x86Instruction.Src "pushq" (some (x86Source.Register "rbp")),
           x86Instruction.SrcDst "movq" (some (x86Source.Register "rsp"))
             (some (x86Source.Register "rbp")),
           x86Instruction.Src "pushq" (some (x86Source.Register "rbx")),
           x86Instruction.Src "pushq" (some (x86Source.Register "r12")),
           x86Instruction.Src "pushq" (some (x86Source.Register "r13")),
           x86Instruction.Src "pushq" (some (x86Source.Register "r14")),
           x86Instruction.Src "pushq" (some (x86Source.Register "r15"))]
          ++ emitted (prologue_state p block) (acquire_slot (prologue_state p block) arg).2
          ++ [x86Instruction.SrcDst "movq" (some (x86Source.Register "rdi"))
                (acquire_slot (prologue_state p block) arg).1] ∧
      (handle_block_begin m fn block p).available_slots
        = (acquire_slot (prologue_state p block) arg).2.available_slots ∧
      (handle_block_begin m fn block p).used_slots
        = (acquire_slot (prologue_state p block) arg).2.used_slots ∧
      (handle_block_begin m fn block p).top_of_stack
        = (acquire_slot (prologue_state p block) arg).2.top_of_stack) ∧
    ((∀ arg, fn.args = [arg] → use_empty m arg = true) →
      code_lines (emitted p (handle_block_begin m fn block p))
        = [x86Instruction.Label (some { origin := LabelOrigin.block block.addr, name := fn.name }),
           x86Instruction.Src "pushq" (some (x86Source.Register "rbp")),
           x86Instruction.SrcDst "movq" (some (x86Source.Register "rsp"))
             (some (x86Source.Register "rbp")),
           x86Instruction.Src "pushq" (some (x86Source.Register "rbx")),
           x86Instruction.Src "pushq" (some (x86Source.Register "r12")),
           x86Instruction.Src "pushq" (some (x86Source.Register "r13")),
           x86Instruction.Src "pushq" (some (x86Source.Register "r14")),
           x86Instruction.Src "pushq" (some (x86Source.Register "r15"))] ∧
      (handle_block_begin m fn block p).available_slots
        = (prologue_state p block).available_slots ∧
      (handle_block_begin m fn block p).used_slots = (prologue_state p block).used_slots ∧
      (handle_block_begin m fn block p).top_of_stack = -40) := by
  have hl2 : (labels_index p block.addr).1
      = some { origin := LabelOrigin.block block.addr, name := fn.name } := hl
  rcases hargs : fn.args with _ | ⟨a, _ | ⟨b, rest⟩⟩
  · simp only [handle_block_begin, he, hphi, prologue, hargs, prologue_state, label_of, hl2]
    cases hc : contains p.slot_backups
        (some { origin := LabelOrigin.block block.addr, name := fn.name }) <;>
    simp [hc, CALLEE_SAVED_REGISTERS, labels_index, insert_instruction, restore_slots, emitted,
      code_lines, is_comment]
  · cases hu : use_empty m a
    · simp only [handle_block_begin, he, hphi, prologue, hargs, hu, prologue_state, label_of,
        hl2]
      cases hc : contains p.slot_backups
          (some { origin := LabelOrigin.block block.addr, name := fn.name }) with
      | false =>
        cases hq : p.available_slots <;>
        simp [CALLEE_SAVED_REGISTERS, labels_index, insert_instruction, acquire_slot,
          acquire_spill, emitted, code_lines, is_comment, hq, hc, hu]
      | true =>
        simp only [insert_instruction, labels_index, hc, restore_slots, if_true]
        generalize map_index label_lt (([], []) : backup) p.slot_backups
          (some { origin := LabelOrigin.block block.addr, name := fn.name }) = r
        rcases r with ⟨⟨free, used⟩, rest⟩
        cases free <;>
        simp [CALLEE_SAVED_REGISTERS, insert_instruction, acquire_slot,
          acquire_spill, emitted, code_lines, is_comment, hu]
    · simp only [handle_block_begin, he, hphi, prologue, hargs, hu, prologue_state, label_of,
        hl2]
      cases hc : contains p.slot_backups
          (some { origin := LabelOrigin.block block.addr, name := fn.name }) <;>
      simp [hc, hu, CALLEE_SAVED_REGISTERS, labels_index, insert_instruction, restore_slots,
        emitted, code_lines, is_comment]
  · simp only [handle_block_begin, he, hphi, prologue, hargs, prologue_state, label_of, hl2]
    cases hc : contains p.slot_backups
        (some { origin := LabelOrigin.block block.addr, name := fn.name }) <;>
    simp [hc, CALLEE_SAVED_REGISTERS, labels_index, insert_instruction, restore_slots, emitted,
      code_lines, is_comment]

set_option maxRecDepth 1000000 in
/-- Witness of C20: the entry block of `main(i64 %x)` in `two_branch_module`, in the
freshly constructed program. -/
theorem handle_block_begin_prologue_witness :
    is_entry_block two_branch_function two_branch_entry = true ∧
    (handle_block_begin two_branch_module two_branch_function two_branch_entry
        (x86Program.construct two_branch_module)).instructions
      = (x86Program.construct two_branch_module).instructions
        ++ emitted (x86Program.construct two_branch_module)
          (handle_block_begin two_branch_module two_branch_function two_branch_entry
            (x86Program.construct two_branch_module)) :=
  ⟨by decide,
   (handle_block_begin_prologue two_branch_module two_branch_function two_branch_entry
      (x86Program.construct two_branch_module) (by decide) (by decide) (by decide)).1⟩

/-! ## The phi batch -/

theorem query_slot_fst (q : x86Program) (a : Addr) :
    (query_slot q a).1 = ((map_find q.used_slots a).getD ((0, none) : slot)).2 := by
  simp only [query_slot, map_index_fst]

theorem sameReads_query (A q : x86Program) (a : Addr) (h : SameReads A q) :
    SameReads A (query_slot q a).2 := by
  intro b
  simp only [query_slot]
  rw [map_find_index_getD]
  exact h b

theorem sameReads_source_of (A q : x86Program) (v : Value) (h : SameReads A q) :
    SameReads A (source_of q v).2 := by
  cases v with
  | ConstantInt c => exact h
  | Other a => exact sameReads_query A q a h

theorem source_of_frame (q : x86Program) (v : Value) :
    (source_of q v).2.instructions = q.instructions ∧
    (source_of q v).2.phi_node_labels = q.phi_node_labels ∧
    (source_of q v).2.available_slots = q.available_slots ∧
    (source_of q v).2.top_of_stack = q.top_of_stack := by
  cases v <;> exact ⟨rfl, rfl, rfl, rfl⟩

theorem phi_move_spec (m : Module) (P : Addr) (A q : x86Program) (phi : Instruction)
    (h : SameReads A q) :
    (phi_move m P q phi).instructions = q.instructions ++ phi_move_line m A P phi ∧
    SameReads A (phi_move m P q phi) ∧
    (phi_move m P q phi).phi_node_labels = q.phi_node_labels ∧
    (phi_move m P q phi).available_slots = q.available_slots ∧
    (phi_move m P q phi).top_of_stack = q.top_of_stack ∧
    (use_empty m phi.addr = true → (phi_move m P q phi).used_slots = q.used_slots) := by
  unfold phi_move phi_move_line
  cases phi.incoming_value P with
  | none => exact ⟨by simp, h, rfl, rfl, rfl, fun _ => rfl⟩
  | some v =>
    cases hu : use_empty m phi.addr with
    | true => cases v <;> exact ⟨by simp, h, rfl, rfl, rfl, fun _ => rfl⟩
    | false =>
      have hs := sameReads_source_of A q v h
      have hf := source_of_frame q v
      refine ⟨?_, sameReads_query A _ _ hs, hf.2.1, hf.2.2.1, hf.2.2.2, fun hc => by cases hc⟩
      cases v with
      | ConstantInt c =>
        simp [insert_instruction, source_of, query_slot_fst, h phi.addr]
        simp [query_slot]
      | Other a =>
        have hs2 := sameReads_query A q a h
        have hq : (query_slot (query_slot q a).2 phi.addr).2.instructions = q.instructions := rfl
        simp [insert_instruction, source_of, query_slot_fst, h a, hs2 phi.addr, hq]


theorem phi_moves_spec (m : Module) (P : Addr) (A : x86Program) (phis : List Instruction)
    (q : x86Program) (h : SameReads A q) :
    (phis.foldl (phi_move m P) q).instructions
      = q.instructions ++ phis.flatMap (phi_move_line m A P) ∧
    SameReads A (phis.foldl (phi_move m P) q) ∧
    (phis.foldl (phi_move m P) q).phi_node_labels = q.phi_node_labels ∧
    (phis.foldl (phi_move m P) q).available_slots = q.available_slots ∧
    (phis.foldl (phi_move m P) q).top_of_stack = q.top_of_stack ∧
    ((∀ phi ∈ phis, use_empty m phi.addr = true) →
      (phis.foldl (phi_move m P) q).used_slots = q.used_slots) := by
  induction phis generalizing q with
  | nil => exact ⟨by simp, h, rfl, rfl, rfl, fun _ => rfl⟩
  | cons phi rest ih =>
    have h1 := phi_move_spec m P A q phi h
    have h2 := ih (phi_move m P q phi) h1.2.1
    simp only [List.foldl_cons, List.flatMap_cons]
    refine ⟨?_, h2.2.1, h2.2.2.1.trans h1.2.2.1, h2.2.2.2.1.trans h1.2.2.2.1,
      h2.2.2.2.2.1.trans h1.2.2.2.2.1, fun hall => ?_⟩
    · rw [h2.1, h1.1, List.append_assoc]
    · rw [h2.2.2.2.2.2 (fun x hx => hall x (List.mem_cons_of_mem _ hx))]
      exact h1.2.2.2.2.2 (hall phi (List.mem_cons_self _ _))

theorem phi_edge_spec (m : Module) (block : BasicBlock) (phi_done : x86Label)
    (A q : x86Program) (P : Addr) (h : SameReads A q)
    (hl : q.phi_node_labels = A.phi_node_labels)
    (hc : contains A.phi_node_labels (P, block.addr) = true) :
    (phi_edge m block phi_done q P).instructions
      = q.instructions ++ phi_pad_lines m block phi_done A P ∧
    SameReads A (phi_edge m block phi_done q P) ∧
    (phi_edge m block phi_done q P).phi_node_labels = A.phi_node_labels ∧
    (phi_edge m block phi_done q P).available_slots = q.available_slots ∧
    (phi_edge m block phi_done q P).top_of_stack = q.top_of_stack ∧
    ((∀ phi ∈ phi_nodes block, use_empty m phi.addr = true) →
      (phi_edge m block phi_done q P).used_slots = q.used_slots) := by
  obtain ⟨l, hfind⟩ := map_find_of_contains hc
  have hfq : map_find q.phi_node_labels (P, block.addr) = some l := by rw [hl]; exact hfind
  have hidx : phi_node_labels_index q (P, block.addr) = (phi_label_of A (P, block.addr), q) := by
    have e1 := map_index_of_find pair_lt none q.phi_node_labels (P, block.addr) l hfq
    have e2 := map_index_of_find pair_lt none A.phi_node_labels (P, block.addr) l hfind
    simp only [phi_node_labels_index, phi_label_of, e1, e2]
  have hq : contains q.phi_node_labels (P, block.addr) = true := by rw [hl]; exact hc
  have h1 := phi_moves_spec m P A (phi_nodes block)
    (insert_instruction q (x86Instruction.Label (phi_label_of A (P, block.addr)))) h
  simp only [phi_edge, hq, if_true, hidx]
  refine ⟨?_, h1.2.1, h1.2.2.1.trans hl, h1.2.2.2.1, h1.2.2.2.2.1, fun hall => h1.2.2.2.2.2 hall⟩
  simp only [insert_instruction, phi_pad_lines] at h1 ⊢
  rw [h1.1]
  simp

theorem phi_edges_spec (m : Module) (block : BasicBlock) (phi_done : x86Label)
    (A : x86Program) (Ps : List Addr) (q : x86Program) (h : SameReads A q)
    (hl : q.phi_node_labels = A.phi_node_labels)
    (hc : ∀ P ∈ Ps, contains A.phi_node_labels (P, block.addr) = true) :
    (Ps.foldl (phi_edge m block phi_done) q).instructions
      = q.instructions ++ Ps.flatMap (phi_pad_lines m block phi_done A) ∧
    (Ps.foldl (phi_edge m block phi_done) q).available_slots = q.available_slots ∧
    (Ps.foldl (phi_edge m block phi_done) q).top_of_stack = q.top_of_stack ∧
    ((∀ phi ∈ phi_nodes block, use_empty m phi.addr = true) →
      (Ps.foldl (phi_edge m block phi_done) q).used_slots = q.used_slots) := by
  induction Ps generalizing q with
  | nil => exact ⟨by simp, rfl, rfl, fun _ => rfl⟩
  | cons P rest ih =>
    have h1 := phi_edge_spec m block phi_done A q P h hl (hc P (List.mem_cons_self _ _))
    have h2 := ih (phi_edge m block phi_done q P) h1.2.1 h1.2.2.1
      (fun x hx => hc x (List.mem_cons_of_mem _ hx))
    simp only [List.foldl_cons, List.flatMap_cons]
    refine ⟨?_, h2.2.1.trans h1.2.2.2.1, h2.2.2.1.trans h1.2.2.2.2.1, fun hall => ?_⟩
    · rw [h2.1, h1.1, List.append_assoc]
    · rw [h2.2.2.2 hall]
      exact h1.2.2.2.2.2 hall

theorem acquire_slot_lines (q : x86Program) (a : Addr) :
    ∃ L, (acquire_slot q a).2.instructions = q.instructions ++ L ∧ L.length ≤ 1 ∧
      ∀ i ∈ L, i = x86Instruction.SrcDst "sub" (some (x86Source.Immediate 8))
        (some (x86Source.Register "rsp")) := by
  cases hq : q.available_slots with
  | nil =>
    exact ⟨[x86Instruction.SrcDst "sub" (some (x86Source.Immediate 8))
      (some (x86Source.Register "rsp"))],
      by simp [acquire_slot, acquire_spill, insert_instruction, hq], by simp, by simp⟩
  | cons x l =>
    exact ⟨[], by simp [acquire_slot, acquire_spill, insert_instruction, hq], by simp, by simp⟩

theorem acquire_slot_phi_node_labels (q : x86Program) (a : Addr) :
    (acquire_slot q a).2.phi_node_labels = q.phi_node_labels := by
  simp only [acquire_slot, acquire_spill]
  split <;> rfl

theorem phi_acquires_spec (m : Module) (phis : List Instruction) (q : x86Program) :
    (∃ L, (phis.foldl (phi_acquire m) q).instructions = q.instructions ++ L ∧
      L.length ≤ (phis.filter (fun phi => !use_empty m phi.addr)).length ∧
      ∀ i ∈ L, i = x86Instruction.SrcDst "sub" (some (x86Source.Immediate 8))
        (some (x86Source.Register "rsp"))) ∧
    (phis.foldl (phi_acquire m) q).phi_node_labels = q.phi_node_labels ∧
    ((∀ phi ∈ phis, use_empty m phi.addr = true) → phis.foldl (phi_acquire m) q = q) := by
  induction phis generalizing q with
  | nil => exact ⟨⟨[], by simp, by simp, by simp⟩, rfl, fun _ => rfl⟩
  | cons phi rest ih =>
    obtain ⟨⟨L2, hL2, hlen2, hsub2⟩, hlab2, hid2⟩ := ih (phi_acquire m q phi)
    simp only [List.foldl_cons]
    cases hu : use_empty m phi.addr with
    | true =>
      have hq : phi_acquire m q phi = q := by simp [phi_acquire, hu]
      rw [hq] at hL2 hlab2 hid2 ⊢
      refine ⟨⟨L2, hL2, ?_, hsub2⟩, hlab2, fun hall => ?_⟩
      · simpa [List.filter_cons, hu] using hlen2
      · exact hid2 (fun x hx => hall x (List.mem_cons_of_mem _ hx))
    | false =>
      have hq : phi_acquire m q phi = (acquire_slot q phi.addr).2 := by simp [phi_acquire, hu]
      obtain ⟨L1, hL1, hlen1, hsub1⟩ := acquire_slot_lines q phi.addr
      rw [hq] at hL2 hlab2 ⊢
      refine ⟨⟨L1 ++ L2, ?_, ?_, ?_⟩, hlab2.trans (acquire_slot_phi_node_labels q phi.addr),
        fun hall => ?_⟩
      · rw [hL2, hL1, List.append_assoc]
      · simp only [List.filter_cons, hu, Bool.not_false, if_true, List.length_cons,
          List.length_append]
        omega
      · intro i hi
        rcases List.mem_append.mp hi with h | h
        · exact hsub1 i h
        · exact hsub2 i h
      · have := hall phi (List.mem_cons_self _ _)
        rw [hu] at this
        cases this

theorem prologue_phi_node_labels (m : Module) (fn : Function) (l : Option x86Label)
    (q : x86Program) : (prologue m fn l q).phi_node_labels = q.phi_node_labels := by
  simp only [prologue]
  split
  · split
    · simp only [insert_instruction, acquire_slot_phi_node_labels]
      simp [CALLEE_SAVED_REGISTERS, insert_instruction]
    · simp [CALLEE_SAVED_REGISTERS, insert_instruction]
  · simp [CALLEE_SAVED_REGISTERS, insert_instruction]

theorem batch_start_frame (m : Module) (fn : Function) (block : BasicBlock) (p : x86Program) :
    (batch_start m fn block p).phi_node_labels = p.phi_node_labels ∧
    (is_entry_block fn block = false →
      (batch_start m fn block p).instructions
        = p.instructions ++ [x86Instruction.Label (label_of p block.addr)]) := by
  constructor
  · simp only [batch_start]
    split
    · rw [prologue_phi_node_labels]
      split <;> rfl
    · split <;> rfl
  · intro he
    simp only [batch_start, he, Bool.false_eq_true, if_false]
    split <;> rfl

theorem phi_move_line_of_no_use (m : Module) (p : x86Program) (P : Addr) (phi : Instruction)
    (h : use_empty m phi.addr = true) : phi_move_line m p P phi = [] := by
  unfold phi_move_line
  split <;> simp [h]

/-- C13, amended: for a block B that begins with phi-nodes, the registry holding a label
for every edge (P, B) of the batch, the lines `handle_block_begin` emits after the label of
B (and the prologue) are: first the lines of the acquires for the leading phi-nodes that
have a use, each of them `sub $8, %rsp` and at most one per such phi-node; then, for each
predecessor P of the batch, the label of the edge (P, B), one `movq <src>, <phi slot>` per
leading phi-node, in order, that lists P and has a use, and `jmp __PHI_DONE_<label of B>`;
and finally the label `__PHI_DONE_<label of B>`. The pads acquire nothing. When no
phi-node of B has a use, no slot is acquired, no line is emitted for the acquires, no pad
holds a move, and the used table is unchanged. -/
theorem phi_batch_lines (m : Module) (fn : Function) (block : BasicBlock) (p : x86Program)
    (hphi : block_starts_with_phi block = true)
    (hreg : ∀ P ∈ incoming_blocks_to_phi_batch block,
      contains p.phi_node_labels (P, block.addr) = true) :
    (handle_block_begin m fn block p).instructions
      = (batch_start m fn block p).instructions
        ++ emitted (batch_start m fn block p) (batch_acquired m fn block p)
        ++ (incoming_blocks_to_phi_batch block).flatMap
            (phi_pad_lines m block (phi_done_label p block) (batch_acquired m fn block p))
        ++ [x86Instruction.Label (some (phi_done_label p block))] ∧
    (is_entry_block fn block = false →
      (batch_start m fn block p).instructions
        = p.instructions ++ [x86Instruction.Label (label_of p block.addr)]) ∧
    (∀ i ∈ emitted (batch_start m fn block p) (batch_acquired m fn block p),
      i = x86Instruction.SrcDst "sub" (some (x86Source.Immediate 8))
        (some (x86Source.Register "rsp"))) ∧
    (emitted (batch_start m fn block p) (batch_acquired m fn block p)).length
      ≤ ((phi_nodes block).filter (fun phi => !use_empty m phi.addr)).length ∧
    (handle_block_begin m fn block p).available_slots
      = (batch_acquired m fn block p).available_slots ∧
    (handle_block_begin m fn block p).top_of_stack
      = (batch_acquired m fn block p).top_of_stack ∧
    ((∀ phi ∈ phi_nodes block, use_empty m phi.addr = true) →
      batch_acquired m fn block p = batch_start m fn block p ∧
      (∀ P, (phi_nodes block).flatMap
        (phi_move_line m (batch_acquired m fn block p) P) = []) ∧
      (handle_block_begin m fn block p).used_slots = (batch_start m fn block p).used_slots) := by
  have hb : handle_block_begin m fn block p
      = insert_instruction
          ((incoming_blocks_to_phi_batch block).foldl
            (phi_edge m block (phi_done_label p block)) (batch_acquired m fn block p))
          (x86Instruction.Label (some (phi_done_label p block))) := by
    simp only [handle_block_begin, hphi, if_true, phi_batch]
    rfl
  obtain ⟨⟨L, hL, hlen, hsub⟩, hlab, hid⟩ :=
    phi_acquires_spec m (phi_nodes block) (batch_start m fn block p)
  have hfr := batch_start_frame m fn block p
  have hA : (batch_acquired m fn block p).phi_node_labels = p.phi_node_labels :=
    hlab.trans hfr.1
  have hem : emitted (batch_start m fn block p) (batch_acquired m fn block p) = L := by
    simp only [emitted, batch_acquired, hL, List.drop_left]
  have he := phi_edges_spec m block (phi_done_label p block) (batch_acquired m fn block p)
    (incoming_blocks_to_phi_batch block) (batch_acquired m fn block p) (fun _ => rfl) rfl
    (fun P hP => by rw [hA]; exact hreg P hP)
  rw [hb, hem]
  refine ⟨?_, hfr.2, hsub, hlen, he.2.1, he.2.2.1, fun hall => ⟨hid hall, fun P => ?_, ?_⟩⟩
  · simp only [insert_instruction, he.1]
    rw [show (batch_acquired m fn block p).instructions
      = (batch_start m fn block p).instructions ++ L from hL]
  · exact List.flatMap_eq_nil_iff.mpr (fun phi hphi2 =>
      phi_move_line_of_no_use m _ P phi (hall phi hphi2))
  · have h1 := he.2.2.2 hall
    simp only [insert_instruction, h1]
    exact congrArg x86Program.used_slots (hid hall)

set_option maxRecDepth 1000000 in
/-- Witness of C13: the header of `counted_loop_module`, in the state the driver reaches
it in. -/
theorem phi_batch_lines_witness :
    block_starts_with_phi counted_loop_header = true ∧
    (handle_block_begin counted_loop_module counted_loop_function counted_loop_header
        (lower_steps counted_loop_module 3)).instructions
      = (batch_start counted_loop_module counted_loop_function counted_loop_header
          (lower_steps counted_loop_module 3)).instructions
        ++ emitted
          (batch_start counted_loop_module counted_loop_function counted_loop_header
            (lower_steps counted_loop_module 3))
          (batch_acquired counted_loop_module counted_loop_function counted_loop_header
            (lower_steps counted_loop_module 3))
        ++ (incoming_blocks_to_phi_batch counted_loop_header).flatMap
            (phi_pad_lines counted_loop_module counted_loop_header
              (phi_done_label (lower_steps counted_loop_module 3) counted_loop_header)
              (batch_acquired counted_loop_module counted_loop_function counted_loop_header
                (lower_steps counted_loop_module 3)))
        ++ [x86Instruction.Label
              (some (phi_done_label (lower_steps counted_loop_module 3) counted_loop_header))] :=
  ⟨by decide,
   (phi_batch_lines counted_loop_module counted_loop_function counted_loop_header
      (lower_steps counted_loop_module 3) (by decide) (by decide)).1⟩

set_option maxRecDepth 1000000 in
/-- C13 fails as stated. In `phi_spill_module` twelve values are live at the beginning of
the block `%join`, so the acquire for its phi-node finds the free queue empty: after the
label of the block, `handle_block_begin` emits `sub $8, %rsp` before the label of the
edge. -/
theorem phi_batch_spill_line :
    block_starts_with_phi phi_spill_join = true ∧
    emitted (lower_steps phi_spill_module 27)
        (handle_block_begin phi_spill_module phi_spill_function phi_spill_join
          (lower_steps phi_spill_module 27))
      = [x86Instruction.Label
           (some { origin := LabelOrigin.block 2, name := "__main_block_join" }),
         x86Instruction.SrcDst "sub" (some (x86Source.Immediate 8))
           (some (x86Source.Register "rsp")),
         x86Instruction.Label
           (some { origin := LabelOrigin.phi_edge 1 2,
                   name := "__PHI_FROM___main_block_entry_TO___main_block_join" }),
         x86Instruction.SrcDst "movq" (some (x86Source.Immediate 5))
           (some (x86Source.Pointer (x86Source.Register "rbp") (-48))),
         x86Instruction.Lbl "jmp"
           (some { origin := LabelOrigin.phi_done 2, name := "__PHI_DONE___main_block_join" }),
         x86Instruction.Label
           (some { origin := LabelOrigin.phi_done 2, name := "__PHI_DONE___main_block_join" })] := by
  decide

set_option maxRecDepth 1000000 in
/-- C12 fails on the code. In `swap_loop_module` the incoming operand of `%b` for the back
edge is `%a`; the beginning of the loop block gives `%a` the slot `%rbx` and `%b` the slot `%rcx`.
The landing pad of the back
edge is `movq %rcx, %rbx`, `movq %rbx, %rcx`: run in this order from a state in which
`%rbx` holds 10 and `%rcx` holds 20, it leaves 20 in `%rcx`, the slot of `%b`, and not the
10 that `%a` held on entry. -/
theorem phi_moves_not_parallel :
    (Instruction.PHI 12 [(Value.ConstantInt 2, 1), (Value.Other 11, 2)]).incoming_value 2
      = some (Value.Other 11) ∧
    (lower_steps swap_loop_module 4).used_slots
      = [(11, (-12, some (x86Source.Register "rbx"))),
         (12, (-11, some (x86Source.Register "rcx")))] ∧
    landing_pad (lower swap_loop_module).instructions
        (phi_label_of (lower swap_loop_module) (2, 2))
      = [x86Instruction.SrcDst "movq" (some (x86Source.Register "rcx"))
           (some (x86Source.Register "rbx")),
         x86Instruction.SrcDst "movq" (some (x86Source.Register "rbx"))
           (some (x86Source.Register "rcx"))] ∧
    swap_state (x86Source.Register "rbx") = 10 ∧
    exec_lines swap_state
        (landing_pad (lower swap_loop_module).instructions
          (phi_label_of (lower swap_loop_module) (2, 2)))
        (x86Source.Register "rcx") = 20 := by
  decide

set_option maxRecDepth 1000000 in
/-- C14 fails on the code. In `counted_loop_module` the landing pad of the back edge is
emitted at the beginning of the header, before `%next` is acquired: its move has a null
source operand. The body then stores `%next` in `%rcx`, the slot `acquire_slot` returns,
but the used table keeps the null slot `{0, nullptr}` that the query had inserted for
`%next`; after the sweep that follows the branch of the body, `%next` still holds the null
slot and `%rcx` is neither in the free queue nor in the used table. -/
theorem back_edge_reads_null_slot :
    landing_pad (lower counted_loop_module).instructions
        (phi_label_of (lower counted_loop_module) (3, 2))
      = [x86Instruction.SrcDst "movq" none (some (x86Source.Register "rbx"))] ∧
    code_lines (emitted (lower_steps counted_loop_module 11)
        (handle_binop counted_loop_module (lower_steps counted_loop_module 11) 12 "add"
          (Value.Other 11) (Value.ConstantInt 1)))
      = [x86Instruction.SrcDst "movq" (some (x86Source.Register "rbx"))
           (some (x86Source.Register "rax")),
         x86Instruction.SrcDst "add" (some (x86Source.Immediate 1))
           (some (x86Source.Register "rax")),
         x86Instruction.SrcDst "movq" (some (x86Source.Register "rax"))
           (some (x86Source.Register "rcx"))] ∧
    (lower_steps counted_loop_module 15).used_slots
      = [(11, (-12, some (x86Source.Register "rbx"))), (12, (0, none))] ∧
    (lower_steps counted_loop_module 15).available_slots.all
      (fun s => decide (s.2 ≠ some (x86Source.Register "rcx"))) = true := by
  decide

/-! ## The label registry of the constructor -/

theorem map_find_insert_cases {K V : Type} [DecidableEq K] (lt : K → K → Bool) (m : List (K × V)) (k k2 : K) (v w : V)
    (h : map_find (map_insert lt m k v) k2 = some w) :
    map_find m k2 = some w ∨ (k2 = k ∧ w = v ∧ contains m k = false) := by
  by_cases hk : k2 = k
  · subst hk
    cases hc : contains m k2 with
    | true =>
      obtain ⟨x, hx⟩ := map_find_of_contains hc
      rw [map_find_insert_of_find lt m k2 k2 v x hx] at h
      exact Or.inl (hx.trans h)
    | false =>
      rw [map_find_insert_self lt m k2 v hc] at h
      exact Or.inr ⟨rfl, (Option.some.inj h).symm, rfl⟩
  · rw [map_find_insert_ne lt m k k2 v hk] at h
    exact Or.inl h

theorem contains_insert {K V : Type} [DecidableEq K] (lt : K → K → Bool) (m : List (K × V)) (k k2 : K) (v : V) :
    contains (map_insert lt m k v) k2 = true ↔ k2 = k ∨ contains m k2 = true := by
  constructor
  · intro h
    obtain ⟨w, hw⟩ := map_find_of_contains h
    rcases map_find_insert_cases lt m k k2 v w hw with h1 | h1
    · exact Or.inr (contains_of_map_find h1)
    · exact Or.inl h1.1
  · rintro (h | h)
    · subst h
      exact contains_of_map_find (map_find_insert_getD lt m k2 v)
    · obtain ⟨w, hw⟩ := map_find_of_contains h
      exact contains_of_map_find (map_find_insert_of_find lt m k k2 v w hw)


theorem foldl_flatMap_eq {α β γ : Type} (f : β → List γ) (g : α → γ → α) (l : List β) (a : α) :
    (l.flatMap f).foldl g a = l.foldl (fun acc x => (f x).foldl g acc) a := by
  induction l generalizing a with
  | nil => rfl
  | cons x rest ih => simp only [List.flatMap_cons, List.foldl_append, List.foldl_cons, ih]

theorem construct_labels_eq (m : Module) :
    construct_labels m
      = (all_blocks m).foldl (fun acc fb => construct_block m fb.1 acc fb.2)
          (x86Program.empty, (none : Option x86Label)) := by
  unfold construct_labels all_blocks
  rw [foldl_flatMap_eq]
  simp only [List.foldl_map]

theorem map_index_insert_self {K V : Type} [DecidableEq K] (lt : K → K → Bool) (d : V)
    (m : List (K × V)) (k : K) (v : V) :
    map_index lt d (map_insert lt m k v) k
      = ((map_find m k).getD v, map_insert lt m k v) :=
  map_index_of_find lt d _ k _ (map_find_insert_getD lt m k v)

theorem phi_registry_foldl (b : Addr) (mk : Addr → Option x86Label) (Ps : List Addr)
    (q : x86Program) :
    (Ps.foldl (fun (q : x86Program) incoming_block =>
        { q with phi_node_labels :=
            map_insert pair_lt q.phi_node_labels (incoming_block, b) (mk incoming_block) })
      q).labels = q.labels ∧
    (Ps.foldl (fun (q : x86Program) incoming_block =>
        { q with phi_node_labels :=
            map_insert pair_lt q.phi_node_labels (incoming_block, b) (mk incoming_block) })
      q).phi_node_labels
      = Ps.foldl (fun pl incoming_block => map_insert pair_lt pl (incoming_block, b)
          (mk incoming_block)) q.phi_node_labels := by
  induction Ps generalizing q with
  | nil => exact ⟨rfl, rfl⟩
  | cons P rest ih =>
    simp only [List.foldl_cons]
    exact ih _

theorem construct_block_registry (m : Module) (f : Function)
    (acc : x86Program × Option x86Label) (b : BasicBlock) :
    (construct_block m f acc b).1.labels
      = map_insert addr_lt acc.1.labels b.addr (some (block_label f b)) ∧
    (construct_block m f acc b).1.phi_node_labels
      = (incoming_blocks_to_phi_batch b).foldl
          (fun pl incoming_block => map_insert pair_lt pl (incoming_block, b.addr)
            (some (phi_edge_label m incoming_block b.addr
              (get_name ((map_find acc.1.labels b.addr).getD (some (block_label f b)))))))
          acc.1.phi_node_labels := by
  unfold construct_block
  by_cases he : is_entry_block f b = true
  · simp only [he, if_true, block_label, map_index_insert_self]
    exact phi_registry_foldl b.addr _ _ _
  · have he2 : is_entry_block f b = false := by simpa using he
    simp only [he2, Bool.false_eq_true, if_false, block_label, map_index_insert_self]
    exact phi_registry_foldl b.addr _ _ _

theorem construct_block_labels_keep (m : Module) (f : Function)
    (acc : x86Program × Option x86Label) (b : BasicBlock) (a : Addr) (v : Option x86Label)
    (h : map_find acc.1.labels a = some v) :
    map_find (construct_block m f acc b).1.labels a = some v := by
  rw [(construct_block_registry m f acc b).1]
  exact map_find_insert_of_find addr_lt _ _ _ _ v h

theorem construct_blocks_labels_keep (m : Module) (L : List (Function × BasicBlock))
    (acc : x86Program × Option x86Label) (a : Addr) (v : Option x86Label)
    (h : map_find acc.1.labels a = some v) :
    map_find (L.foldl (fun acc fb => construct_block m fb.1 acc fb.2) acc).1.labels a
      = some v :=
  foldl_preserves (fun q : x86Program × Option x86Label => map_find q.1.labels a = some v)
    _ (fun q fb hq => construct_block_labels_keep m fb.1 q fb.2 a v hq) L acc h

theorem registry_label_of_block (m : Module) (L : List (Function × BasicBlock))
    (acc : x86Program × Option x86Label) (f : Function) (b : BasicBlock)
    (hmem : (f, b) ∈ L) (hnd : (L.map (fun fb => fb.2.addr)).Nodup)
    (hfresh : ∀ fb ∈ L, contains acc.1.labels fb.2.addr = false) :
    map_find (L.foldl (fun acc fb => construct_block m fb.1 acc fb.2) acc).1.labels b.addr
      = some (some (block_label f b)) := by
  induction L generalizing acc with
  | nil => cases hmem
  | cons x rest ih =>
    simp only [List.map_cons, List.nodup_cons] at hnd
    simp only [List.foldl_cons]
    rcases List.mem_cons.mp hmem with hx | hx
    · subst hx
      apply construct_blocks_labels_keep
      rw [(construct_block_registry m f acc b).1]
      exact map_find_insert_self addr_lt _ _ _ (hfresh (f, b) (List.mem_cons_self _ _))
    · apply ih _ hx hnd.2
      intro fb hfb
      cases hc : contains (construct_block m x.1 acc x.2).1.labels fb.2.addr with
      | false => rfl
      | true =>
        rw [(construct_block_registry m x.1 acc x.2).1] at hc
        rcases (contains_insert addr_lt _ _ _ _).mp hc with h1 | h1
        · exact absurd (List.mem_map.mpr ⟨fb, hfb, h1⟩) hnd.1
        · rw [hfresh fb (List.mem_cons_of_mem _ hfb)] at h1
          cases h1

theorem construct_labels_of_construct (m : Module) :
    (x86Program.construct m).labels = (construct_labels m).1.labels ∧
    (x86Program.construct m).phi_node_labels = (construct_labels m).1.phi_node_labels := by
  unfold x86Program.construct
  have h := insert_instructions_frame (program_header (construct_labels m).2)
    { (construct_labels m).1 with
      available_slots := register_slots (construct_labels m).1.available_slots }
  exact ⟨h.2.2.2.2.2.1, h.2.2.2.2.2.2⟩

theorem label_of_eq (p : x86Program) (a : Addr) :
    label_of p a = (map_find p.labels a).getD none := by
  simp only [label_of, labels_index, map_index_fst]

theorem mem_all_blocks (m : Module) (f : Function) (b : BasicBlock) :
    (f, b) ∈ all_blocks m ↔ f ∈ m ∧ b ∈ f.blocks := by
  simp only [all_blocks, List.mem_flatMap, List.mem_map, Prod.mk.injEq]
  constructor
  · rintro ⟨g, hg, c, hc, rfl, rfl⟩
    exact ⟨hg, hc⟩
  · rintro ⟨hf, hb⟩
    exact ⟨f, hf, b, hb, rfl, rfl⟩

theorem registry_label (m : Module) (f : Function) (b : BasicBlock)
    (hnd : ((all_blocks m).map (fun fb => fb.2.addr)).Nodup)
    (hf : f ∈ m) (hb : b ∈ f.blocks) :
    label_of (x86Program.construct m) b.addr = some (block_label f b) := by
  rw [label_of_eq, (construct_labels_of_construct m).1, construct_labels_eq,
    registry_label_of_block m (all_blocks m) (x86Program.empty, none) f b
      ((mem_all_blocks m f b).mpr ⟨hf, hb⟩) hnd (fun _ _ => rfl)]
  rfl

theorem drop_percent (n : String) : ("%" ++ n).drop 1 = n := by
  rw [String.drop_eq]
  rfl

/-- C21: in a module whose blocks live at distinct addresses, the registry that the
constructor builds maps the entry block of a function `f` to a label named `f`, and a block
of `f` that is not its entry block and is printed as `%n` to a label named
`__f_block_n`. -/
theorem block_labels_named (m : Module) (f : Function) (b : BasicBlock)
    (hnd : ((all_blocks m).map (fun fb => fb.2.addr)).Nodup)
    (hf : f ∈ m) (hb : b ∈ f.blocks) :
    (is_entry_block f b = true →
      label_of (x86Program.construct m) b.addr
        = some { origin := LabelOrigin.block b.addr, name := f.name }) ∧
    (∀ n : String, is_entry_block f b = false → b.name = "%" ++ n →
      label_of (x86Program.construct m) b.addr
        = some { origin := LabelOrigin.block b.addr,
                 name := "__" ++ f.name ++ "_block_" ++ n }) := by
  have h := registry_label m f b hnd hf hb
  constructor
  · intro he
    rw [h]
    simp [block_label, he]
  · intro n he hn
    rw [h]
    simp [block_label, he, block_label_name, hn, drop_percent, String.append_assoc]

theorem phi_inserts_values (m : Module) (b : Addr) (name : String)
    (labels : List (Addr × Option x86Label)) (l : Option x86Label)
    (hl : map_find labels b = some l) (hname : get_name l = name)
    (Ps : List Addr) (pl : List ((Addr × Addr) × Option x86Label))
    (h : ∀ P S v, map_find pl (P, S) = some v →
      ∃ l, map_find labels S = some l ∧ v = some (phi_edge_label m P S (get_name l))) :
    ∀ P S v, map_find (Ps.foldl (fun pl incoming_block =>
        map_insert pair_lt pl (incoming_block, b)
          (some (phi_edge_label m incoming_block b name))) pl) (P, S) = some v →
      ∃ l, map_find labels S = some l ∧ v = some (phi_edge_label m P S (get_name l)) := by
  induction Ps generalizing pl with
  | nil => exact h
  | cons x rest ih =>
    simp only [List.foldl_cons]
    apply ih
    intro P S v hv
    rcases map_find_insert_cases pair_lt pl _ _ _ v hv with h1 | ⟨hk, hval, _⟩
    · exact h P S v h1
    · simp only [Prod.mk.injEq] at hk
      obtain ⟨rfl, rfl⟩ := hk
      exact ⟨l, hl, by rw [hval, hname]⟩

theorem construct_block_phi_values (m : Module) (f : Function)
    (acc : x86Program × Option x86Label) (b : BasicBlock)
    (h : ∀ P S v, map_find acc.1.phi_node_labels (P, S) = some v →
      ∃ l, map_find acc.1.labels S = some l ∧ v = some (phi_edge_label m P S (get_name l))) :
    ∀ P S v, map_find (construct_block m f acc b).1.phi_node_labels (P, S) = some v →
      ∃ l, map_find (construct_block m f acc b).1.labels S = some l ∧
        v = some (phi_edge_label m P S (get_name l)) := by
  rw [(construct_block_registry m f acc b).1, (construct_block_registry m f acc b).2]
  apply phi_inserts_values m b.addr _ _ _ (map_find_insert_getD addr_lt _ _ _) rfl
  intro P S v hv
  obtain ⟨l, hl, hval⟩ := h P S v hv
  exact ⟨l, map_find_insert_of_find addr_lt _ _ _ _ l hl, hval⟩

theorem construct_labels_phi_values (m : Module) :
    ∀ P S v, map_find (construct_labels m).1.phi_node_labels (P, S) = some v →
      ∃ l, map_find (construct_labels m).1.labels S = some l ∧
        v = some (phi_edge_label m P S (get_name l)) := by
  rw [construct_labels_eq]
  apply foldl_preserves (fun q : x86Program × Option x86Label =>
    ∀ P S v, map_find q.1.phi_node_labels (P, S) = some v →
      ∃ l, map_find q.1.labels S = some l ∧ v = some (phi_edge_label m P S (get_name l)))
  · intro q fb hq
    exact construct_block_phi_values m fb.1 q fb.2 hq
  · intro P S v hv
    cases hv

theorem set_place_mem (a x : Addr) (s : List Addr) : x ∈ set_place a s ↔ x = a ∨ x ∈ s := by
  induction s with
  | nil => simp [set_place]
  | cons b rest ih =>
    unfold set_place
    split
    · simp
    · simp only [List.mem_cons, ih]
      tauto

theorem set_insert_mem (a x : Addr) (s : List Addr) : x ∈ set_insert s a ↔ x = a ∨ x ∈ s := by
  unfold set_insert
  split
  · rename_i h
    constructor
    · exact Or.inr
    · rintro (h1 | h1)
      · rw [h1]; exact h
      · exact h1
  · exact set_place_mem a x s

theorem foldl_set_insert_mem (l : List Addr) (s : List Addr) (x : Addr) :
    x ∈ l.foldl set_insert s ↔ x ∈ s ∨ x ∈ l := by
  induction l generalizing s with
  | nil => simp
  | cons a rest ih =>
    simp only [List.foldl_cons, ih, set_insert_mem, List.mem_cons]
    tauto

theorem mem_incoming_blocks_aux (phis : List Instruction) (s : List Addr) (x : Addr) :
    x ∈ phis.foldl (fun s i => i.blocks.foldl set_insert s) s
      ↔ x ∈ s ∨ ∃ phi ∈ phis, x ∈ phi.blocks := by
  induction phis generalizing s with
  | nil => simp
  | cons i rest ih =>
    simp only [List.foldl_cons, ih, foldl_set_insert_mem, List.mem_cons, exists_eq_or_imp]
    tauto

theorem mem_incoming_blocks (b : BasicBlock) (x : Addr) :
    x ∈ incoming_blocks_to_phi_batch b ↔ ∃ phi ∈ phi_nodes b, x ∈ phi.blocks := by
  unfold incoming_blocks_to_phi_batch
  rw [mem_incoming_blocks_aux]
  simp

theorem starts_with_phi_of_phi_nodes (b : BasicBlock) (phi : Instruction)
    (h : phi ∈ phi_nodes b) : block_starts_with_phi b = true := by
  unfold phi_nodes at h
  unfold block_starts_with_phi
  cases hb : b.body with
  | nil => rw [hb] at h; cases h
  | cons i rest =>
    rw [hb] at h
    cases hi : i.isPHI with
    | true => exact hi
    | false => simp [List.takeWhile, hi] at h

theorem phi_inserts_keys (b : Addr) (mk : Addr → Option x86Label) (Ps : List Addr)
    (pl : List ((Addr × Addr) × Option x86Label)) (P S : Addr) :
    contains (Ps.foldl (fun pl incoming_block =>
        map_insert pair_lt pl (incoming_block, b) (mk incoming_block)) pl) (P, S) = true
      ↔ contains pl (P, S) = true ∨ (S = b ∧ P ∈ Ps) := by
  induction Ps generalizing pl with
  | nil => simp
  | cons x rest ih =>
    simp only [List.foldl_cons, ih, contains_insert, Prod.mk.injEq, List.mem_cons]
    tauto

theorem construct_block_phi_keys (m : Module) (f : Function)
    (acc : x86Program × Option x86Label) (b : BasicBlock) (P S : Addr) :
    contains (construct_block m f acc b).1.phi_node_labels (P, S) = true
      ↔ contains acc.1.phi_node_labels (P, S) = true
        ∨ (S = b.addr ∧ P ∈ incoming_blocks_to_phi_batch b) := by
  rw [(construct_block_registry m f acc b).2]
  exact phi_inserts_keys b.addr _ _ _ P S

theorem construct_blocks_phi_keys (m : Module) (L : List (Function × BasicBlock))
    (acc : x86Program × Option x86Label) (P S : Addr) :
    contains (L.foldl (fun acc fb => construct_block m fb.1 acc fb.2) acc).1.phi_node_labels
        (P, S) = true
      ↔ contains acc.1.phi_node_labels (P, S) = true
        ∨ ∃ fb ∈ L, S = fb.2.addr ∧ P ∈ incoming_blocks_to_phi_batch fb.2 := by
  induction L generalizing acc with
  | nil => simp
  | cons x rest ih =>
    simp only [List.foldl_cons, ih, construct_block_phi_keys, List.mem_cons, exists_eq_or_imp]
    tauto

/-- C23: after construction, the phi-edge table holds a label for the pair (P, S) exactly
when S is the address of a block B of the module that begins with a phi-node and P is an
incoming block of one of the leading phi-nodes of B. -/
theorem phi_registry_keys (m : Module) (P S : Addr) :
    contains (x86Program.construct m).phi_node_labels (P, S) = true
      ↔ ∃ f ∈ m, ∃ b ∈ f.blocks, b.addr = S ∧ block_starts_with_phi b = true ∧
          ∃ phi ∈ phi_nodes b, P ∈ phi.blocks := by
  rw [(construct_labels_of_construct m).2, construct_labels_eq, construct_blocks_phi_keys]
  constructor
  · rintro (h | ⟨⟨f, b⟩, hfb, hS, hP⟩)
    · cases h
    · obtain ⟨hf, hb⟩ := (mem_all_blocks m f b).mp hfb
      obtain ⟨phi, hphi, hin⟩ := (mem_incoming_blocks b P).mp hP
      exact ⟨f, hf, b, hb, hS.symm, starts_with_phi_of_phi_nodes b phi hphi, phi, hphi, hin⟩
  · rintro ⟨f, hf, b, hb, hS, _, phi, hphi, hin⟩
    exact Or.inr ⟨(f, b), (mem_all_blocks m f b).mpr ⟨hf, hb⟩, hS.symm,
      (mem_incoming_blocks b P).mpr ⟨phi, hphi, hin⟩⟩

theorem phi_registry_value (m : Module) (P S : Addr) (v : Option x86Label)
    (h : map_find (x86Program.construct m).phi_node_labels (P, S) = some v) :
    v = some { origin := LabelOrigin.phi_edge P S,
               name := "__PHI_FROM_" ++ incoming_block_label m P ++ "_TO_"
                 ++ get_name (label_of (x86Program.construct m) S) } := by
  rw [(construct_labels_of_construct m).2] at h
  obtain ⟨l, hl, hv⟩ := construct_labels_phi_values m P S v h
  rw [label_of_eq, (construct_labels_of_construct m).1, hl, hv]
  rfl

/-! ## Printing -/

theorem construct_block_main (m : Module) (function : Function)
    (acc : x86Program × Option x86Label) (block : BasicBlock)
    (h : ∃ l, acc.2 = some l ∧ l.name = "main") :
    ∃ l, (construct_block m function acc block).2 = some l ∧ l.name = "main" := by
  unfold construct_block
  simp only []
  split
  · split
    · rename_i hn
      exact ⟨_, rfl, hn⟩
    · exact h
  · exact h

theorem construct_block_entry_main (m : Module) (function : Function)
    (acc : x86Program × Option x86Label) (block : BasicBlock)
    (he : is_entry_block function block = true) (hn : function.name = "main") :
    ∃ l, (construct_block m function acc block).2 = some l ∧ l.name = "main" := by
  unfold construct_block
  simp only [he, hn, if_true]
  exact ⟨_, rfl, rfl⟩

theorem construct_labels_main (m : Module) (f : Function) (hf : f ∈ m)
    (hn : f.name = "main") (hb : f.blocks ≠ []) :
    ∃ l, (construct_labels m).2 = some l ∧ l.name = "main" := by
  obtain ⟨pre, post, rfl⟩ := List.append_of_mem hf
  unfold construct_labels
  rw [List.foldl_append, List.foldl_cons]
  apply foldl_preserves (fun acc : x86Program × Option x86Label =>
    ∃ l, acc.2 = some l ∧ l.name = "main")
  · intro a g ha
    exact foldl_preserves (fun acc : x86Program × Option x86Label =>
      ∃ l, acc.2 = some l ∧ l.name = "main") _
      (fun a2 b h2 => construct_block_main _ g a2 b h2) g.blocks a ha
  · cases hbl : f.blocks with
    | nil => exact absurd hbl hb
    | cons b0 rest =>
      rw [List.foldl_cons]
      apply foldl_preserves (fun acc : x86Program × Option x86Label =>
        ∃ l, acc.2 = some l ∧ l.name = "main")
      · exact fun a2 b h2 => construct_block_main _ f a2 b h2
      · apply construct_block_entry_main _ f _ b0 _ hn
        simp [is_entry_block, hbl]

set_option maxRecDepth 100000 in
/-- C24, amended: for a module that defines a function named `main`, printing the freshly
constructed program yields the ten opening lines, the last of which is `    int $128`: the
immediate `0x80` is printed in decimal. -/
theorem print_opening_lines (m : Module) (f : Function) (hf : f ∈ m)
    (hn : f.name = "main") (hb : f.blocks ≠ []) :
    (x86Program.construct m).print
      = some ("    # this assembly generated by the cs257 code generator\n"
          ++ ".globl _start\n"
          ++ "_start:\n"
          ++ "    callq main\n"
          ++ "    # taking main's return value and putting it in %rbx to act as program exit code\n"
          ++ "    movq %rax, %rbx\n"
          ++ "    # 1 is the linux interrupt code for exit\n"
          ++ "    movq $1, %rax\n"
          ++ "    # passing control to the kernel\n"
          ++ "    int $128\n") := by
  obtain ⟨l, hl, hname⟩ := construct_labels_main m f hf hn hb
  obtain ⟨origin, name⟩ := l
  simp only at hname
  subst hname
  simp only [x86Program.print, (construct_frame m).2.2.2.2, hl]
  rfl

/-- C25: an immediate prints as `$` and its signed decimal, a register `n` as `%n`, a
pointer with register base `n` and offset `k` as the signed decimal of `k` and `(%n)`; a
label prints as its name and `:`, a directive as its text, a comment as four spaces, `# `
and its text; an instruction prints as four spaces, the opcode, a blank and its operands,
source and destination separated by `, `; every printed line ends with a newline. -/
theorem print_format (v k : Int) (n opcode text : String) (l : x86Label)
    (s d : x86Source) :
    (x86Source.Immediate v).print = "$" ++ toString v ∧
    (x86Source.Register n).print = "%" ++ n ∧
    (x86Source.Pointer (x86Source.Register n) k).print
      = toString k ++ "(" ++ ("%" ++ n) ++ ")" ∧
    (x86Instruction.Label (some l)).print = some (l.name ++ ":" ++ "\n") ∧
    (x86Instruction.Directive text).print = some (text ++ "\n") ∧
    (x86Instruction.Comment text).print = some ("    " ++ "# " ++ text ++ "\n") ∧
    (x86Instruction.NoArg opcode).print = some ("    " ++ opcode ++ "\n") ∧
    (x86Instruction.Src opcode (some s)).print
      = some ("    " ++ opcode ++ " " ++ s.print ++ "\n") ∧
    (x86Instruction.Dst opcode (some d)).print
      = some ("    " ++ opcode ++ " " ++ d.print ++ "\n") ∧
    (x86Instruction.Imm opcode v).print
      = some ("    " ++ opcode ++ " " ++ ("$" ++ toString v) ++ "\n") ∧
    (x86Instruction.Lbl opcode (some l)).print
      = some ("    " ++ opcode ++ " " ++ l.name ++ "\n") ∧
    (x86Instruction.SrcDst opcode (some s) (some d)).print
      = some ("    " ++ opcode ++ " " ++ s.print ++ ", " ++ d.print ++ "\n") ∧
    (∀ i t, x86Instruction.print i = some t → ∃ body, t = body ++ "\n") := by
  have hlabel : ∀ x : String, x ++ ":\n" = x ++ ":" ++ "\n" := by
    intro x
    rw [String.append_assoc]
    rfl
  have hcomment : ∀ x : String, "    # " ++ x = "    " ++ "# " ++ x := by
    intro x
    rfl
  refine ⟨rfl, rfl, rfl, ?_, rfl, ?_, rfl, rfl, rfl, rfl, rfl, rfl, ?_⟩
  · exact congrArg some (hlabel l.name)
  · exact congrArg some (congrArg (fun x => x ++ "\n") (hcomment text))
  · intro i t h
    cases i with
    | Label l =>
      cases l with
      | none => cases h
      | some l => exact ⟨l.name ++ ":", (Option.some.inj h).symm.trans (hlabel l.name)⟩
    | Directive c => exact ⟨_, (Option.some.inj h).symm⟩
    | Comment c => exact ⟨_, (Option.some.inj h).symm⟩
    | NoArg o => exact ⟨_, (Option.some.inj h).symm⟩
    | Src o s =>
      cases s with
      | none => cases h
      | some s => exact ⟨_, (Option.some.inj h).symm⟩
    | Dst o s =>
      cases s with
      | none => cases h
      | some s => exact ⟨_, (Option.some.inj h).symm⟩
    | Imm o v => exact ⟨_, (Option.some.inj h).symm⟩
    | Lbl o l =>
      cases l with
      | none => cases h
      | some l => exact ⟨_, (Option.some.inj h).symm⟩
    | SrcDst o s d =>
      cases s with
      | none => cases h
      | some s =>
        cases d with
        | none => cases h
        | some d => exact ⟨_, (Option.some.inj h).symm⟩

theorem find_block_some {f : Function} {a : Addr} {b : BasicBlock}
    (h : find_block f a = some b) : b ∈ f.blocks ∧ b.addr = a := by
  unfold find_block at h
  exact ⟨List.mem_of_find?_eq_some h, by simpa using List.find?_some h⟩

theorem find_parent_some (m : Module) (a : Addr) (f : Function) (b : BasicBlock)
    (h : find_parent m a = some (f, b)) : f ∈ m ∧ b ∈ f.blocks ∧ b.addr = a := by
  induction m with
  | nil => cases h
  | cons g rest ih =>
    unfold find_parent at h
    cases hg : find_block g a with
    | some c =>
      rw [hg] at h
      simp only [Option.some.injEq, Prod.mk.injEq] at h
      obtain ⟨rfl, rfl⟩ := h
      exact ⟨List.mem_cons_self _ _, find_block_some hg⟩
    | none =>
      rw [hg] at h
      obtain ⟨h1, h2⟩ := ih h
      exact ⟨List.mem_cons_of_mem _ h1, h2⟩

theorem find_parent_exists (m : Module) (f : Function) (b : BasicBlock)
    (hf : f ∈ m) (hb : b ∈ f.blocks) : ∃ r, find_parent m b.addr = some r := by
  induction m with
  | nil => cases hf
  | cons g rest ih =>
    unfold find_parent
    cases hg : find_block g b.addr with
    | some c => exact ⟨_, rfl⟩
    | none =>
      rcases List.mem_cons.mp hf with h | h
      · subst h
        unfold find_block at hg
        have := List.find?_eq_none.mp hg b hb
        simp at this
      · exact ih h

theorem find_parent_of_mem (m : Module) (f : Function) (b : BasicBlock)
    (hnd : ((all_blocks m).map (fun fb => fb.2.addr)).Nodup)
    (hf : f ∈ m) (hb : b ∈ f.blocks) : find_parent m b.addr = some (f, b) := by
  obtain ⟨⟨g, c⟩, hr⟩ := find_parent_exists m f b hf hb
  obtain ⟨hg, hc, hca⟩ := find_parent_some m b.addr g c hr
  have := List.inj_on_of_nodup_map hnd ((mem_all_blocks m g c).mpr ⟨hg, hc⟩)
    ((mem_all_blocks m f b).mpr ⟨hf, hb⟩) hca
  rw [hr, this]

/-- C22, amended: the label that the registry holds for a phi edge (P, S) is named
`__PHI_FROM_`, then the name `__g_block_n` built from the function `g` and the printed
operand `%n` of P, then `_TO_`, then the name of the label of S. When the blocks of the
module live at distinct addresses and P is not the entry block of `g`, the name built for
P is the name of the label of P; for an entry block it is not the name of its label, which
is `g`. -/
theorem phi_edge_labels_named (m : Module) (P S : Addr) (v : Option x86Label)
    (h : map_find (x86Program.construct m).phi_node_labels (P, S) = some v) :
    v = some { origin := LabelOrigin.phi_edge P S,
               name := "__PHI_FROM_" ++ incoming_block_label m P ++ "_TO_"
                 ++ get_name (label_of (x86Program.construct m) S) } ∧
    (((all_blocks m).map (fun fb => fb.2.addr)).Nodup →
      ∀ (g : Function) (b : BasicBlock) (n : String), g ∈ m → b ∈ g.blocks → b.addr = P →
        b.name = "%" ++ n →
        incoming_block_label m P = "__" ++ g.name ++ "_block_" ++ n ∧
        (is_entry_block g b = false →
          incoming_block_label m P = get_name (label_of (x86Program.construct m) P)) ∧
        (is_entry_block g b = true →
          get_name (label_of (x86Program.construct m) P) = g.name)) := by
  refine ⟨phi_registry_value m P S v h, ?_⟩
  intro hnd g b n hg hb hP hn
  subst hP
  have hname : incoming_block_label m b.addr = "__" ++ g.name ++ "_block_" ++ n := by
    simp [incoming_block_label, find_parent_of_mem m g b hnd hg hb, block_label_name, hn,
      drop_percent, String.append_assoc]
  have hlab := registry_label m g b hnd hg hb
  refine ⟨hname, ?_, ?_⟩
  · intro he
    rw [hname, hlab]
    simp [get_name, block_label, he, block_label_name, hn, drop_percent, String.append_assoc]
  · intro he
    rw [hlab]
    simp [get_name, block_label, he]

set_option maxRecDepth 1000000 in
/-- Witness of C22: the edge from `%body` to `%header` in `counted_loop_module`. -/
theorem phi_edge_labels_named_witness :
    map_find (x86Program.construct counted_loop_module).phi_node_labels (3, 2)
      = some (some { origin := LabelOrigin.phi_edge 3 2,
                     name := "__PHI_FROM___main_block_body_TO___main_block_header" }) ∧
    some ({ origin := LabelOrigin.phi_edge 3 2,
            name := "__PHI_FROM___main_block_body_TO___main_block_header" } : x86Label)
      = some { origin := LabelOrigin.phi_edge 3 2,
               name := "__PHI_FROM_" ++ incoming_block_label counted_loop_module 3 ++ "_TO_"
                 ++ get_name (label_of (x86Program.construct counted_loop_module) 2) } :=
  ⟨by decide,
   (phi_edge_labels_named counted_loop_module 3 2
      (some { origin := LabelOrigin.phi_edge 3 2,
              name := "__PHI_FROM___main_block_body_TO___main_block_header" })
      (by decide)).1⟩

set_option maxRecDepth 1000000 in
/-- C22 fails as stated for a predecessor that is an entry block. In
`counted_loop_module` the entry block of `main` has the label `main`, but the label of the
edge from it to `%header` is named `__PHI_FROM___main_block_entry_TO___main_block_header`,
not `__PHI_FROM_main_TO___main_block_header`. -/
theorem phi_edge_from_entry_block :
    is_entry_block counted_loop_function
      { addr := 1, name := "%entry", body := [], terminator := Terminator.Br 2 } = true ∧
    label_of (x86Program.construct counted_loop_module) 1
      = some { origin := LabelOrigin.block 1, name := "main" } ∧
    label_of (x86Program.construct counted_loop_module) 2
      = some { origin := LabelOrigin.block 2, name := "__main_block_header" } ∧
    map_find (x86Program.construct counted_loop_module).phi_node_labels (1, 2)
      = some (some { origin := LabelOrigin.phi_edge 1 2,
                     name := "__PHI_FROM___main_block_entry_TO___main_block_header" }) := by
  decide

set_option maxRecDepth 1000000 in
/-- Witness of C21: the block `%body` of `counted_loop_module`. -/
theorem block_labels_named_witness :
    ((all_blocks counted_loop_module).map (fun fb => fb.2.addr)).Nodup ∧
    label_of (x86Program.construct counted_loop_module) counted_loop_body.addr
      = some { origin := LabelOrigin.block counted_loop_body.addr,
               name := "__" ++ counted_loop_function.name ++ "_block_" ++ "body" } :=
  ⟨by decide,
   (block_labels_named counted_loop_module counted_loop_function counted_loop_body
      (by decide) (by decide) (by decide)).2 "body" (by decide) (by decide)⟩

set_option maxRecDepth 1000000 in
/-- Witness of C24: `two_branch_module`, whose only function is `main`. -/
theorem print_opening_lines_witness :
    two_branch_function ∈ two_branch_module ∧
    (x86Program.construct two_branch_module).print
      = some ("    # this assembly generated by the cs257 code generator\n"
          ++ ".globl _start\n"
          ++ "_start:\n"
          ++ "    callq main\n"
          ++ "    # taking main's return value and putting it in %rbx to act as program exit code\n"
          ++ "    movq %rax, %rbx\n"
          ++ "    # 1 is the linux interrupt code for exit\n"
          ++ "    movq $1, %rax\n"
          ++ "    # passing control to the kernel\n"
          ++ "    int $128\n") :=
  ⟨by decide,
   print_opening_lines two_branch_module two_branch_function (by decide) (by decide)
     (by decide)⟩

set_option maxRecDepth 1000000 in
/-- C24 fails as stated. The constructor builds the last line of the header from the
immediate `0x80`, which prints in decimal: the tenth line of the freshly constructed
program of `two_branch_module` is `    int $128`, not `    int $0x80`. -/
theorem print_int_line :
    (x86Program.construct two_branch_module).instructions.get? 9
      = some (x86Instruction.Imm "int" 128) ∧
    (x86Instruction.Imm "int" 128).print = some "    int $128\n" ∧
    (x86Instruction.Imm "int" 128).print ≠ some "    int $0x80\n" := by
  decide

/-! ## Structural errors of a branch -/

theorem handle_br_conditional_effect (fn : Function) (block : BasicBlock) (p : x86Program)
    (cond : Value) (T F : Addr) (predicate : Predicate)
    (hcond : icmp_predicate fn cond = some predicate) :
    (handle_br_conditional fn block p cond T F).instructions
      = p.instructions ++
        [x86Instruction.Lbl (jump_opcodes predicate).1 (effective_label fn block.addr p T),
         x86Instruction.Lbl (jump_opcodes predicate).2 (effective_label fn block.addr p F)] ∧
    (handle_br_conditional fn block p cond T F).slot_backups
      = map_insert label_lt
          (map_insert label_lt p.slot_backups (label_of p T) (p.available_slots, p.used_slots))
          (label_of p F) (p.available_slots, p.used_slots) ∧
    (handle_br_conditional fn block p cond T F).available_slots = p.available_slots ∧
    (handle_br_conditional fn block p cond T F).used_slots = p.used_slots ∧
    (handle_br_conditional fn block p cond T F).top_of_stack = p.top_of_stack := by
  have ht1 := target_label_frame fn block.addr p T
  have ht2 := target_label_frame fn block.addr (target_label fn block.addr p T).2 F
  have ha1 := sameAlloc_target_label fn block.addr p T
  have ha2 := sameAlloc_trans ha1
    (sameAlloc_target_label fn block.addr (target_label fn block.addr p T).2 F)
  have hl1 : ∀ b, label_of (target_label fn block.addr (target_label fn block.addr p T).2 F).2 b
      = label_of p b := ha2.2.2.2
  have hl1u : ∀ b, (map_index addr_lt none
      (target_label fn block.addr (target_label fn block.addr p T).2 F).2.labels b).1
      = label_of p b := hl1
  have hl2 : ∀ b, label_of (labels_index
      (target_label fn block.addr (target_label fn block.addr p T).2 F).2 T).2 b
      = label_of p b := fun b => (label_of_labels_index _ T b).trans (hl1 b)
  have hl2u : ∀ b, (map_index addr_lt none (map_index addr_lt none
      (target_label fn block.addr (target_label fn block.addr p T).2 F).2.labels T).2 b).1
      = label_of p b := hl2
  have htop1 : ∀ q : x86Program, ∀ t, (target_label fn block.addr q t).2.top_of_stack
      = q.top_of_stack := by
    intro q t
    simp only [target_label]
    split <;> rfl
  refine ⟨?_, ?_, ?_, ?_, ?_⟩
  · simp only [handle_br_conditional, hcond, back_up_slots, labels_index, insert_instruction,
      target_label_fst, ht2.1, ht1.1]
    rw [effective_label_congr fn block.addr p _ F ht1.2.1 ht1.2.2]
    simp
  · simp only [handle_br_conditional, hcond, back_up_slots, labels_index, insert_instruction,
      hl1u, hl2u, ha2.1, ha2.2.1, ha2.2.2.1]
  · simp only [handle_br_conditional, hcond, back_up_slots, labels_index, insert_instruction,
      ha2.1]
  · simp only [handle_br_conditional, hcond, back_up_slots, labels_index, insert_instruction,
      ha2.2.1]
  · simp only [handle_br_conditional, hcond, back_up_slots, labels_index, insert_instruction,
      htop1]

/-- C29: a conditional branch whose condition is no integer compare appends no line,
registers no snapshot and leaves the free queue, the used table and `top_of_stack`
unchanged. A conditional branch on an integer compare with an unsigned predicate (ugt,
uge, ult, ule) still appends two lines, `INVALID JUMP` followed by the effective label of
the first and of the second successor, still registers a snapshot under the label of
either successor, and leaves free, used and `top_of_stack` unchanged. -/
theorem handle_br_structural_errors (fn : Function) (block : BasicBlock) (p : x86Program)
    (cond : Value) (S0 S1 : Addr) :
    (icmp_predicate fn cond = none →
      (handle_br_conditional fn block p cond S0 S1).instructions = p.instructions ∧
      (handle_br_conditional fn block p cond S0 S1).slot_backups = p.slot_backups ∧
      (handle_br_conditional fn block p cond S0 S1).available_slots = p.available_slots ∧
      (handle_br_conditional fn block p cond S0 S1).used_slots = p.used_slots ∧
      (handle_br_conditional fn block p cond S0 S1).top_of_stack = p.top_of_stack) ∧
    (∀ predicate, icmp_predicate fn cond = some predicate →
      predicate ∈ [Predicate.ICMP_UGT, Predicate.ICMP_UGE, Predicate.ICMP_ULT,
        Predicate.ICMP_ULE] →
      (handle_br_conditional fn block p cond S0 S1).instructions
        = p.instructions ++
          [x86Instruction.Lbl "INVALID JUMP" (effective_label fn block.addr p S0),
           x86Instruction.Lbl "INVALID JUMP" (effective_label fn block.addr p S1)] ∧
      contains (handle_br_conditional fn block p cond S0 S1).slot_backups (label_of p S0)
        = true ∧
      contains (handle_br_conditional fn block p cond S0 S1).slot_backups (label_of p S1)
        = true ∧
      (contains p.slot_backups (label_of p S0) = false →
        map_find (handle_br_conditional fn block p cond S0 S1).slot_backups (label_of p S0)
          = some (p.available_slots, p.used_slots)) ∧
      (contains p.slot_backups (label_of p S1) = false →
        map_find (handle_br_conditional fn block p cond S0 S1).slot_backups (label_of p S1)
          = some (p.available_slots, p.used_slots)) ∧
      (handle_br_conditional fn block p cond S0 S1).available_slots = p.available_slots ∧
      (handle_br_conditional fn block p cond S0 S1).used_slots = p.used_slots ∧
      (handle_br_conditional fn block p cond S0 S1).top_of_stack = p.top_of_stack) := by
  constructor
  · intro hnone
    have ha1 := sameAlloc_target_label fn block.addr p S0
    have ha2 := sameAlloc_trans ha1
      (sameAlloc_target_label fn block.addr (target_label fn block.addr p S0).2 S1)
    have ht1 := target_label_frame fn block.addr p S0
    have ht2 := target_label_frame fn block.addr (target_label fn block.addr p S0).2 S1
    have htop1 : ∀ q : x86Program, ∀ t, (target_label fn block.addr q t).2.top_of_stack
        = q.top_of_stack := by
      intro q t
      simp only [target_label]
      split <;> rfl
    simp only [handle_br_conditional, hnone]
    exact ⟨ht2.1.trans ht1.1, ha2.2.2.1, ha2.1, ha2.2.1, (htop1 _ _).trans (htop1 _ _)⟩
  · intro predicate hcond hp
    have h := handle_br_conditional_effect fn block p cond S0 S1 predicate hcond
    have hop : jump_opcodes predicate = ("INVALID JUMP", "INVALID JUMP") := by
      simp only [List.mem_cons, List.mem_singleton, List.not_mem_nil, or_false] at hp
      rcases hp with h | h | h | h <;> subst h <;> rfl
    rw [hop] at h
    refine ⟨h.1, ?_, ?_, ?_, ?_, h.2.2.1, h.2.2.2.1, h.2.2.2.2⟩
    · rw [h.2.1]
      exact (contains_insert label_lt _ _ _ _).mpr
        (Or.inr ((contains_insert label_lt _ _ _ _).mpr (Or.inl rfl)))
    · rw [h.2.1]
      exact (contains_insert label_lt _ _ _ _).mpr (Or.inl rfl)
    · intro hc
      rw [h.2.1]
      exact map_find_insert_of_find label_lt _ _ _ _ _ (map_find_insert_self label_lt _ _ _ hc)
    · intro hc
      rw [h.2.1, map_find_insert_getD]
      by_cases hTF : label_of p S1 = label_of p S0
      · rw [hTF, map_find_insert_getD, (map_find_eq_none_iff _ _).mpr (hTF ▸ hc)]
        rfl
      · rw [map_find_insert_ne label_lt _ _ _ _ hTF, (map_find_eq_none_iff _ _).mpr hc]
        rfl

/-! ## The top of the stack -/

theorem spillsFrom_refl (p : x86Program) : SpillsFrom p.top_of_stack p.instructions p :=
  ⟨[], by simp, by simp [spill_count]⟩

theorem spillsFrom_frame (b : Int) (l : List x86Instruction) (q r : x86Program)
    (h : SpillsFrom b l q) (hi : r.instructions = q.instructions)
    (ht : r.top_of_stack = q.top_of_stack) : SpillsFrom b l r := by
  obtain ⟨L, h1, h2⟩ := h
  exact ⟨L, hi.trans h1, ht.trans h2⟩

theorem spillsFrom_insert (b : Int) (l : List x86Instruction) (q : x86Program)
    (i : x86Instruction) (h : SpillsFrom b l q) (hi : is_spill_line i = false) :
    SpillsFrom b l (insert_instruction q i) := by
  obtain ⟨L, h1, h2⟩ := h
  refine ⟨L ++ [i], ?_, ?_⟩
  · simp [insert_instruction, h1]
  · simp [insert_instruction, h2, spill_count, List.filter_append, hi]

theorem spillsFrom_acquire (b : Int) (l : List x86Instruction) (q : x86Program) (a : Addr)
    (h : SpillsFrom b l q) : SpillsFrom b l (acquire_slot q a).2 := by
  obtain ⟨L, h1, h2⟩ := h
  cases hq : q.available_slots with
  | nil =>
    refine ⟨L ++ [x86Instruction.SrcDst "sub" (some (x86Source.Immediate 8))
      (some (x86Source.Register "rsp"))], ?_, ?_⟩
    · simp [acquire_slot, acquire_spill, insert_instruction, hq, h1]
    · simp [acquire_slot, acquire_spill, insert_instruction, hq, h2, spill_count,
        List.filter_append, is_spill_line]
      omega
  | cons x rest =>
    refine ⟨L, ?_, ?_⟩
    · simp [acquire_slot, acquire_spill, hq, h1]
    · simp [acquire_slot, acquire_spill, hq, h2]

theorem spillsFrom_query (b : Int) (l : List x86Instruction) (q : x86Program) (a : Addr)
    (h : SpillsFrom b l q) : SpillsFrom b l (query_slot q a).2 :=
  spillsFrom_frame b l q _ h rfl rfl

theorem spillsFrom_source_of (b : Int) (l : List x86Instruction) (q : x86Program) (v : Value)
    (h : SpillsFrom b l q) : SpillsFrom b l (source_of q v).2 := by
  cases v with
  | ConstantInt c => exact h
  | Other a => exact spillsFrom_query b l q a h

theorem spillsFrom_labels_index (b : Int) (l : List x86Instruction) (q : x86Program)
    (a : Addr) (h : SpillsFrom b l q) : SpillsFrom b l (labels_index q a).2 :=
  spillsFrom_frame b l q _ h rfl rfl

theorem spillsFrom_phi_node_labels_index (b : Int) (l : List x86Instruction)
    (q : x86Program) (k : Addr × Addr) (h : SpillsFrom b l q) :
    SpillsFrom b l (phi_node_labels_index q k).2 :=
  spillsFrom_frame b l q _ h rfl rfl

theorem spillsFrom_target_label (b : Int) (l : List x86Instruction) (fn : Function)
    (a : Addr) (q : x86Program) (t : Addr) (h : SpillsFrom b l q) :
    SpillsFrom b l (target_label fn a q t).2 := by
  simp only [target_label]
  split
  · exact spillsFrom_phi_node_labels_index b l q _ h
  · exact spillsFrom_labels_index b l q _ h

theorem spillsFrom_back_up (b : Int) (l : List x86Instruction) (q : x86Program)
    (lab : Option x86Label) (h : SpillsFrom b l q) : SpillsFrom b l (back_up_slots q lab) :=
  spillsFrom_frame b l q _ h rfl rfl

theorem spillsFrom_restore (b : Int) (l : List x86Instruction) (q : x86Program)
    (lab : Option x86Label) (h : SpillsFrom b l q) : SpillsFrom b l (restore_slots q lab) :=
  spillsFrom_frame b l q _ h rfl rfl

theorem spillsFrom_release (b : Int) (l : List x86Instruction) (q : x86Program) (a : Addr)
    (h : SpillsFrom b l q) : SpillsFrom b l (release_slot q a) :=
  spillsFrom_frame b l q _ h rfl rfl

theorem spillsFrom_dust (b : Int) (l : List x86Instruction) (fn : Function)
    (block : BasicBlock) (it : Nat) (q : x86Program) (h : SpillsFrom b l q) :
    SpillsFrom b l (dust_out_slots fn block it q) :=
  spillsFrom_frame b l q _ h (dust_fold_frame fn block it _ q).1
    (dust_fold_frame fn block it _ q).2.1

theorem spillsFrom_foldl_insert {α : Type} (b : Int) (l : List x86Instruction)
    (f : α → x86Instruction) (hf : ∀ a, is_spill_line (f a) = false) (xs : List α)
    (q : x86Program) (h : SpillsFrom b l q) :
    SpillsFrom b l (xs.foldl (fun q a => insert_instruction q (f a)) q) :=
  foldl_preserves (SpillsFrom b l) _ (fun q a hq => spillsFrom_insert b l q _ hq (hf a)) xs q h

theorem not_spill_to_rax (op : String) (src : Option x86Source) :
    is_spill_line (x86Instruction.SrcDst op src (some (x86Source.Register "rax"))) = false := by
  unfold is_spill_line
  rw [decide_eq_false_iff_not]
  intro h
  injection h with _ _ h3
  revert h3
  decide

theorem spillsFrom_handle_icmp (b : Int) (l : List x86Instruction) (p : x86Program)
    (lhs rhs : Value) (h : SpillsFrom b l p) : SpillsFrom b l (handle_icmp p lhs rhs) := by
  simp only [handle_icmp]
  repeat (first
    | exact h
    | rfl
    | with_reducible apply spillsFrom_source_of
    | with_reducible apply spillsFrom_insert)

theorem spillsFrom_handle_binop (b : Int) (l : List x86Instruction) (m : Module)
    (p : x86Program) (addr : Addr) (op : String) (lhs rhs : Value) (h : SpillsFrom b l p) :
    SpillsFrom b l (handle_binop m p addr op lhs rhs) := by
  simp only [handle_binop]
  repeat (first
    | exact h
    | rfl
    | exact not_spill_to_rax _ _
    | with_reducible apply spillsFrom_source_of
    | with_reducible apply spillsFrom_acquire
    | with_reducible apply spillsFrom_insert
    | split)

theorem spillsFrom_handle_call_labelled (b : Int) (l : List x86Instruction) (m : Module)
    (r : Option x86Label × x86Program) (addr : Addr) (args : List Value)
    (h : SpillsFrom b l r.2) : SpillsFrom b l (handle_call_labelled m r addr args) := by
  simp only [handle_call_labelled]
  cases args with
  | nil =>
    simp only []
    repeat (first
      | with_reducible exact h
      | rfl
      | (intro a; rfl)
      | with_reducible apply spillsFrom_source_of
      | with_reducible apply spillsFrom_acquire
      | with_reducible apply spillsFrom_foldl_insert
      | with_reducible apply spillsFrom_insert
      | split)
  | cons arg rest =>
    simp only []
    repeat (first
      | with_reducible exact h
      | rfl
      | (intro a; rfl)
      | with_reducible apply spillsFrom_source_of
      | with_reducible apply spillsFrom_acquire
      | with_reducible apply spillsFrom_foldl_insert
      | with_reducible apply spillsFrom_insert
      | split)

theorem spillsFrom_handle_call (b : Int) (l : List x86Instruction) (m : Module)
    (p : x86Program) (addr : Addr) (callee : Addr) (args : List Value)
    (h : SpillsFrom b l p) : SpillsFrom b l (handle_call m p addr callee args) := by
  apply spillsFrom_handle_call_labelled
  cases callee_entry_block m callee with
  | none => exact h
  | some e => exact spillsFrom_labels_index b l p e h

theorem spillsFrom_handle_ret (b : Int) (l : List x86Instruction) (p : x86Program)
    (value : Option Value) (h : SpillsFrom b l p) : SpillsFrom b l (handle_ret p value) := by
  simp only [handle_ret]
  refine spillsFrom_insert b l _ _ (spillsFrom_insert b l _ _ (spillsFrom_insert b l _ _ ?_
    rfl) rfl) rfl
  apply foldl_preserves (fun acc : x86Program × Int => SpillsFrom b l acc.1)
  · intro a r ha
    exact spillsFrom_insert b l _ _ ha rfl
  · refine spillsFrom_insert b l _ _ ?_ rfl
    cases value with
    | none => exact h
    | some v =>
      simp only []
      exact spillsFrom_insert b l _ _
        (spillsFrom_source_of b l _ _ (spillsFrom_insert b l _ _ h rfl)) rfl

theorem spillsFrom_handle_br_unconditional (b : Int) (l : List x86Instruction)
    (fn : Function) (block : BasicBlock) (p : x86Program) (t : Addr)
    (h : SpillsFrom b l p) : SpillsFrom b l (handle_br_unconditional fn block p t) := by
  simp only [handle_br_unconditional]
  exact spillsFrom_insert b l _ _ (spillsFrom_target_label b l fn _ p t h) rfl

theorem spillsFrom_handle_br_conditional (b : Int) (l : List x86Instruction)
    (fn : Function) (block : BasicBlock) (p : x86Program) (cond : Value) (t1 t2 : Addr)
    (h : SpillsFrom b l p) : SpillsFrom b l (handle_br_conditional fn block p cond t1 t2) := by
  simp only [handle_br_conditional]
  repeat (first
    | exact h
    | rfl
    | with_reducible apply spillsFrom_target_label
    | with_reducible apply spillsFrom_labels_index
    | with_reducible apply spillsFrom_back_up
    | with_reducible apply spillsFrom_insert
    | split)

theorem spillsFrom_handle_at (b : Int) (l : List x86Instruction) (m : Module)
    (fn : Function) (block : BasicBlock) (it : Nat) (p : x86Program)
    (h : SpillsFrom b l p) : SpillsFrom b l (handle_at m fn block it p) := by
  unfold handle_at
  cases block.body.get? it with
  | some i =>
    cases i with
    | Call a c args => exact spillsFrom_handle_call b l m p a c args h
    | Binary a op x y => exact spillsFrom_handle_binop b l m p a _ x y h
    | ICmp a pr x y => exact spillsFrom_handle_icmp b l p x y h
    | PHI a inc => exact h
    | Other a ops => exact h
  | none =>
    cases block.terminator with
    | Ret v => exact spillsFrom_handle_ret b l p v h
    | Br t => exact spillsFrom_handle_br_unconditional b l fn block p t h
    | CondBr c t1 t2 => exact spillsFrom_handle_br_conditional b l fn block p c t1 t2 h
    | Other ops succs => exact h

theorem spillsFrom_phi_acquire (b : Int) (l : List x86Instruction) (m : Module)
    (p : x86Program) (i : Instruction) (h : SpillsFrom b l p) :
    SpillsFrom b l (phi_acquire m p i) := by
  simp only [phi_acquire]
  split
  · exact spillsFrom_acquire b l p _ h
  · exact h

theorem spillsFrom_phi_move (b : Int) (l : List x86Instruction) (m : Module) (P : Addr)
    (p : x86Program) (i : Instruction) (h : SpillsFrom b l p) :
    SpillsFrom b l (phi_move m P p i) := by
  simp only [phi_move]
  repeat (first
    | with_reducible exact h
    | rfl
    | with_reducible apply spillsFrom_query
    | with_reducible apply spillsFrom_source_of
    | with_reducible apply spillsFrom_insert
    | split)

theorem spillsFrom_phi_edge (b : Int) (l : List x86Instruction) (m : Module)
    (block : BasicBlock) (phi_done : x86Label) (p : x86Program) (P : Addr)
    (h : SpillsFrom b l p) : SpillsFrom b l (phi_edge m block phi_done p P) := by
  simp only [phi_edge]
  split
  · refine spillsFrom_insert b l _ _ ?_ rfl
    apply foldl_preserves (SpillsFrom b l) _ (fun a i ha => spillsFrom_phi_move b l m P a i ha)
    exact spillsFrom_insert b l _ _ (spillsFrom_phi_node_labels_index b l p _ h) rfl
  · exact h

theorem spillsFrom_phi_batch (b : Int) (l : List x86Instruction) (m : Module)
    (block : BasicBlock) (lab : Option x86Label) (p : x86Program) (h : SpillsFrom b l p) :
    SpillsFrom b l (phi_batch m block lab p) := by
  simp only [phi_batch]
  refine spillsFrom_insert b l _ _ ?_ rfl
  apply foldl_preserves (SpillsFrom b l) _
    (fun a P ha => spillsFrom_phi_edge b l m block _ a P ha)
  exact foldl_preserves (SpillsFrom b l) _
    (fun a i ha => spillsFrom_phi_acquire b l m a i ha) _ p h

theorem spillsFrom_prologue (l : List x86Instruction) (m : Module) (fn : Function)
    (lab : Option x86Label) (p : x86Program) (h : p.instructions = l) :
    SpillsFrom (-40) l (prologue m fn lab p) := by
  have h0 : SpillsFrom (-40) l { p with top_of_stack := -40 } :=
    ⟨[], by simp [h], by simp [spill_count]⟩
  simp only [prologue]
  repeat (first
    | with_reducible exact h0
    | rfl
    | (intro a; rfl)
    | with_reducible apply spillsFrom_acquire
    | with_reducible apply spillsFrom_foldl_insert
    | with_reducible apply spillsFrom_insert
    | split)

theorem spillsFrom_drop_line (b : Int) (l : List x86Instruction) (i : x86Instruction)
    (q : x86Program) (h : SpillsFrom b (l ++ [i]) q) (hi : is_spill_line i = false) :
    SpillsFrom b l q := by
  obtain ⟨L, h1, h2⟩ := h
  refine ⟨[i] ++ L, by rw [h1, List.append_assoc], ?_⟩
  rw [h2]
  simp [spill_count, List.filter_cons, hi]

theorem spillsFrom_handle_block_begin (b : Int) (l : List x86Instruction) (m : Module)
    (fn : Function) (block : BasicBlock) (p : x86Program)
    (he : is_entry_block fn block = false) (h : SpillsFrom b l p) :
    SpillsFrom b l (handle_block_begin m fn block p) := by
  have h1 : SpillsFrom b l (insert_instruction (labels_index p block.addr).2
      (x86Instruction.Label (labels_index p block.addr).1)) :=
    spillsFrom_insert b l _ _ (spillsFrom_labels_index b l p _ h) rfl
  simp only [handle_block_begin, he, Bool.false_eq_true, if_false]
  split
  · apply spillsFrom_phi_batch
    split
    · exact spillsFrom_restore b l _ _ h1
    · exact h1
  · split
    · exact spillsFrom_restore b l _ _ h1
    · exact h1

theorem spillsFrom_entry_block_begin (m : Module) (fn : Function) (block : BasicBlock)
    (p : x86Program) (he : is_entry_block fn block = true) :
    SpillsFrom (-40) p.instructions (handle_block_begin m fn block p) := by
  apply spillsFrom_drop_line (-40) p.instructions
    (x86Instruction.Label (labels_index p block.addr).1) _ _ rfl
  simp only [handle_block_begin, he, if_true]
  split
  · apply spillsFrom_phi_batch
    apply spillsFrom_prologue
    split <;> rfl
  · apply spillsFrom_prologue
    split <;> rfl

theorem spillsFrom_run_step (b : Int) (l : List x86Instruction) (m : Module)
    (p : x86Program) (st : Step) (hs : is_entry_begin st = false) (h : SpillsFrom b l p) :
    SpillsFrom b l (run_step m p st) := by
  cases st with
  | block_begin fn block => exact spillsFrom_handle_block_begin b l m fn block p hs h
  | handle fn block it => exact spillsFrom_handle_at b l m fn block it p h
  | dust fn block it => exact spillsFrom_dust b l fn block it p h

theorem spillsFrom_run (b : Int) (l : List x86Instruction) (m : Module) (steps : List Step)
    (hs : ∀ st ∈ steps, is_entry_begin st = false) (p : x86Program)
    (h : SpillsFrom b l p) : SpillsFrom b l (steps.foldl (run_step m) p) := by
  induction steps generalizing p with
  | nil => exact h
  | cons st rest ih =>
    exact ih (fun x hx => hs x (List.mem_cons_of_mem _ hx)) _
      (spillsFrom_run_step b l m p st (hs st (List.mem_cons_self _ _)) h)

theorem spillsFrom_emitted (b : Int) (p q : x86Program)
    (h : SpillsFrom b p.instructions q) :
    q.instructions = p.instructions ++ emitted p q ∧
    q.top_of_stack = b - 8 * (spill_count (emitted p q) : Int) := by
  obtain ⟨L, h1, h2⟩ := h
  have : emitted p q = L := by simp [emitted, h1]
  rw [this]
  exact ⟨h1, h2⟩

theorem spillsFrom_bound (b : Int) (l : List x86Instruction) (q : x86Program)
    (h : SpillsFrom b l q) (hb : b ≤ -40 ∧ 8 ∣ b) :
    q.top_of_stack ≤ b ∧ q.top_of_stack ≤ -40 ∧ 8 ∣ q.top_of_stack := by
  obtain ⟨L, _, h2⟩ := h
  have h8 : (8 : Int) ∣ 8 * (spill_count L : Int) := Dvd.intro _ rfl
  refine ⟨by omega, by omega, ?_⟩
  rw [h2]
  exact Int.dvd_sub hb.2 h8

/-- C26, amended: from the beginning of the entry block of a function on, as long as no
other entry block is begun, the lines only grow and `top_of_stack` equals -40 minus 8 for
each spill line `sub $8, %rsp` emitted since; so when the return of the function has been
lowered, `top_of_stack` is -40 exactly when no acquire of the function has spilled. -/
theorem top_of_stack_counts_spills (m : Module) (fn : Function) (entry : BasicBlock)
    (p : x86Program) (steps : List Step)
    (he : is_entry_block fn entry = true)
    (hs : ∀ st ∈ steps, is_entry_begin st = false) :
    (steps.foldl (run_step m) (handle_block_begin m fn entry p)).instructions
      = p.instructions
        ++ emitted p (steps.foldl (run_step m) (handle_block_begin m fn entry p)) ∧
    (steps.foldl (run_step m) (handle_block_begin m fn entry p)).top_of_stack
      = -40 - 8 * (spill_count
          (emitted p (steps.foldl (run_step m) (handle_block_begin m fn entry p))) : Int) :=
  spillsFrom_emitted (-40) p _
    (spillsFrom_run (-40) p.instructions m steps hs _
      (spillsFrom_entry_block_begin m fn entry p he))

/-- C27: in every state that the driver reaches on a module, `top_of_stack` is a multiple
of 8 and at most -40; no step of the driver other than the beginning of an entry block
raises it, no acquire, release or sweep raises it, and a snapshot or a restore leaves it
unchanged. -/
theorem top_of_stack_never_rises (m : Module) :
    (∀ n, (lower_steps m n).top_of_stack ≤ -40 ∧ 8 ∣ (lower_steps m n).top_of_stack) ∧
    (∀ (p : x86Program) (st : Step), is_entry_begin st = false →
      (run_step m p st).top_of_stack ≤ p.top_of_stack) ∧
    (∀ (p : x86Program) (op : AllocOp), (run_op p op).top_of_stack ≤ p.top_of_stack) ∧
    (∀ (p : x86Program) (label : Option x86Label),
      (back_up_slots p label).top_of_stack = p.top_of_stack ∧
      (restore_slots p label).top_of_stack = p.top_of_stack) := by
  have hstep : ∀ (p : x86Program) (st : Step),
      (p.top_of_stack ≤ -40 ∧ 8 ∣ p.top_of_stack) →
      (run_step m p st).top_of_stack ≤ -40 ∧ 8 ∣ (run_step m p st).top_of_stack := by
    intro p st hp
    cases hs : is_entry_begin st with
    | false =>
      exact (spillsFrom_bound _ _ _ (spillsFrom_run_step _ _ m p st hs (spillsFrom_refl p))
        hp).2
    | true =>
      cases st with
      | block_begin fn block =>
        exact (spillsFrom_bound _ _ _ (spillsFrom_entry_block_begin m fn block p hs)
          ⟨le_refl _, by decide⟩).2
      | handle fn block it => cases hs
      | dust fn block it => cases hs
  refine ⟨fun n => ?_, fun p st hs => ?_, fun p op => ?_, fun p label => ⟨rfl, rfl⟩⟩
  · unfold lower_steps
    apply foldl_preserves (fun q : x86Program => q.top_of_stack ≤ -40 ∧ 8 ∣ q.top_of_stack)
      _ hstep
    rw [(construct_frame m).2.1]
    decide
  · obtain ⟨L, _, h2⟩ := spillsFrom_run_step _ _ m p st hs (spillsFrom_refl p)
    omega
  · cases op with
    | acquire v =>
      obtain ⟨L, _, h2⟩ := spillsFrom_acquire _ _ p v (spillsFrom_refl p)
      simp only [run_op]
      omega
    | release v => exact le_refl _
    | sweep fn block it =>
      simp only [run_op]
      exact le_of_eq (dust_fold_frame fn block it _ p).2.1

set_option maxRecDepth 1000000 in
/-- Witness of C26: the function of `add_ret_module`, from the freshly constructed
program. -/
theorem top_of_stack_counts_spills_witness :
    is_entry_block add_ret_function add_ret_block = true ∧
    (((module_steps add_ret_module).drop 1).foldl (run_step add_ret_module)
        (handle_block_begin add_ret_module add_ret_function add_ret_block
          (x86Program.construct add_ret_module))).top_of_stack
      = -40 - 8 * (spill_count
          (emitted (x86Program.construct add_ret_module)
            (((module_steps add_ret_module).drop 1).foldl (run_step add_ret_module)
              (handle_block_begin add_ret_module add_ret_function add_ret_block
                (x86Program.construct add_ret_module)))) : Int) :=
  ⟨by decide,
   (top_of_stack_counts_spills add_ret_module add_ret_function add_ret_block
      (x86Program.construct add_ret_module) ((module_steps add_ret_module).drop 1)
      (by decide) (by decide)).2⟩

set_option maxRecDepth 1000000 in
/-- C26 fails as stated. In `spill_module` the function `f` keeps thirteen values alive at
once, so one acquire spills: after the beginning of its block `top_of_stack` is -40, and
when its return has been lowered (48 steps of the driver, the last line being `retq`)
`top_of_stack` is -48. -/
theorem top_of_stack_after_spill :
    (lower_steps spill_module 1).top_of_stack = -40 ∧
    (lower_steps spill_module 48).instructions.getLast? = some (x86Instruction.NoArg "retq") ∧
    (lower_steps spill_module 48).top_of_stack = -48 := by
  decide

/-! ## A value is read from the slot it was stored in -/

theorem contains_index_ne {K V : Type} [DecidableEq K] (lt : K → K → Bool) (d : V)
    (m : List (K × V)) (k k2 : K) (h : k2 ≠ k) :
    contains (map_index lt d m k).2 k2 = contains m k2 := by
  unfold map_index
  cases hk : map_find m k with
  | some v => rfl
  | none =>
    simp only []
    cases hc : contains m k2 with
    | true =>
      obtain ⟨w, hw⟩ := map_find_of_contains hc
      exact contains_of_map_find ((map_find_place_ne lt m k k2 d h).trans hw)
    | false =>
      cases hc2 : contains (map_place lt k d m) k2 with
      | false => rfl
      | true =>
        obtain ⟨w, hw⟩ := map_find_of_contains hc2
        rw [map_find_place_ne lt m k k2 d h, (map_find_eq_none_iff m k2).mpr hc] at hw
        cases hw

theorem source_of_effect (q : x86Program) (v : Value) (V : Addr) (hv : v ≠ Value.Other V) :
    (source_of q v).2.instructions = q.instructions ∧
    contains (source_of q v).2.used_slots V = contains q.used_slots V := by
  cases v with
  | ConstantInt c => exact ⟨rfl, rfl⟩
  | Other a =>
    refine ⟨rfl, ?_⟩
    have hne : V ≠ a := fun e => hv (by rw [e])
    exact contains_index_ne addr_lt _ _ a V hne

theorem acquire_slot_fresh (q : x86Program) (V : Addr)
    (hfresh : contains q.used_slots V = false) :
    ∃ (s : slot) (L : List x86Instruction), Holds V s (acquire_slot q V).2 ∧
      (acquire_slot q V).1 = s.2 ∧ (acquire_slot q V).2.instructions = q.instructions ++ L ∧
      code_lines L = L := by
  have hu : (acquire_spill q).used_slots = q.used_slots := by
    unfold acquire_spill
    split <;> rfl
  refine ⟨pq_top (acquire_spill q).available_slots, _, ?_, rfl, (acquire_slot_core q V).2.2, ?_⟩
  · simp only [Holds, acquire_slot]
    apply map_find_insert_self
    rw [hu]
    exact hfresh
  · cases hq : q.available_slots <;>
      simp [acquire_core, alloc_core, acquire_slot, acquire_spill, insert_instruction, hq,
        code_lines, is_comment]

theorem code_lines_append (a b : List x86Instruction) :
    code_lines (a ++ b) = code_lines a ++ code_lines b := by
  simp [code_lines]

theorem freshAfter_insert (p : x86Program) (V : Addr) (q : x86Program) (i : x86Instruction)
    (h : FreshAfter p V q) : FreshAfter p V (insert_instruction q i) := by
  obtain ⟨⟨L, hL⟩, hf⟩ := h
  exact ⟨⟨L ++ [i], by simp [insert_instruction, hL]⟩, hf⟩

theorem freshAfter_source_of (p : x86Program) (V : Addr) (q : x86Program) (v : Value)
    (hv : v ≠ Value.Other V) (h : FreshAfter p V q) : FreshAfter p V (source_of q v).2 := by
  obtain ⟨⟨L, hL⟩, hf⟩ := h
  have he := source_of_effect q v V hv
  exact ⟨⟨L, he.1.trans hL⟩, he.2.trans hf⟩

theorem freshAfter_foldl_insert {α : Type} (p : x86Program) (V : Addr)
    (f : α → x86Instruction) (xs : List α) (q : x86Program) (h : FreshAfter p V q) :
    FreshAfter p V (xs.foldl (fun q a => insert_instruction q (f a)) q) :=
  foldl_preserves (FreshAfter p V) _ (fun q _ hq => freshAfter_insert p V q _ hq) xs q h

theorem defining_move (p q : x86Program) (V : Addr) (reg : String)
    (h : FreshAfter p V q) :
    ∃ s : slot,
      Holds V s (insert_instruction (acquire_slot q V).2
        (x86Instruction.SrcDst "movq" (some (x86Source.Register reg)) (acquire_slot q V).1)) ∧
      (code_lines (emitted p (insert_instruction (acquire_slot q V).2
        (x86Instruction.SrcDst "movq" (some (x86Source.Register reg))
          (acquire_slot q V).1)))).getLast?
        = some (x86Instruction.SrcDst "movq" (some (x86Source.Register reg)) s.2) := by
  obtain ⟨⟨L0, hL⟩, hfresh⟩ := h
  obtain ⟨s, L, hs, h1, hi, _⟩ := acquire_slot_fresh q V hfresh
  refine ⟨s, hs, ?_⟩
  simp [emitted, insert_instruction, hi, hL, h1, code_lines_append, code_lines, is_comment]

theorem defining_move_comment (p q : x86Program) (V : Addr) (reg : String) (text : String)
    (h : FreshAfter p V q) :
    ∃ s : slot,
      Holds V s (insert_instruction (insert_instruction (acquire_slot q V).2
        (x86Instruction.SrcDst "movq" (some (x86Source.Register reg)) (acquire_slot q V).1))
        (x86Instruction.Comment text)) ∧
      (code_lines (emitted p (insert_instruction (insert_instruction (acquire_slot q V).2
        (x86Instruction.SrcDst "movq" (some (x86Source.Register reg)) (acquire_slot q V).1))
        (x86Instruction.Comment text)))).getLast?
        = some (x86Instruction.SrcDst "movq" (some (x86Source.Register reg)) s.2) := by
  obtain ⟨⟨L0, hL⟩, hfresh⟩ := h
  obtain ⟨s, L, hs, h1, hi, _⟩ := acquire_slot_fresh q V hfresh
  refine ⟨s, hs, ?_⟩
  simp [emitted, insert_instruction, hi, hL, h1, code_lines_append, code_lines, is_comment]

theorem handle_binop_defines (m : Module) (p : x86Program) (V : Addr) (op : String)
    (lhs rhs : Value) (hu : use_empty m V = false)
    (hfresh : contains p.used_slots V = false)
    (hl : lhs ≠ Value.Other V) (hr : rhs ≠ Value.Other V) :
    ∃ s : slot, Holds V s (handle_binop m p V op lhs rhs) ∧
      (code_lines (emitted p (handle_binop m p V op lhs rhs))).getLast?
        = some (x86Instruction.SrcDst "movq" (some (x86Source.Register "rax")) s.2) := by
  have h0 : FreshAfter p V p := ⟨⟨[], (List.append_nil _).symm⟩, hfresh⟩
  simp only [handle_binop, hu, Bool.not_false, if_true]
  with_reducible apply defining_move_comment
  repeat (first
    | with_reducible exact h0
    | exact hl
    | exact hr
    | with_reducible apply freshAfter_source_of
    | with_reducible apply freshAfter_insert
    | split)

theorem handle_call_labelled_defines (m : Module) (p : x86Program)
    (r : Option x86Label × x86Program) (V : Addr) (args : List Value)
    (hu : use_empty m V = false) (h1 : FreshAfter p V r.2) (hargs : Value.Other V ∉ args) :
    ∃ s : slot, Holds V s (handle_call_labelled m r V args) ∧
      (code_lines (emitted p (handle_call_labelled m r V args))).getLast?
        = some (x86Instruction.SrcDst "movq" (some (x86Source.Register "rax")) s.2) := by
  simp only [handle_call_labelled, hu, Bool.not_false, if_true]
  with_reducible apply defining_move
  cases args with
  | nil =>
    simp only []
    repeat (first
      | with_reducible exact h1
      | with_reducible apply freshAfter_foldl_insert
      | with_reducible apply freshAfter_insert)
  | cons arg rest =>
    have ha : arg ≠ Value.Other V := fun e => hargs (by rw [← e]; exact List.mem_cons_self _ _)
    simp only []
    repeat (first
      | with_reducible exact h1
      | exact ha
      | with_reducible apply freshAfter_source_of
      | with_reducible apply freshAfter_foldl_insert
      | with_reducible apply freshAfter_insert)

theorem handle_call_defines (m : Module) (p : x86Program) (V : Addr) (callee : Addr)
    (args : List Value) (hu : use_empty m V = false)
    (hfresh : contains p.used_slots V = false) (hargs : Value.Other V ∉ args) :
    ∃ s : slot, Holds V s (handle_call m p V callee args) ∧
      (code_lines (emitted p (handle_call m p V callee args))).getLast?
        = some (x86Instruction.SrcDst "movq" (some (x86Source.Register "rax")) s.2) := by
  have h0 : FreshAfter p V p := ⟨⟨[], (List.append_nil _).symm⟩, hfresh⟩
  apply handle_call_labelled_defines m p _ V args hu _ hargs
  cases callee_entry_block m callee with
  | none => exact h0
  | some e => exact h0

theorem use_empty_of_use (m : Module) (fn : Function) (block : BasicBlock) (V : Addr)
    (j : Nat) (ops : List Value) (hfn : fn ∈ m) (hb : block ∈ fn.blocks)
    (hops : block.operand_lists[j]? = some ops) (hmem : Value.Other V ∈ ops) :
    use_empty m V = false := by
  have h1 : isUsedInBasicBlock block V = true :=
    (isUsedInBasicBlock_iff block V).mpr ⟨ops, List.mem_iff_getElem?.mpr ⟨j, hops⟩, hmem⟩
  simp only [use_empty, Bool.not_eq_false', List.any_eq_true]
  exact ⟨fn, hfn, block, hb, h1⟩

theorem prologue_defines (m : Module) (fn : Function) (block : BasicBlock) (p : x86Program)
    (V : Addr) (he : is_entry_block fn block = true)
    (hphi : block_starts_with_phi block = false) (hargs : fn.args = [V])
    (hu : use_empty m V = false)
    (hfresh : contains (prologue_state p block).used_slots V = false) :
    ∃ s : slot, Holds V s (handle_block_begin m fn block p) ∧
      (code_lines (emitted p (handle_block_begin m fn block p))).getLast?
        = some (x86Instruction.SrcDst "movq" (some (x86Source.Register "rdi")) s.2) := by
  have h0 : FreshAfter p V
      { (if contains (insert_instruction (labels_index p block.addr).2
            (x86Instruction.Label (labels_index p block.addr).1)).slot_backups
            (labels_index p block.addr).1 = true
          then restore_slots (insert_instruction (labels_index p block.addr).2
            (x86Instruction.Label (labels_index p block.addr).1)) (labels_index p block.addr).1
          else insert_instruction (labels_index p block.addr).2
            (x86Instruction.Label (labels_index p block.addr).1))
        with top_of_stack := -40 } := by
    have hc2 : contains (insert_instruction (labels_index p block.addr).2
        (x86Instruction.Label (labels_index p block.addr).1)).slot_backups
        (labels_index p block.addr).1
        = contains p.slot_backups (labels_index p block.addr).1 := rfl
    constructor
    · refine ⟨[x86Instruction.Label (labels_index p block.addr).1], ?_⟩
      split <;> rfl
    · rw [← hfresh]
      simp only [prologue_state, label_of, hc2]
      cases contains p.slot_backups (labels_index p block.addr).1 <;> rfl
  simp only [handle_block_begin, he, hphi, if_true, Bool.false_eq_true, if_false, prologue,
    hargs, hu, Bool.not_false]
  with_reducible apply defining_move
  repeat (first
    | with_reducible exact h0
    | with_reducible apply freshAfter_foldl_insert
    | with_reducible apply freshAfter_insert)

/-- C30: in a function of a single block without phi-nodes, a value V that is the argument
of the function, or the result of an add, sub, mul, div or call of the block, V having no
entry in used before it is defined and not being an operand of its own definition: the
definition ends with `movq %rdi, <slot>` (argument) or `movq %rax, <slot>` (instruction)
for some slot, and when a later instruction of the block that has V as an operand is
lowered, `query_slot` of V returns the operand of that same slot. -/
theorem query_reads_acquired_slot (m : Module) (fn : Function) (block : BasicBlock)
    (hfn : fn ∈ m) (hblocks : fn.blocks = [block])
    (hphi : block_starts_with_phi block = false) :
    (∀ (p : x86Program) (V : Addr) (n : Nat) (ops : List Value),
      fn.args = [V] → contains (prologue_state p block).used_slots V = false →
      block.operand_lists[n]? = some ops → Value.Other V ∈ ops →
      ∃ s : slot,
        (code_lines (emitted p (handle_block_begin m fn block p))).getLast?
          = some (x86Instruction.SrcDst "movq" (some (x86Source.Register "rdi")) s.2) ∧
        (query_slot (lower_range m fn block (handle_block_begin m fn block p) 0 n) V).1
          = s.2) ∧
    (∀ (p : x86Program) (i : Nat) (I : Instruction) (V : Addr) (n : Nat) (ops : List Value),
      block.body.get? i = some I → defines_value I V = true →
      contains p.used_slots V = false →
      block.operand_lists[i + 1 + n]? = some ops → Value.Other V ∈ ops →
      ∃ s : slot,
        (code_lines (emitted p (handle_at m fn block i p))).getLast?
          = some (x86Instruction.SrcDst "movq" (some (x86Source.Register "rax")) s.2) ∧
        (query_slot (lower_range m fn block
            (dust_out_slots fn block i (handle_at m fn block i p)) (i + 1) n) V).1
          = s.2) := by
  have hb : block ∈ fn.blocks := by rw [hblocks]; exact List.mem_singleton_self _
  have he : is_entry_block fn block = true := by simp [is_entry_block, hblocks]
  constructor
  · intro p V n ops hargs hfresh hops hmem
    have hu := use_empty_of_use m fn block V n ops hfn hb hops hmem
    obtain ⟨s, hs, hline⟩ := prologue_defines m fn block p V he hphi hargs hu hfresh
    have h := lower_range_holds m fn block V s n 0 _ hs ⟨ops, by simpa using hops, hmem⟩
    exact ⟨s, hline, query_of_holds V s _ h⟩
  · intro p i I V n ops hI hdef hfresh hops hmem
    have hu := use_empty_of_use m fn block V (i + 1 + n) ops hfn hb hops hmem
    have hdefs : ∃ s : slot, Holds V s (handle_at m fn block i p) ∧
        (code_lines (emitted p (handle_at m fn block i p))).getLast?
          = some (x86Instruction.SrcDst "movq" (some (x86Source.Register "rax")) s.2) := by
      unfold handle_at
      rw [hI]
      cases I with
      | Call a c args =>
        simp only [defines_value, Bool.and_eq_true, decide_eq_true_eq] at hdef
        obtain ⟨rfl, hargs⟩ := hdef
        exact handle_call_defines m p a c args hu hfresh hargs
      | Binary a opc x y =>
        simp only [defines_value, Bool.and_eq_true, decide_eq_true_eq] at hdef
        obtain ⟨⟨rfl, hx⟩, hy⟩ := hdef
        exact handle_binop_defines m p a _ x y hu hfresh hx hy
      | ICmp a pr x y => simp [defines_value] at hdef
      | PHI a inc => simp [defines_value] at hdef
      | Other a o => simp [defines_value] at hdef
    obtain ⟨s, hs, hline⟩ := hdefs
    have hlive : has_reachable_uses fn block i V = true :=
      has_reachable_uses_of_later_use fn block i (i + 1 + n) V ops (by omega) hops hmem
    have h1 := holds_dust_out_slots V s fn block i _ hlive hs
    have h := lower_range_holds m fn block V s n (i + 1) _ h1 ⟨ops, hops, hmem⟩
    exact ⟨s, hline, query_of_holds V s _ h⟩

set_option maxRecDepth 1000000 in
/-- Witness of C30: the value `%1` of `add_ret_module`, defined at position 0 and returned
at position 1. -/
theorem query_reads_acquired_slot_witness :
    contains (lower_steps add_ret_module 1).used_slots 11 = false ∧
    ∃ s : slot,
      (code_lines (emitted (lower_steps add_ret_module 1)
          (handle_at add_ret_module add_ret_function add_ret_block 0
            (lower_steps add_ret_module 1)))).getLast?
        = some (x86Instruction.SrcDst "movq" (some (x86Source.Register "rax")) s.2) ∧
      (query_slot (lower_range add_ret_module add_ret_function add_ret_block
          (dust_out_slots add_ret_function add_ret_block 0
            (handle_at add_ret_module add_ret_function add_ret_block 0
              (lower_steps add_ret_module 1))) (0 + 1) 0) 11).1
        = s.2 :=
  ⟨by decide,
   (query_reads_acquired_slot add_ret_module add_ret_function add_ret_block
      (by decide) (by decide) (by decide)).2 (lower_steps add_ret_module 1) 0
      (Instruction.Binary 11 BinaryOps.Add (Value.ConstantInt 2) (Value.ConstantInt 3)) 11 0
      [Value.Other 11] (by decide) (by decide) (by decide) (by decide) (by decide)⟩

set_option maxRecDepth 1000000 in
/-- The listing of `add_ret_module` after the header, comments apart: the add stores `%1`
with `movq %rax, %rbx` and the return reads it with `movq %rbx, %rax`. -/
theorem add_ret_listing :
    (code_lines ((lower add_ret_module).instructions.drop 10)).drop 8
      = [x86Instruction.SrcDst "movq" (some (x86Source.Immediate 2))
           (some (x86Source.Register "rax")),
         x86Instruction.SrcDst "add" (some (x86Source.Immediate 3))
           (some (x86Source.Register "rax")),
         x86Instruction.SrcDst "movq" (some (x86Source.Register "rax"))
           (some (x86Source.Register "rbx")),
         x86Instruction.SrcDst "movq" (some (x86Source.Register "rbx"))
           (some (x86Source.Register "rax")),
         x86Instruction.SrcDst "movq"
           (some (x86Source.Pointer (x86Source.Register "rbp") (-40)))
           (some (x86Source.Register "r15")),
         x86Instruction.SrcDst "movq"
           (some (x86Source.Pointer (x86Source.Register "rbp") (-32)))
           (some (x86Source.Register "r14")),
         x86Instruction.SrcDst "movq"
           (some (x86Source.Pointer (x86Source.Register "rbp") (-24)))
           (some (x86Source.Register "r13")),
         x86Instruction.SrcDst "movq"
           (some (x86Source.Pointer (x86Source.Register "rbp") (-16)))
           (some (x86Source.Register "r12")),
         x86Instruction.SrcDst "movq"
           (some (x86Source.Pointer (x86Source.Register "rbp") (-8)))
           (some (x86Source.Register "rbx")),
         x86Instruction.NoArg "leaveq",
         x86Instruction.NoArg "retq"] := by
  decide

/-! ## The order of the landing pads -/

theorem set_place_pairwise (a : Addr) (s : List Addr) (hs : s.Pairwise (fun x y => x < y))
    (ha : a ∉ s) : (set_place a s).Pairwise (fun x y => x < y) := by
  induction s with
  | nil => simp [set_place]
  | cons b rest ih =>
    rw [List.pairwise_cons] at hs
    unfold set_place
    split
    · rename_i hab
      rw [List.pairwise_cons]
      refine ⟨?_, List.pairwise_cons.mpr hs⟩
      intro x hx
      rcases List.mem_cons.mp hx with h | h
      · rw [h]; exact hab
      · exact lt_trans hab (hs.1 x h)
    · rename_i hab
      have hne : a ≠ b := fun e => ha (by rw [e]; exact List.mem_cons_self _ _)
      have hba : b < a := lt_of_le_of_ne (Nat.le_of_not_lt hab) (Ne.symm hne)
      rw [List.pairwise_cons]
      refine ⟨?_, ih hs.2 (fun h => ha (List.mem_cons_of_mem _ h))⟩
      intro x hx
      rcases (set_place_mem a x rest).mp hx with h | h
      · rw [h]; exact hba
      · exact hs.1 x h

theorem set_insert_pairwise (a : Addr) (s : List Addr)
    (hs : s.Pairwise (fun x y => x < y)) : (set_insert s a).Pairwise (fun x y => x < y) := by
  unfold set_insert
  split
  · exact hs
  · rename_i h
    exact set_place_pairwise a s hs h

theorem incoming_blocks_pairwise (block : BasicBlock) :
    (incoming_blocks_to_phi_batch block).Pairwise (fun x y => x < y) := by
  unfold incoming_blocks_to_phi_batch
  apply foldl_preserves (fun s : List Addr => s.Pairwise (fun x y => x < y))
  · intro s i hs
    exact foldl_preserves (fun s : List Addr => s.Pairwise (fun x y => x < y)) _
      (fun s a hs => set_insert_pairwise a s hs) _ s hs
  · exact List.Pairwise.nil

theorem handle_block_begin_pads (m : Module) (fn : Function) (block : BasicBlock)
    (p : x86Program) (hphi : block_starts_with_phi block = true)
    (hreg : ∀ P ∈ incoming_blocks_to_phi_batch block,
      contains p.phi_node_labels (P, block.addr) = true) :
    (handle_block_begin m fn block p).instructions
      = (batch_acquired m fn block p).instructions
        ++ (incoming_blocks_to_phi_batch block).flatMap
            (phi_pad_lines m block (phi_done_label p block) (batch_acquired m fn block p))
        ++ [x86Instruction.Label (some (phi_done_label p block))] := by
  have hb : handle_block_begin m fn block p
      = insert_instruction
          ((incoming_blocks_to_phi_batch block).foldl
            (phi_edge m block (phi_done_label p block)) (batch_acquired m fn block p))
          (x86Instruction.Label (some (phi_done_label p block))) := by
    simp only [handle_block_begin, hphi, if_true, phi_batch]
    rfl
  have hA : (batch_acquired m fn block p).phi_node_labels = p.phi_node_labels :=
    (phi_acquires_spec m (phi_nodes block) (batch_start m fn block p)).2.1.trans
      (batch_start_frame m fn block p).1
  have he := phi_edges_spec m block (phi_done_label p block) (batch_acquired m fn block p)
    (incoming_blocks_to_phi_batch block) (batch_acquired m fn block p) (fun _ => rfl) rfl
    (fun P hP => by rw [hA]; exact hreg P hP)
  rw [hb]
  simp only [insert_instruction, he.1]

/-- The set of predecessors over which `handle_block_begin` emits the landing pads of a
block holds the incoming blocks of the leading phi-nodes in strictly increasing order of
their addresses, and the pads are emitted in this order. -/
theorem landing_pads_in_address_order (m : Module) (fn : Function) (block : BasicBlock)
    (p : x86Program) (hphi : block_starts_with_phi block = true)
    (hreg : ∀ P ∈ incoming_blocks_to_phi_batch block,
      contains p.phi_node_labels (P, block.addr) = true) :
    (incoming_blocks_to_phi_batch block).Pairwise (fun x y => x < y) ∧
    (∀ P, P ∈ incoming_blocks_to_phi_batch block ↔ ∃ phi ∈ phi_nodes block, P ∈ phi.blocks) ∧
    (handle_block_begin m fn block p).instructions
      = (batch_acquired m fn block p).instructions
        ++ (incoming_blocks_to_phi_batch block).flatMap
            (phi_pad_lines m block (phi_done_label p block) (batch_acquired m fn block p))
        ++ [x86Instruction.Label (some (phi_done_label p block))] :=
  ⟨incoming_blocks_pairwise block, mem_incoming_blocks block,
    handle_block_begin_pads m fn block p hphi hreg⟩

set_option maxRecDepth 1000000 in
/-- The header of `counted_loop_module`, in the state the driver reaches it in: its
predecessors are listed in increasing order of their addresses. -/
theorem landing_pads_in_address_order_witness :
    block_starts_with_phi counted_loop_header = true ∧
    (incoming_blocks_to_phi_batch counted_loop_header).Pairwise (fun x y => x < y) :=
  ⟨by decide,
   (landing_pads_in_address_order counted_loop_module counted_loop_function
      counted_loop_header (lower_steps counted_loop_module 3) (by decide) (by decide)).1⟩

set_option maxRecDepth 1000000 in
/-- The order of the addresses matters. `diamond_module 2 3` and `diamond_module 3 2`
differ in the addresses of the blocks `%A` and `%B`, which are exchanged, a change that
does not keep the order of the addresses: the first listing holds the landing pad of `%A`
before that of `%B`, the second the pad of `%B` before that of `%A`, and the printed texts
differ. -/
theorem pad_order_follows_addresses :
    defined_labels (lower (diamond_module 2 3)).instructions
      = ["_start", "main", "__main_block_A", "__main_block_B", "__main_block_join",
         "__PHI_FROM___main_block_A_TO___main_block_join",
         "__PHI_FROM___main_block_B_TO___main_block_join",
         "__PHI_DONE___main_block_join"] ∧
    defined_labels (lower (diamond_module 3 2)).instructions
      = ["_start", "main", "__main_block_A", "__main_block_B", "__main_block_join",
         "__PHI_FROM___main_block_B_TO___main_block_join",
         "__PHI_FROM___main_block_A_TO___main_block_join",
         "__PHI_DONE___main_block_join"] ∧
    ((lower (diamond_module 2 3)).print).isSome = true ∧
    ((lower (diamond_module 3 2)).print).isSome = true ∧
    (lower (diamond_module 2 3)).print ≠ (lower (diamond_module 3 2)).print := by
  decide

/-! ## Callee-saved registers -/

theorem prologue_code_lines (m : Module) (fn : Function) (l : Option x86Label) (p : x86Program) :
    (code_lines (emitted p (prologue m fn l p))).take 7
      = [x86Instruction.Src "pushq" (some (x86Source.Register "rbp")),
         x86Instruction.SrcDst "movq" (some (x86Source.Register "rsp"))
           (some (x86Source.Register "rbp")),
         x86Instruction.Src "pushq" (some (x86Source.Register "rbx")),
         x86Instruction.Src "pushq" (some (x86Source.Register "r12")),
         x86Instruction.Src "pushq" (some (x86Source.Register "r13")),
         x86Instruction.Src "pushq" (some (x86Source.Register "r14")),
         x86Instruction.Src "pushq" (some (x86Source.Register "r15"))] := by
  rcases hargs : fn.args with _ | ⟨a, _ | ⟨b, rest⟩⟩
  · simp [prologue, hargs, CALLEE_SAVED_REGISTERS, insert_instruction, emitted, code_lines,
      is_comment]
  · cases hu : use_empty m a <;> cases hq : p.available_slots <;>
    simp [prologue, hargs, hu, CALLEE_SAVED_REGISTERS, insert_instruction, acquire_slot,
      acquire_spill, emitted, code_lines, is_comment, hq]
  · simp [prologue, hargs, CALLEE_SAVED_REGISTERS, insert_instruction, emitted, code_lines,
      is_comment]

theorem handle_ret_code_lines (q : x86Program) (v : Option Value) :
    ∃ pre : List x86Instruction,
      (pre = [] ∨
        ∃ src, pre = [x86Instruction.SrcDst "movq" src (some (x86Source.Register "rax"))]) ∧
      code_lines (emitted q (handle_ret q v)) = pre ++
        [x86Instruction.SrcDst "movq" (some (x86Source.Pointer (x86Source.Register "rbp") (-40)))
              (some (x86Source.Register "r15")),
            x86Instruction.SrcDst "movq" (some (x86Source.Pointer (x86Source.Register "rbp") (-32)))
              (some (x86Source.Register "r14")),
            x86Instruction.SrcDst "movq" (some (x86Source.Pointer (x86Source.Register "rbp") (-24)))
              (some (x86Source.Register "r13")),
            x86Instruction.SrcDst "movq" (some (x86Source.Pointer (x86Source.Register "rbp") (-16)))
              (some (x86Source.Register "r12")),
            x86Instruction.SrcDst "movq" (some (x86Source.Pointer (x86Source.Register "rbp") (-8)))
              (some (x86Source.Register "rbx")),
            x86Instruction.NoArg "leaveq",
            x86Instruction.NoArg "retq"] := by
  cases v with
  | none =>
    refine ⟨[], Or.inl rfl, ?_⟩
    simp [handle_ret, CALLEE_SAVED_REGISTERS, insert_instruction, emitted, code_lines, is_comment]
  | some v =>
    refine ⟨[x86Instruction.SrcDst "movq" (source_of (insert_instruction q
      (x86Instruction.Comment "sticking return value into %rax")) v).1
      (some (x86Source.Register "rax"))], Or.inr ⟨_, rfl⟩, ?_⟩
    cases v with
    | ConstantInt c =>
      simp [handle_ret, CALLEE_SAVED_REGISTERS, insert_instruction, emitted, code_lines,
        is_comment, source_of]
    | Other V =>
      simp [handle_ret, CALLEE_SAVED_REGISTERS, insert_instruction, emitted, code_lines,
        is_comment, source_of, query_slot]

theorem machine_run_comment_free (s : Machine) (lines : List x86Instruction) :
    s.run (code_lines lines) = s.run lines := by
  induction lines generalizing s with
  | nil => rfl
  | cons i rest ih =>
    cases i <;> simp [code_lines, is_comment, Machine.run, Machine.step] <;> exact ih _

theorem prologue_saves_run (s s2 : Machine)
    (h : s2 = s.run
      [x86Instruction.Src "pushq" (some (x86Source.Register "rbp")),
       x86Instruction.SrcDst "movq" (some (x86Source.Register "rsp"))
         (some (x86Source.Register "rbp")),
       x86Instruction.Src "pushq" (some (x86Source.Register "rbx")),
       x86Instruction.Src "pushq" (some (x86Source.Register "r12")),
       x86Instruction.Src "pushq" (some (x86Source.Register "r13")),
       x86Instruction.Src "pushq" (some (x86Source.Register "r14")),
       x86Instruction.Src "pushq" (some (x86Source.Register "r15"))]) :
    s2.reg "rbp" = s.reg "rsp" - 8 ∧ s2.reg "rsp" = s2.reg "rbp" - 40 ∧
    (∀ a, a = s2.reg "rbp" + -8 → s2.mem a = s.reg "rbx") ∧
    (∀ a, a = s2.reg "rbp" + -16 → s2.mem a = s.reg "r12") ∧
    (∀ a, a = s2.reg "rbp" + -24 → s2.mem a = s.reg "r13") ∧
    (∀ a, a = s2.reg "rbp" + -32 → s2.mem a = s.reg "r14") ∧
    (∀ a, a = s2.reg "rbp" + -40 → s2.mem a = s.reg "r15") := by
  subst h
  simp only [Machine.run, List.foldl, Machine.step, Machine.set_reg, Machine.set_mem,
    Machine.read, Machine.write]
  simp only [String.reduceEq, if_true, if_false]
  refine ⟨trivial, ?_, ?_, ?_, ?_, ?_, ?_⟩
  · omega
  all_goals
    intro a ha
    subst ha
    repeat
      first
        | rfl
        | rw [if_neg (by omega)]
        | rw [if_pos (by omega)]

theorem epilogue_run (t t2 : Machine) (pre : List x86Instruction)
    (hpre : pre = [] ∨
      ∃ src, pre = [x86Instruction.SrcDst "movq" src (some (x86Source.Register "rax"))])
    (h : t2 = t.run (pre ++
      [x86Instruction.SrcDst "movq" (some (x86Source.Pointer (x86Source.Register "rbp") (-40)))
         (some (x86Source.Register "r15")),
       x86Instruction.SrcDst "movq" (some (x86Source.Pointer (x86Source.Register "rbp") (-32)))
         (some (x86Source.Register "r14")),
       x86Instruction.SrcDst "movq" (some (x86Source.Pointer (x86Source.Register "rbp") (-24)))
         (some (x86Source.Register "r13")),
       x86Instruction.SrcDst "movq" (some (x86Source.Pointer (x86Source.Register "rbp") (-16)))
         (some (x86Source.Register "r12")),
       x86Instruction.SrcDst "movq" (some (x86Source.Pointer (x86Source.Register "rbp") (-8)))
         (some (x86Source.Register "rbx")),
       x86Instruction.NoArg "leaveq",
       x86Instruction.NoArg "retq"])) :
    (∀ a, a = t.reg "rbp" + -8 → t2.reg "rbx" = t.mem a) ∧
    (∀ a, a = t.reg "rbp" + -16 → t2.reg "r12" = t.mem a) ∧
    (∀ a, a = t.reg "rbp" + -24 → t2.reg "r13" = t.mem a) ∧
    (∀ a, a = t.reg "rbp" + -32 → t2.reg "r14" = t.mem a) ∧
    (∀ a, a = t.reg "rbp" + -40 → t2.reg "r15" = t.mem a) := by
  subst h
  rcases hpre with rfl | ⟨src, rfl⟩ <;>
  simp [Machine.run, Machine.step, Machine.set_reg, Machine.set_mem, Machine.read,
    Machine.write]

/-- C31: callee-saved registers are restored from where they were saved. For `k` in 0..4
and `r` the `k`-th of rbx, r12, r13, r14, r15: the prologue emits, comments apart,
`pushq %rbp`, `movq %rsp, %rbp` and then `pushq %r` as its `(k+1)`-th push; on a machine
these lines leave the content that `r` had at entry in the cell at `-8(k+1)` from the new
`%rbp`, with `%rsp` 40 below `%rbp`; the lines of `handle_ret` hold
`movq -8(k+1)(%rbp), %r`, and on a machine they leave in `r` the content of the cell at
`-8(k+1)` from `%rbp`. So when the body of the function has kept `%rbp` and that cell, `r`
has its content of entry again after the epilogue. -/
theorem callee_saved_restored_from_save_slot (m : Module) (fn : Function)
    (l : Option x86Label) (p q : x86Program) (v : Option Value) (s t : Machine) (k : Nat)
    (hk : k < 5) :
    ∃ r, CALLEE_SAVED_REGISTERS[k]? = some r ∧
      (code_lines (emitted p (prologue m fn l p)))[1]?
        = some (x86Instruction.SrcDst "movq" (some (x86Source.Register "rsp"))
            (some (x86Source.Register "rbp"))) ∧
      (code_lines (emitted p (prologue m fn l p)))[2 + k]?
        = some (x86Instruction.Src "pushq" (some (x86Source.Register r))) ∧
      (s.run ((code_lines (emitted p (prologue m fn l p))).take 7)).reg "rbp"
        = s.reg "rsp" - 8 ∧
      (s.run ((code_lines (emitted p (prologue m fn l p))).take 7)).reg "rsp"
        = (s.run ((code_lines (emitted p (prologue m fn l p))).take 7)).reg "rbp" - 40 ∧
      (s.run ((code_lines (emitted p (prologue m fn l p))).take 7)).mem
          ((s.run ((code_lines (emitted p (prologue m fn l p))).take 7)).reg "rbp"
            + -8 * ((k : Int) + 1))
        = s.reg r ∧
      x86Instruction.SrcDst "movq"
          (some (x86Source.Pointer (x86Source.Register "rbp") (-8 * ((k : Int) + 1))))
          (some (x86Source.Register r)) ∈ emitted q (handle_ret q v) ∧
      (t.run (emitted q (handle_ret q v))).reg r = t.mem (t.reg "rbp" + -8 * ((k : Int) + 1)) ∧
      (t.reg "rbp" = (s.run ((code_lines (emitted p (prologue m fn l p))).take 7)).reg "rbp" →
        t.mem (t.reg "rbp" + -8 * ((k : Int) + 1))
          = (s.run ((code_lines (emitted p (prologue m fn l p))).take 7)).mem
              (t.reg "rbp" + -8 * ((k : Int) + 1)) →
        (t.run (emitted q (handle_ret q v))).reg r = s.reg r) := by
  have hp := prologue_code_lines m fn l p
  obtain ⟨pre, hpre, hr⟩ := handle_ret_code_lines q v
  have hget : ∀ i, i < 7 → (code_lines (emitted p (prologue m fn l p)))[i]?
      = ((code_lines (emitted p (prologue m fn l p))).take 7)[i]? :=
    fun i hi => by rw [List.getElem?_take, if_pos hi]
  have hmem : ∀ i, i ∈ code_lines (emitted q (handle_ret q v)) → i ∈ emitted q (handle_ret q v) :=
    fun i hi => List.mem_of_mem_filter hi
  obtain ⟨a1, a2, a3, a4, a5, a6, a7⟩ := prologue_saves_run s
    (s.run ((code_lines (emitted p (prologue m fn l p))).take 7)) (by rw [hp])
  obtain ⟨b3, b4, b5, b6, b7⟩ := epilogue_run t (t.run (emitted q (handle_ret q v))) pre hpre
    (by rw [← machine_run_comment_free, hr])
  interval_cases k
  all_goals
    first
      | refine ⟨"rbx", rfl, ?_, ?_, a1, a2, a3 _ (by omega), ?_, b3 _ (by omega), ?_⟩
      | refine ⟨"r12", rfl, ?_, ?_, a1, a2, a4 _ (by omega), ?_, b4 _ (by omega), ?_⟩
      | refine ⟨"r13", rfl, ?_, ?_, a1, a2, a5 _ (by omega), ?_, b5 _ (by omega), ?_⟩
      | refine ⟨"r14", rfl, ?_, ?_, a1, a2, a6 _ (by omega), ?_, b6 _ (by omega), ?_⟩
      | refine ⟨"r15", rfl, ?_, ?_, a1, a2, a7 _ (by omega), ?_, b7 _ (by omega), ?_⟩
    · rw [hget 1 (by decide), hp]; rfl
    · rw [hget _ (by decide), hp]; rfl
    · apply hmem; rw [hr]; simp
    · intro h1 h2
      refine Eq.trans ?_ (Eq.trans h2 ?_)
      · first
          | exact b3 _ (by omega)
          | exact b4 _ (by omega)
          | exact b5 _ (by omega)
          | exact b6 _ (by omega)
          | exact b7 _ (by omega)
      · rw [h1]
        first
          | exact a3 _ (by omega)
          | exact a4 _ (by omega)
          | exact a5 _ (by omega)
          | exact a6 _ (by omega)
          | exact a7 _ (by omega)

set_option maxRecDepth 100000 in
/-- Witness of C31: the register r13 (`k = 2`) in the prologue of `main` of
`two_branch_module` and in the epilogue of its block `%t`, on a machine whose registers and
cells all hold 7. -/
theorem callee_saved_restored_from_save_slot_witness :
    (2 : Nat) < 5 ∧
    x86Instruction.SrcDst "movq"
        (some (x86Source.Pointer (x86Source.Register "rbp") (-8 * (((2 : Nat) : Int) + 1))))
        (some (x86Source.Register "r13"))
      ∈ emitted (lower_steps two_branch_module 11)
          (handle_ret (lower_steps two_branch_module 11) (some (Value.Other 10))) := by
  obtain ⟨r, h1, _, _, _, _, _, h7, _⟩ :=
    callee_saved_restored_from_save_slot two_branch_module two_branch_function
      (label_of (x86Program.construct two_branch_module) 1)
      (x86Program.construct two_branch_module) (lower_steps two_branch_module 11)
      (some (Value.Other 10)) ⟨fun _ => 7, fun _ => 7⟩ ⟨fun _ => 7, fun _ => 7⟩ 2 (by decide)
  have hr : r = "r13" := by
    have : CALLEE_SAVED_REGISTERS[2]? = some "r13" := rfl
    rw [this] at h1
    exact (Option.some.inj h1).symm
  subst hr
  exact ⟨by decide, h7⟩

/-! ## Termination of the liveness walk -/

theorem successors_loop_fuel_some (fn : Function) (base : List Addr)
    (search : Addr → List Addr × List Addr → Option (Bool × (List Addr × List Addr)))
    (search0 : Addr → List Addr → Bool × List Addr) (f : Nat)
    (hrec : ∀ b st, ((find_block fn b).isSome = true → (unseen_blocks fn st.1).card < f) →
      ∃ r, search b st = some r ∧ r.1 = (search0 b st.1).1 ∧ r.2.1 = (search0 b st.1).2 ∧
        st.1 ⊆ r.2.1 ∧ (WalkInv base (st.1, st.2 ++ [b]) → WalkInv base r.2))
    (succs : List Addr) (st : List Addr × List Addr)
    (hfuel : (unseen_blocks fn st.1).card ≤ f) :
    ∃ r, successors_loop_fuel search succs st = some r ∧
      r.1 = (successors_loop search0 succs st.1).1 ∧
      r.2.1 = (successors_loop search0 succs st.1).2 ∧
      st.1 ⊆ r.2.1 ∧ (WalkInv base st → WalkInv base r.2) := by
  induction succs generalizing st with
  | nil =>
    exact ⟨(false, st), rfl, rfl, rfl, fun _ hx => hx, fun h => h⟩
  | cons c rest ih =>
    unfold successors_loop_fuel successors_loop
    by_cases hc : c ∈ st.1
    · rw [if_pos hc, if_pos hc]
      exact ih st hfuel
    · rw [if_neg hc, if_neg hc]
      have hfuel1 : (find_block fn c).isSome = true →
          (unseen_blocks fn (c :: st.1)).card < f :=
        fun hsome => lt_of_lt_of_le (unseen_blocks_card_lt fn st.1 c hsome hc) hfuel
      obtain ⟨r, h1, h2, h3, h4, h5⟩ := hrec c (c :: st.1, st.2) hfuel1
      have hsub : st.1 ⊆ r.2.1 := fun x hx => h4 (List.mem_cons_of_mem _ hx)
      have hinv : WalkInv base st → WalkInv base r.2 := by
        intro hw
        apply h5
        refine ⟨List.nodup_cons.mpr ⟨hc, hw.1⟩, ?_⟩
        show c :: st.1 = (st.2 ++ [c]).reverse ++ base
        rw [hw.2]
        simp
      simp only [h1]
      cases hr : r.1 with
      | true =>
        refine ⟨(true, r.2), by simp, ?_, ?_, hsub, hinv⟩
        · simp [← h2, hr]
        · simp [← h2, hr, h3]
      | false =>
        have hfuel2 : (unseen_blocks fn r.2.1).card ≤ f :=
          le_trans (unseen_blocks_card_mono fn _ _ hsub) hfuel
        obtain ⟨r2, g1, g2, g3, g4, g5⟩ := ih r.2 hfuel2
        refine ⟨r2, by simpa using g1, ?_, ?_, fun x hx => g4 (hsub hx), fun hw => g5 (hinv hw)⟩
        · simp only [← h2, hr, ← h3]
          simpa using g2
        · simp only [← h2, hr, ← h3]
          simpa using g3

theorem recursively_check_fuel_some (fn : Function) (value : Addr) (base : List Addr)
    (fuel fuel0 : Nat) (b : Addr) (st : List Addr × List Addr)
    (hfuel : (find_block fn b).isSome = true → (unseen_blocks fn st.1).card < fuel)
    (hfuel0 : (find_block fn b).isSome = true → (unseen_blocks fn st.1).card < fuel0) :
    ∃ r, recursively_check_for_uses_fuel fn value fuel b st = some r ∧
      r.1 = (recursively_check_for_uses fn value fuel0 b st.1).1 ∧
      r.2.1 = (recursively_check_for_uses fn value fuel0 b st.1).2 ∧
      st.1 ⊆ r.2.1 ∧ (WalkInv base (st.1, st.2 ++ [b]) → WalkInv base r.2) := by
  induction fuel generalizing fuel0 b st with
  | zero =>
    unfold recursively_check_for_uses_fuel recursively_check_for_uses
    cases hfb : find_block fn b with
    | none => exact ⟨_, rfl, rfl, rfl, fun _ hx => hx, fun h => h⟩
    | some blk =>
      have := hfuel (by simp [hfb])
      omega
  | succ F ih =>
    cases hfb : find_block fn b with
    | none =>
      unfold recursively_check_for_uses_fuel recursively_check_for_uses
      simp only [hfb]
      exact ⟨_, rfl, rfl, rfl, fun _ hx => hx, fun h => h⟩
    | some blk =>
      cases fuel0 with
      | zero =>
        have := hfuel0 (by simp [hfb])
        omega
      | succ F0 =>
        unfold recursively_check_for_uses_fuel recursively_check_for_uses
        simp only [hfb]
        by_cases hu : isUsedInBasicBlock blk value = true
        · rw [if_pos hu, if_pos hu]
          exact ⟨_, rfl, rfl, rfl, fun _ hx => hx, fun h => h⟩
        · rw [if_neg hu, if_neg hu]
          have hc1 := hfuel (by simp [hfb])
          have hc0 := hfuel0 (by simp [hfb])
          exact successors_loop_fuel_some fn base
            (recursively_check_for_uses_fuel fn value F)
            (recursively_check_for_uses fn value F0) (min F F0)
            (fun b2 st2 hb2 => ih F0 b2 st2
              (fun hs => lt_of_lt_of_le (hb2 hs) (min_le_left _ _))
              (fun hs => lt_of_lt_of_le (hb2 hs) (min_le_right _ _)))
            blk.terminator.successors (st.1, st.2 ++ [b])
            (le_min (Nat.lt_succ_iff.mp hc1) (Nat.lt_succ_iff.mp hc0))

/-- C32: the liveness walk terminates. With any fuel that is at least the number of blocks
of the function, on any control-flow graph (cycles and self-loops included),
`has_reachable_uses` runs to its end without using the fuel up and gives the result of
`has_reachable_uses`; and `recursively_check_for_uses` is called at most once on each
block. -/
theorem liveness_walk_terminates (fn : Function) (block : BasicBlock) (it : Nat)
    (value : Addr) (fuel : Nat) (hfuel : fn.blocks.length ≤ fuel) :
    ∃ calls, has_reachable_uses_fuel fn block it value fuel
        = some (has_reachable_uses fn block it value, calls) ∧ calls.Nodup := by
  unfold has_reachable_uses_fuel has_reachable_uses
  by_cases hl : later_use_in_block block it value = true
  · rw [if_pos hl, if_pos hl]
    exact ⟨[], rfl, List.nodup_nil⟩
  · rw [if_neg hl, if_neg hl]
    have hcard : (unseen_blocks fn []).card ≤ fn.blocks.length := by
      have := List.toFinset_card_le (fn.blocks.map (fun b => b.addr))
      simpa [unseen_blocks] using this
    obtain ⟨r, h1, h2, _, _, h5⟩ := successors_loop_fuel_some fn []
      (recursively_check_for_uses_fuel fn value fuel)
      (recursively_check_for_uses fn value fn.blocks.length) fn.blocks.length
      (fun b st hb => recursively_check_fuel_some fn value [] fuel fn.blocks.length b st
        (fun hs => lt_of_lt_of_le (hb hs) hfuel) hb)
      block.terminator.successors ([], []) hcard
    have hw : WalkInv [] r.2 := h5 ⟨List.nodup_nil, rfl⟩
    refine ⟨r.2.2, ?_, ?_⟩
    · rw [h1]
      show some (r.1, r.2.2) = _
      rw [h2]
    · have h := hw.1
      rw [hw.2, List.append_nil] at h
      exact List.nodup_reverse.mp h

set_option maxRecDepth 100000 in
/-- Witness of C32: the block `%loop` of `loop_function`, which is its own successor, and
the value `%next`, from the position of the compare, with fuel 3. -/
theorem liveness_walk_terminates_witness :
    loop_function.blocks.length ≤ 3 ∧
    ∃ calls, has_reachable_uses_fuel loop_function loop_header 2 12 3
        = some (has_reachable_uses loop_function loop_header 2 12, calls) ∧ calls.Nodup :=
  ⟨by decide, liveness_walk_terminates loop_function loop_header 2 12 3 (by decide)⟩

set_option maxRecDepth 100000 in
/-- The walk on `loop_function` from its entry block, for a value that no block uses: the
blocks `%loop`, which is its own successor, and `%exit` are each visited once; with fuel 1
the walk runs out of fuel. -/
theorem liveness_walk_on_loop :
    has_reachable_uses_fuel loop_function
        { addr := 1, name := "%entry", body := [], terminator := Terminator.Br 2 } 0 99 3
      = some (false, [2, 3]) ∧
    has_reachable_uses_fuel loop_function
        { addr := 1, name := "%entry", body := [], terminator := Terminator.Br 2 } 0 99 1
      = none := by
  decide

/-! ## The sweep after a return -/

theorem has_reachable_uses_at_return (fn : Function) (block : BasicBlock) (value : Addr)
    (hs : block.terminator.successors = []) :
    has_reachable_uses fn block block.body.length value = false := by
  have hdrop : block.operand_lists.drop (block.body.length + 1) = [] := by
    apply List.drop_of_length_le
    simp [BasicBlock.operand_lists]
  simp [has_reachable_uses, later_use_in_block, hdrop, hs, successors_loop]

/-- C33: the sweep after a terminator without successors, such as a return, releases every
value, whatever the allocator state and whatever the other blocks of the function use:
afterwards used is empty and free is the free queue of before followed by the slots of
used, in key order; no line is emitted and `top_of_stack` is unchanged. The keys of used
are distinct, as in every `std::map`. -/
theorem sweep_after_return_releases_all (fn : Function) (block : BasicBlock) (p : x86Program)
    (hs : block.terminator.successors = [])
    (hmap : (p.used_slots.map Prod.fst).Nodup) :
    (dust_out_slots fn block block.body.length p).used_slots = [] ∧
    (dust_out_slots fn block block.body.length p).available_slots
      = p.available_slots ++ p.used_slots.map Prod.snd ∧
    (∀ e ∈ p.used_slots, e.2 ∈ (dust_out_slots fn block block.body.length p).available_slots) ∧
    (dust_out_slots fn block block.body.length p).instructions = p.instructions ∧
    (dust_out_slots fn block block.body.length p).top_of_stack = p.top_of_stack := by
  have hdead := fun value => has_reachable_uses_at_return fn block value hs
  have hfree : (dust_out_slots fn block block.body.length p).available_slots
      = p.available_slots ++ p.used_slots.map Prod.snd := by
    unfold dust_out_slots
    rw [dust_fold_available fn block _ _ p hmap]
    congr 1
    rw [released_slots_eq (fun a => has_reachable_uses fn block block.body.length a)
      p.used_slots p.used_slots (fun e he => map_find_of_mem_nodup p.used_slots hmap e he)]
    congr 1
    apply List.filter_eq_self.mpr
    intro e _
    simp [hdead]
  refine ⟨?_, hfree, ?_, ?_, ?_⟩
  · unfold dust_out_slots
    rw [dust_fold_used]
    apply List.filter_eq_nil_iff.mpr
    intro e he
    have : e.1 ∈ p.used_slots.map (fun e => e.1) := List.mem_map_of_mem _ he
    simp [this, hdead]
  · intro e he
    rw [hfree]
    exact List.mem_append_right _ (List.mem_map_of_mem _ he)
  · exact (dust_fold_frame fn block _ _ p).1
  · exact (dust_fold_frame fn block _ _ p).2.1

set_option maxRecDepth 1000000 in
/-- Witness of C33: the sweep after `ret i64 0` of block `%B` of `early_return_module`.
Before it `%y` holds `%rcx`; the block `%J`, which is lowered later, returns `%y`. -/
theorem sweep_after_return_releases_all_witness :
    early_return_block.terminator.successors = [] ∧
    map_find (lower_steps early_return_module 12).used_slots 12
      = some (-11, some (x86Source.Register "rcx")) ∧
    isUsedInBasicBlock early_return_join 12 = true ∧
    (dust_out_slots early_return_function early_return_block early_return_block.body.length
      (lower_steps early_return_module 12)).used_slots = [] :=
  ⟨rfl, by decide, by decide,
   (sweep_after_return_releases_all early_return_function early_return_block
      (lower_steps early_return_module 12) rfl (by decide)).1⟩

set_option maxRecDepth 1000000 in
/-- In `early_return_module` the value `%y` is released by the sweep after the return of
`%B`; the return of `%J`, lowered next, reads the null slot for it, and the listing cannot
be printed. -/
theorem early_return_reads_null_slot :
    lower_steps early_return_module 13
      = dust_out_slots early_return_function early_return_block early_return_block.body.length
          (lower_steps early_return_module 12) ∧
    (code_lines
        (emitted (lower_steps early_return_module 14) (lower_steps early_return_module 15))).head?
      = some (x86Instruction.SrcDst "movq" none (some (x86Source.Register "rax"))) ∧
    (lower early_return_module).print = none := by
  refine ⟨rfl, by decide, by decide⟩

/-! ## Storage across functions -/

set_option maxRecDepth 1000000 in
/-- C34 fails on the code. In `spill_module` the function `f` leaves its spill slot
`(48, -48(%rbp))` in the free queue, and the entry of `main` resets `top_of_stack` to -40.
For `%v13` of `main`, `acquire_slot` hands out `-48(%rbp)` without a `sub $8, %rsp`: the
cell is below `top_of_stack`, which is still -40 after the handler (75 steps of the
driver). For `%s2`, the queue being empty, it builds `-48(%rbp)` again: after 77 steps the
two distinct values `%v13` and `%s2` hold the same cell. -/
theorem spill_slot_shared_across_functions :
    ((48, some (x86Source.Pointer (x86Source.Register "rbp") (-48))) : slot)
      ∈ (lower_steps spill_module 50).available_slots ∧
    (lower_steps spill_module 50).top_of_stack = -40 ∧
    map_find (lower_steps spill_module 74).used_slots 2013 = none ∧
    map_find (lower_steps spill_module 75).used_slots 2013
      = some (48, some (x86Source.Pointer (x86Source.Register "rbp") (-48))) ∧
    (lower_steps spill_module 75).top_of_stack = -40 ∧
    spill_count (emitted (lower_steps spill_module 49) (lower_steps spill_module 75)) = 0 ∧
    spills_within_stack (lower_steps spill_module 75) = false ∧
    map_find (lower_steps spill_module 77).used_slots 2013
      = some (48, some (x86Source.Pointer (x86Source.Register "rbp") (-48))) ∧
    map_find (lower_steps spill_module 77).used_slots 2102
      = some (48, some (x86Source.Pointer (x86Source.Register "rbp") (-48))) ∧
    storage_distinct (lower_steps spill_module 77) = false := by
  decide

/-! ## Values stay in their slot across blocks -/

section TrackLemmas

variable {V : Addr} {s : slot} {lab : Addr → Option x86Label} {P : Option x86Label → Prop}
  {held : Bool}

end TrackLemmas

/-- An evaluation: in `loop_module`, the phi-edge move emitted at the beginning of the loop
header for the back edge reads `%next` before any acquire of it, and the move has a null
source. -/
theorem loop_phi_move_null_source :
    x86Instruction.SrcDst "movq" none (some (x86Source.Register "rbx")) ∈
      (lower_steps loop_module 4).instructions := by
  decide


/-! ## Independence of the placement of the module -/

section RelocateMaps

variable {K K2 W W2 : Type} [DecidableEq K] [DecidableEq K2]

end RelocateMaps

theorem relocate_insert (f : Addr → Addr) (q : x86Program) (i : x86Instruction) :
    insert_instruction (q.relocate f) (i.relocate f) = (insert_instruction q i).relocate f := by
  simp [insert_instruction, x86Program.relocate]

theorem relocate_insert_imm (f : Addr → Addr) (q : x86Program) (o : String) (a : Int) :
    insert_instruction (q.relocate f) (x86Instruction.Imm o a)
      = (insert_instruction q (x86Instruction.Imm o a)).relocate f :=
  relocate_insert f q (x86Instruction.Imm o a)

theorem relocate_insert_directive (f : Addr → Addr) (q : x86Program) (c : String) :
    insert_instruction (q.relocate f) (x86Instruction.Directive c)
      = (insert_instruction q (x86Instruction.Directive c)).relocate f :=
  relocate_insert f q (x86Instruction.Directive c)

end X86
